import Mathlib

/-!
Shallow embedding of the jdb timeseries store (github.com/jspc/jdb).

Modelling conventions, chosen once and used throughout:

* Go strings are byte sequences and may contain arbitrary bytes, including
  NUL; they are modelled as `Str := List Nat`, where well-formed byte
  strings have every entry `< 256` (carried as a hypothesis where a proof
  needs it).
* Go `time.Time` values are modelled by their instant as `Int` nanoseconds
  since the Unix epoch.  The zero `time.Time` (January 1, year 1 UTC) is the
  constant `goZeroTime`; `IsZero` is equality with it.  `time.Now()` is an
  explicit `now : Int` parameter threaded into every operation that reads
  the clock.
* Go maps are modelled as association lists with unique keys; insertion of
  a fresh key appends it.  Go's randomized iteration order is resolved by
  the code itself wherever it matters (results are sorted), so the list
  order is a faithful representative.
* `float64` dimension values are only ever stored and returned by the
  engine (never computed with), so they are modelled as an uninterpreted
  `Int` payload.
* `slices.SortFunc` (pattern-defeating quicksort, unstable) is modelled as
  a deterministic insertion sort; the two agree wherever the comparator is
  strict on the elements being sorted.
-/

/-- Go byte strings (`string` / `[]byte`): lists of bytes. -/
abbrev Str := List Nat

/-- Every byte of the string is an actual byte (`< 256`). -/
def StrWF (s : Str) : Prop := ∀ b ∈ s, b < 256

instance (s : Str) : Decidable (StrWF s) := by unfold StrWF; infer_instance

/-! ### Association lists: the model of Go maps -/

/-- `m[k]` with presence test: Go's `v, ok := m[k]`. -/
def alookup {α β : Type} [DecidableEq α] (l : List (α × β)) (k : α) : Option β :=
  (l.find? (fun p => p.1 = k)).map (fun p => p.2)

/-- `m[k] = f old` — update an existing key in place, or append a new one.
Models Go map assignment. -/
def aupd {α β : Type} [DecidableEq α] (k : α) (f : Option β → β) :
    List (α × β) → List (α × β)
  | [] => [(k, f none)]
  | (k₁, v) :: rest => if k₁ = k then (k, f (some v)) :: rest else (k₁, v) :: aupd k f rest

/-- Apply `f` to every value of the map (used to model the bulk re-sort
of every shard after boot replay). -/
def mapVals {α β γ : Type} (f : β → γ) (l : List (α × β)) : List (α × γ) :=
  l.map (fun p => (p.1, f p.2))

/-- The keys of the map, in list order. -/
def akeys {α β : Type} (l : List (α × β)) : List α := l.map (fun p => p.1)

theorem alookup_nil {α β : Type} [DecidableEq α] (k : α) :
    alookup ([] : List (α × β)) k = none := rfl

theorem alookup_cons {α β : Type} [DecidableEq α] (k₁ k : α) (v : β) (l : List (α × β)) :
    alookup ((k₁, v) :: l) k = if k₁ = k then some v else alookup l k := by
  simp only [alookup, List.find?]
  by_cases h : k₁ = k <;> simp [h]

theorem alookup_aupd_self {α β : Type} [DecidableEq α] (k : α) (f : Option β → β)
    (l : List (α × β)) : alookup (aupd k f l) k = some (f (alookup l k)) := by
  induction l with
  | nil => simp [aupd, alookup_cons, alookup_nil]
  | cons p rest ih =>
    obtain ⟨k₁, v⟩ := p
    by_cases h : k₁ = k
    · simp [aupd, h, alookup_cons]
    · simp [aupd, h, alookup_cons, ih]

theorem alookup_aupd_other {α β : Type} [DecidableEq α] (k k₂ : α) (f : Option β → β)
    (l : List (α × β)) (hne : k ≠ k₂) : alookup (aupd k f l) k₂ = alookup l k₂ := by
  induction l with
  | nil => simp [aupd, alookup_cons, hne]
  | cons p rest ih =>
    obtain ⟨k₁, v⟩ := p
    by_cases h : k₁ = k
    · subst h; simp [aupd, alookup_cons, hne, ih]
    · simp [aupd, h, alookup_cons, ih]

theorem akeys_aupd {α β : Type} [DecidableEq α] (k : α) (f : Option β → β)
    (l : List (α × β)) :
    akeys (aupd k f l) = if k ∈ akeys l then akeys l else akeys l ++ [k] := by
  induction l with
  | nil => simp [aupd, akeys]
  | cons p rest ih =>
    obtain ⟨k₁, v⟩ := p
    by_cases h : k₁ = k
    · subst h; simp [aupd, akeys]
    · have h₂ : ¬k = k₁ := fun hh => h hh.symm
      simp only [aupd, if_neg h, akeys, List.map_cons]
      simp only [akeys] at ih
      rw [ih]
      by_cases hm : k ∈ List.map (fun p => p.1) rest <;>
        simp [hm, h₂, List.mem_cons]

theorem akeys_mapVals {α β γ : Type} (f : β → γ) (l : List (α × β)) :
    akeys (mapVals f l) = akeys l := by
  induction l with
  | nil => rfl
  | cons p rest ih => simp [mapVals, akeys]

theorem alookup_mapVals {α β γ : Type} [DecidableEq α] (f : β → γ) (l : List (α × β))
    (k : α) : alookup (mapVals f l) k = (alookup l k).map f := by
  induction l with
  | nil => rfl
  | cons p rest ih =>
    obtain ⟨k₁, v⟩ := p
    have hc : mapVals f ((k₁, v) :: rest) = (k₁, f v) :: mapVals f rest := rfl
    rw [hc]
    by_cases h : k₁ = k <;> simp [alookup_cons, h, ih]

theorem mem_akeys_of_alookup_isSome {α β : Type} [DecidableEq α] (l : List (α × β))
    (k : α) (h : (alookup l k).isSome) : k ∈ akeys l := by
  induction l with
  | nil => simp [alookup_nil] at h
  | cons p rest ih =>
    obtain ⟨k₁, v⟩ := p
    by_cases hk : k₁ = k
    · subst hk; simp [akeys]
    · rw [alookup_cons, if_neg hk] at h
      simp [akeys, List.mem_cons]
      right
      simpa [akeys] using ih h

theorem alookup_eq_none_of_not_mem {α β : Type} [DecidableEq α] (l : List (α × β))
    (k : α) (h : k ∉ akeys l) : alookup l k = none := by
  cases hf : alookup l k with
  | none => rfl
  | some v => exact absurd (mem_akeys_of_alookup_isSome l k (by simp [hf])) h

/-- Two maps with unique keys, the same key order, and the same lookups are
equal lists. -/
theorem alist_ext {α β : Type} [DecidableEq α] (l₁ l₂ : List (α × β))
    (hk : akeys l₁ = akeys l₂) (hnd : (akeys l₁).Nodup)
    (hv : ∀ k, alookup l₁ k = alookup l₂ k) : l₁ = l₂ := by
  induction l₁ generalizing l₂ with
  | nil => cases l₂ with
    | nil => rfl
    | cons q t => simp [akeys] at hk
  | cons p t₁ ih =>
    cases l₂ with
    | nil => simp [akeys] at hk
    | cons q t₂ =>
      obtain ⟨k₁, v₁⟩ := p
      obtain ⟨k₂, v₂⟩ := q
      simp only [akeys, List.map_cons, List.cons.injEq] at hk
      obtain ⟨hkk, hkt⟩ := hk
      subst hkk
      have h₁ := hv k₁
      simp only [alookup_cons, if_pos rfl] at h₁
      simp only [akeys, List.map_cons, List.nodup_cons] at hnd
      have hvt : ∀ k, alookup t₁ k = alookup t₂ k := by
        intro k
        by_cases hk2 : k₁ = k
        · subst hk2
          have hn₁ : alookup t₁ k₁ = none :=
            alookup_eq_none_of_not_mem t₁ k₁ hnd.1
          have hn₂ : alookup t₂ k₁ = none := by
            apply alookup_eq_none_of_not_mem t₂ k₁
            have hmem := hnd.1
            rw [hkt] at hmem
            exact hmem
          rw [hn₁, hn₂]
        · have h := hv k
          simpa [alookup_cons, hk2] using h
      have ht := ih t₂ hkt hnd.2 hvt
      have hvv : v₁ = v₂ := by simpa using h₁
      rw [ht, hvv]

theorem akeys_nodup_aupd {α β : Type} [DecidableEq α] (k : α) (f : Option β → β)
    (l : List (α × β)) (h : (akeys l).Nodup) : (akeys (aupd k f l)).Nodup := by
  rw [akeys_aupd]
  by_cases hm : k ∈ akeys l
  · simpa [hm]
  · simp only [if_neg hm]
    rw [List.nodup_append]
    refine ⟨h, List.nodup_singleton k, ?_⟩
    intro a ha hb
    simp only [List.mem_singleton] at hb
    exact hm (hb ▸ ha)

/-! ### Sorting

`slices.SortFunc(s, func(a, b) int { return key(a).Compare(key(b)) })` is
modelled as an insertion sort on the integer key. -/

/-- Insert `x` before the first element whose key is `≥ key x`. -/
def insertBy {α : Type} (key : α → Int) (x : α) : List α → List α
  | [] => [x]
  | y :: l => if key x ≤ key y then x :: y :: l else y :: insertBy key x l

/-- Sort by the integer key (stable insertion sort). -/
def sortBy {α : Type} (key : α → Int) : List α → List α
  | [] => []
  | x :: l => insertBy key x (sortBy key l)

/-- Insert `x` after every element whose key is `≤ key x` (the position a
stable sort gives to a newly appended element). -/
def insLastBy {α : Type} (key : α → Int) (x : α) : List α → List α
  | [] => [x]
  | y :: l => if key x < key y then x :: y :: l else y :: insLastBy key x l

theorem insertBy_perm {α : Type} (key : α → Int) (x : α) (l : List α) :
    (insertBy key x l).Perm (x :: l) := by
  induction l with
  | nil => simp [insertBy]
  | cons y t ih =>
    by_cases h : key x ≤ key y
    · simp [insertBy, h]
    · simp only [insertBy, if_neg h]
      exact (ih.cons y).trans (List.Perm.swap x y t)

theorem sortBy_perm {α : Type} (key : α → Int) (l : List α) :
    (sortBy key l).Perm l := by
  induction l with
  | nil => simp [sortBy]
  | cons x t ih => exact (insertBy_perm key x (sortBy key t)).trans (ih.cons x)

theorem insLastBy_perm {α : Type} (key : α → Int) (x : α) (l : List α) :
    (insLastBy key x l).Perm (x :: l) := by
  induction l with
  | nil => simp [insLastBy]
  | cons y t ih =>
    by_cases h : key x < key y
    · simp [insLastBy, h]
    · simp only [insLastBy, if_neg h]
      exact (ih.cons y).trans (List.Perm.swap x y t)

theorem insertBy_pairwise {α : Type} (key : α → Int) (x : α) (l : List α)
    (h : l.Pairwise (fun a b => key a ≤ key b)) :
    (insertBy key x l).Pairwise (fun a b => key a ≤ key b) := by
  induction l with
  | nil => simp [insertBy]
  | cons y t ih =>
    rw [List.pairwise_cons] at h
    by_cases hxy : key x ≤ key y
    · rw [insertBy, if_pos hxy]
      refine List.Pairwise.cons ?_ (List.Pairwise.cons h.1 h.2)
      intro b hb
      rcases List.mem_cons.mp hb with hb | hb
      · exact hb ▸ hxy
      · exact le_trans hxy (h.1 b hb)
    · rw [insertBy, if_neg hxy]
      refine List.Pairwise.cons ?_ (ih h.2)
      intro b hb
      have hmem := (insertBy_perm key x t).mem_iff.mp hb
      rcases List.mem_cons.mp hmem with hb2 | hb2
      · subst hb2; omega
      · exact h.1 b hb2

theorem sortBy_pairwise {α : Type} (key : α → Int) (l : List α) :
    (sortBy key l).Pairwise (fun a b => key a ≤ key b) := by
  induction l with
  | nil => simp [sortBy]
  | cons x t ih => exact insertBy_pairwise key x (sortBy key t) ih

theorem sortBy_eq_of_pairwise {α : Type} (key : α → Int) (l : List α)
    (h : l.Pairwise (fun a b => key a ≤ key b)) : sortBy key l = l := by
  induction l with
  | nil => rfl
  | cons x t ih =>
    rw [List.pairwise_cons] at h
    rw [sortBy, ih h.2]
    cases t with
    | nil => rfl
    | cons y t₂ => rw [insertBy, if_pos (h.1 y (List.mem_cons_self y t₂))]

theorem sortBy_idem {α : Type} (key : α → Int) (l : List α) :
    sortBy key (sortBy key l) = sortBy key l :=
  sortBy_eq_of_pairwise key _ (sortBy_pairwise key l)

theorem insertBy_insLastBy_comm {α : Type} (key : α → Int) (a x : α) (l : List α) :
    insertBy key a (insLastBy key x l) = insLastBy key x (insertBy key a l) := by
  induction l with
  | nil =>
    by_cases h : key a ≤ key x
    · have h2 : ¬key x < key a := by omega
      simp [insertBy, insLastBy, h, h2]
    · have h2 : key x < key a := by omega
      simp [insertBy, insLastBy, h, h2]
  | cons y t ih =>
    by_cases hq : key x < key y
    · by_cases hp : key a ≤ key y
      · by_cases hax : key a ≤ key x
        · have h1 : ¬key x < key a := by omega
          simp [insertBy, insLastBy, hq, hp, hax, h1]
        · have h1 : key x < key a := by omega
          simp [insertBy, insLastBy, hq, hp, hax, h1]
      · have hax : ¬key a ≤ key x := by omega
        simp [insertBy, insLastBy, hq, hp, hax]
    · by_cases hp : key a ≤ key y
      · have hxa : ¬key x < key a := by omega
        simp [insertBy, insLastBy, hq, hp, hxa]
      · simp [insertBy, insLastBy, hq, hp, ih]

theorem sortBy_append_singleton {α : Type} (key : α → Int) (x : α) (l : List α) :
    sortBy key (l ++ [x]) = insLastBy key x (sortBy key l) := by
  induction l with
  | nil => simp [sortBy, insertBy, insLastBy]
  | cons a t ih =>
    rw [List.cons_append, sortBy, ih, insertBy_insLastBy_comm, sortBy]

/-- Re-sorting a shard after appending one element equals sorting the raw
append: the single-record insertion sort and the bulk sort agree. -/
theorem sortBy_sorted_append_singleton {α : Type} (key : α → Int) (x : α) (l : List α) :
    sortBy key (sortBy key l ++ [x]) = sortBy key (l ++ [x]) := by
  rw [sortBy_append_singleton, sortBy_append_singleton, sortBy_idem]

/-! ### Varint encoding (`encoding/binary.PutVarint` into a 10-byte buffer)

`Measurement.ids` serializes `When.UnixNano()` with `binary.PutVarint` into
a zeroed buffer of `binary.MaxVarintLen64 = 10` bytes; the bytes after the
varint stay zero. -/

/-- Fuel-driven core of the unsigned varint encoder, structural in the
fuel so that concrete encodings evaluate by kernel reduction. -/
def putUvarintF : Nat → Nat → List Nat
  | 0, n => [n]
  | fuel + 1, n =>
    if n < 128 then [n] else (n % 128 + 128) :: putUvarintF fuel (n / 128)

/-- Unsigned varint: little-endian 7-bit groups, high bit = continuation.
The value itself is always enough fuel. -/
def putUvarint (n : Nat) : List Nat := putUvarintF n n

theorem putUvarintF_congr : ∀ (f₁ n f₂ : Nat), n ≤ f₁ → n ≤ f₂ →
    putUvarintF f₁ n = putUvarintF f₂ n := by
  intro f₁
  induction f₁ with
  | zero =>
    intro n f₂ h₁ h₂
    have hn : n = 0 := Nat.le_zero.mp h₁
    subst hn
    cases f₂ with
    | zero => rfl
    | succ g => simp [putUvarintF]
  | succ f ih =>
    intro n f₂ h₁ h₂
    cases f₂ with
    | zero =>
      have hn : n = 0 := Nat.le_zero.mp h₂
      subst hn
      simp [putUvarintF]
    | succ g =>
      simp only [putUvarintF]
      by_cases h : n < 128
      · simp [h]
      · rw [if_neg h, if_neg h, ih (n / 128) g (by omega) (by omega)]

/-- The defining recurrence of `putUvarint`. -/
theorem putUvarint_eq (n : Nat) :
    putUvarint n = if n < 128 then [n] else (n % 128 + 128) :: putUvarint (n / 128) := by
  by_cases h : n < 128
  · rw [if_pos h]
    show putUvarintF n n = [n]
    cases n with
    | zero => rfl
    | succ m => simp [putUvarintF, h]
  · rw [if_neg h]
    show putUvarintF n n = (n % 128 + 128) :: putUvarintF (n / 128) (n / 128)
    cases n with
    | zero => omega
    | succ m =>
      simp only [putUvarintF, if_neg h]
      rw [putUvarintF_congr m ((m + 1) / 128) ((m + 1) / 128) (by omega) (le_refl _)]

/-- Go's `uint64(x)` conversion of an `int64` value. -/
def uint64ofInt (x : Int) : Nat := (x % (2 ^ 64)).toNat

/-- The zig-zag transform applied by `PutVarint`:
`ux := uint64(x) << 1; if x < 0 { ux = ^ux }`. -/
def zigzag (x : Int) : Nat :=
  let ux := uint64ofInt x * 2 % 2 ^ 64
  if x < 0 then 2 ^ 64 - 1 - ux else ux

/-- The 10-byte buffer produced by `PutVarint` on a zeroed
`MaxVarintLen64`-sized slice. -/
def putVarint10 (x : Int) : List Nat :=
  putUvarint (zigzag x) ++ List.replicate (10 - (putUvarint (zigzag x)).length) 0

theorem putUvarint_lt_256 (n : Nat) : ∀ b ∈ putUvarint n, b < 256 := by
  induction n using Nat.strong_induction_on with
  | _ n ih =>
    rw [putUvarint_eq]
    by_cases h : n < 128
    · intro b hb
      simp only [if_pos h, List.mem_singleton] at hb
      omega
    · intro b hb
      simp only [if_neg h, List.mem_cons] at hb
      rcases hb with hb | hb
      · omega
      · exact ih (n / 128) (Nat.div_lt_self (by omega) (by omega)) b hb

/-- A varint followed by zero padding determines its value: the padded
10-byte nanosecond buffer never identifies two distinct varints. -/
theorem putUvarint_append_zeros_inj (n₁ n₂ : Nat) (z₁ z₂ : Nat)
    (h : putUvarint n₁ ++ List.replicate z₁ 0 = putUvarint n₂ ++ List.replicate z₂ 0) :
    n₁ = n₂ := by
  induction n₁ using Nat.strong_induction_on generalizing n₂ z₁ z₂ with
  | _ n₁ ih =>
    rw [putUvarint_eq n₁, putUvarint_eq n₂] at h
    by_cases h₁ : n₁ < 128 <;> by_cases h₂ : n₂ < 128
    · simp only [if_pos h₁, if_pos h₂, List.cons_append, List.nil_append,
        List.cons.injEq] at h
      exact h.1
    · simp only [if_pos h₁, if_neg h₂, List.cons_append, List.nil_append,
        List.cons.injEq] at h
      omega
    · simp only [if_neg h₁, if_pos h₂, List.cons_append, List.nil_append,
        List.cons.injEq] at h
      omega
    · simp only [if_neg h₁, if_neg h₂, List.cons_append, List.cons.injEq] at h
      have hd := ih (n₁ / 128) (Nat.div_lt_self (by omega) (by omega)) (n₂ / 128)
        z₁ z₂ h.2
      omega

theorem putVarint10_inj (x₁ x₂ : Int) (hr₁ : -(2 ^ 63) ≤ x₁ ∧ x₁ < 2 ^ 63)
    (hr₂ : -(2 ^ 63) ≤ x₂ ∧ x₂ < 2 ^ 63)
    (h : putVarint10 x₁ = putVarint10 x₂) : x₁ = x₂ := by
  have hz := putUvarint_append_zeros_inj (zigzag x₁) (zigzag x₂) _ _ h
  have hzz : ∀ x : Int, -(2 ^ 63) ≤ x → x < 2 ^ 63 →
      (zigzag x : Int) = if x < 0 then -2 * x - 1 else 2 * x := by
    intro x hlo hhi
    unfold zigzag uint64ofInt
    by_cases hx : x < 0
    · have hmod : x % 2 ^ 64 = x + 2 ^ 64 := by omega
      rw [hmod]
      have ht : ((x + 2 ^ 64).toNat : Int) = x + 2 ^ 64 := by omega
      have h2 : (x + 2 ^ 64).toNat * 2 % 2 ^ 64 = (2 * x + 2 ^ 64).toNat := by omega
      simp only [if_pos hx, h2]
      omega
    · have hmod : x % 2 ^ 64 = x := by omega
      rw [hmod]
      have h2 : x.toNat * 2 % 2 ^ 64 = (2 * x).toNat := by omega
      simp only [if_neg hx, h2]
      omega
  have e₁ := hzz x₁ hr₁.1 hr₁.2
  have e₂ := hzz x₂ hr₂.1 hr₂.2
  rw [hz] at e₁
  by_cases c₁ : x₁ < 0 <;> by_cases c₂ : x₂ < 0 <;>
    simp only [if_pos, if_neg, c₁, c₂] at e₁ e₂ <;> omega

/-- Decode an unsigned varint from the front of a byte list. -/
def decUvarint : List Nat → Option (Nat × List Nat)
  | [] => none
  | b :: rest =>
    if b < 128 then some (b, rest)
    else
      match decUvarint rest with
      | none => none
      | some (n, r) => some (b - 128 + 128 * n, r)

theorem decUvarint_putUvarint (n : Nat) (t : List Nat) :
    decUvarint (putUvarint n ++ t) = some (n, t) := by
  induction n using Nat.strong_induction_on generalizing t with
  | _ n ih =>
    rw [putUvarint_eq]
    by_cases h : n < 128
    · simp [if_pos h, decUvarint, h]
    · rw [if_neg h]
      have hge : ¬(n % 128 + 128 < 128) := by omega
      have ihh := ih (n / 128) (Nat.div_lt_self (by omega) (by omega)) t
      simp only [List.cons_append, decUvarint, if_neg hge, List.append_eq, ihh]
      have he : n % 128 + 128 - 128 + 128 * (n / 128) = n := by omega
      rw [he]

/-! ### Base64 (`encoding/base64.StdEncoding`)

Identity keys and log lines are standard base64. The encoder is written
out byte-for-byte; the decoder below is its exact inverse on byte input
and is used both to model boot-time log decoding and to prove the encoder
injective. Character codes: `A-Z` 65–90, `a-z` 97–122, `0-9` 48–57,
`+` 43, `/` 47, padding `=` 61. -/

/-- The standard base64 alphabet, sextet to character code. -/
def b64Char (i : Nat) : Nat :=
  if i < 26 then 65 + i
  else if i < 52 then 71 + i
  else if i < 62 then i - 4
  else if i = 62 then 43
  else 47

/-- Character code back to sextet. -/
def b64CharInv (c : Nat) : Option Nat :=
  if 65 ≤ c ∧ c ≤ 90 then some (c - 65)
  else if 97 ≤ c ∧ c ≤ 122 then some (c - 71)
  else if 48 ≤ c ∧ c ≤ 57 then some (c + 4)
  else if c = 43 then some 62
  else if c = 47 then some 63
  else none

/-- `base64.StdEncoding.EncodeToString`: 3-byte groups to 4 characters,
with `=` padding on a final short group. -/
def base64Encode : List Nat → Str
  | [] => []
  | [a] => [b64Char (a / 4), b64Char (a % 4 * 16), 61, 61]
  | [a, b] => [b64Char (a / 4), b64Char (a % 4 * 16 + b / 16), b64Char (b % 16 * 4), 61]
  | a :: b :: c :: rest =>
    b64Char (a / 4) :: b64Char (a % 4 * 16 + b / 16) :: b64Char (b % 16 * 4 + c / 64) ::
      b64Char (c % 64) :: base64Encode rest

/-- `base64.StdEncoding.Decode` on a whole string: 4-character groups back
to bytes, accepting padding only on the final group. -/
def base64Decode : Str → Option (List Nat)
  | [] => some []
  | c₁ :: c₂ :: c₃ :: c₄ :: rest =>
    match b64CharInv c₁, b64CharInv c₂ with
    | some s₁, some s₂ =>
      if c₃ = 61 then
        if c₄ = 61 ∧ rest = [] then some [s₁ * 4 + s₂ / 16] else none
      else
        match b64CharInv c₃ with
        | some s₃ =>
          if c₄ = 61 then
            if rest = [] then some [s₁ * 4 + s₂ / 16, s₂ % 16 * 16 + s₃ / 4] else none
          else
            match b64CharInv c₄ with
            | some s₄ =>
              match base64Decode rest with
              | some bs =>
                some ((s₁ * 4 + s₂ / 16) :: (s₂ % 16 * 16 + s₃ / 4) :: (s₃ % 4 * 64 + s₄) :: bs)
              | none => none
            | none => none
        | none => none
    | _, _ => none
  | _ => none

theorem b64CharInv_b64Char : ∀ s, s < 64 → b64CharInv (b64Char s) = some s := by decide

theorem b64Char_ne_61 : ∀ s, s < 64 → b64Char s ≠ 61 := by decide

theorem base64Decode_base64Encode (l : List Nat) (hb : ∀ b ∈ l, b < 256) :
    base64Decode (base64Encode l) = some l := by
  induction l using base64Encode.induct with
  | case1 => rfl
  | case2 a =>
    have ha : a < 256 := hb a (by simp)
    rw [base64Encode, base64Decode,
      b64CharInv_b64Char (a / 4) (by omega),
      b64CharInv_b64Char (a % 4 * 16) (by omega)]
    simp only [if_pos rfl, and_self, if_pos]
    have : a / 4 * 4 + a % 4 * 16 / 16 = a := by omega
    rw [this]
  | case3 a b =>
    have ha : a < 256 := hb a (by simp)
    have hbb : b < 256 := hb b (by simp)
    have hinv : b64CharInv (b64Char (b % 16 * 4)) = some (b % 16 * 4) :=
      b64CharInv_b64Char _ (by omega)
    have hne : b64Char (b % 16 * 4) ≠ 61 := b64Char_ne_61 _ (by omega)
    rw [base64Encode, base64Decode,
      b64CharInv_b64Char (a / 4) (by omega),
      b64CharInv_b64Char (a % 4 * 16 + b / 16) (by omega)]
    simp only [hinv, hne, if_false, ite_false, reduceIte]
    simp only [Option.some.injEq, List.cons.injEq, and_true]
    omega
  | case4 a b c rest ih =>
    have ha : a < 256 := hb a (by simp)
    have hbb : b < 256 := hb b (by simp)
    have hc : c < 256 := hb c (by simp)
    have hrest : ∀ x ∈ rest, x < 256 := fun x hx => hb x (by simp [hx])
    have hinv₃ : b64CharInv (b64Char (b % 16 * 4 + c / 64)) = some (b % 16 * 4 + c / 64) :=
      b64CharInv_b64Char _ (by omega)
    have hne₃ : b64Char (b % 16 * 4 + c / 64) ≠ 61 := b64Char_ne_61 _ (by omega)
    have hinv₄ : b64CharInv (b64Char (c % 64)) = some (c % 64) :=
      b64CharInv_b64Char _ (by omega)
    have hne₄ : b64Char (c % 64) ≠ 61 := b64Char_ne_61 _ (by omega)
    rw [base64Encode, base64Decode,
      b64CharInv_b64Char (a / 4) (by omega),
      b64CharInv_b64Char (a % 4 * 16 + b / 16) (by omega)]
    simp only [hinv₃, hne₃, hinv₄, hne₄, if_false, ite_false, reduceIte, ih hrest]
    simp only [Option.some.injEq, List.cons.injEq, and_true]
    omega

/-- Base64 is injective on byte input. -/
theorem base64Encode_inj (l₁ l₂ : List Nat) (h₁ : ∀ b ∈ l₁, b < 256)
    (h₂ : ∀ b ∈ l₂, b < 256) (h : base64Encode l₁ = base64Encode l₂) : l₁ = l₂ := by
  have e₁ := base64Decode_base64Encode l₁ h₁
  have e₂ := base64Decode_base64Encode l₂ h₂
  rw [h, e₂] at e₁
  exact (Option.some.injEq _ _ ▸ e₁).symm

/-! ### Measurement (`measurement.go`) -/

/-- Field classification: `dimension | index | label`. The enum's own file
is not part of the snapshot, but its three values are fixed by every use
site (`measurement.go`, the CSV writer). -/
inductive measurementFieldType
  | dimension
  | index
  | label
deriving DecidableEq, Repr

/-- The error values of the package. -/
inductive JdbErr
  | ErrEmptyName
  | ErrNoDimensions
  | ErrFieldInUse
  | ErrNoSuchMeasurement
  | ErrNoSuchIndex
  | ErrDuplicateMeasurement
deriving DecidableEq, Repr

/-- `time.Time{}` (January 1, year 1 UTC) as nanoseconds from the Unix
epoch; `t.IsZero()` is `t = goZeroTime`. -/
def goZeroTime : Int := -62135596800000000000

/-- "_default_index" as bytes. -/
def DefaultIndexName : Str :=
  [95, 100, 101, 102, 97, 117, 108, 116, 95, 105, 110, 100, 101, 120]

/-- One record: timestamp, series name, numeric dimensions, non-searchable
labels, searchable indices. -/
structure Measurement where
  when : Int
  name : Str
  dimensions : List (Str × Int)
  labels : List (Str × Str)
  indices : List (Str × Str)
deriving DecidableEq, Repr, Inhabited

/-- `Measurement.Validate`: empty name, then empty dimensions, then the
synthetic default index. Go mutates the receiver; the model returns the
mutated copy. -/
def Measurement.Validate (m : Measurement) : Except JdbErr Measurement :=
  if m.name.length = 0 then .error .ErrEmptyName
  else if m.dimensions.length = 0 then .error .ErrNoDimensions
  else if m.indices.length = 0 then .ok { m with indices := [(DefaultIndexName, m.name)] }
  else .ok m

def nsPerHour : Int := 3600000000000

/-- `Measurement.dts()`: `When.Format("2006-01-02_15")`. The formatted
string is in order-preserving bijection with the UTC hour index, which is
what the model uses as the bucket key. -/
def Measurement.dts (m : Measurement) : Int := m.when.fdiv nsPerHour

/-- One identity key: `base64(name ++ 00 ++ indexKey ++ 00 ++ indexValue
++ 00 ++ PutVarint(UnixNano) padded to 10 bytes ++ 00)`. -/
def Measurement.idOf (m : Measurement) (iK iV : Str) : Str :=
  base64Encode (m.name ++ [0] ++ iK ++ [0] ++ iV ++ [0] ++ putVarint10 m.when ++ [0])

/-- `Measurement.ids()`: one identity key per index entry. -/
def Measurement.ids (m : Measurement) : List Str :=
  m.indices.map (fun kv => m.idOf kv.1 kv.2)

/-- The classification loop shared by the three range-loops of
`Measurement.fields()`: add each key, stopping with `ErrFieldInUse` (and
the partially-built map, as Go's named returns do) on a collision. -/
def addFieldKeys (t : measurementFieldType)
    (f : List (Str × measurementFieldType)) :
    List Str → List (Str × measurementFieldType) × Option JdbErr
  | [] => (f, none)
  | k :: ks =>
    if (alookup f k).isSome then (f, some .ErrFieldInUse)
    else addFieldKeys t (f ++ [(k, t)]) ks

/-- `Measurement.fields()`: dimensions, then indices, then labels; the Go
function returns both the (possibly partial) map and the error. -/
def Measurement.fieldsRaw (m : Measurement) :
    List (Str × measurementFieldType) × Option JdbErr :=
  let f := m.dimensions.map (fun kv => (kv.1, measurementFieldType.dimension))
  match addFieldKeys .index f (m.indices.map (fun kv => kv.1)) with
  | (f₂, some e) => (f₂, some e)
  | (f₂, none) => addFieldKeys .label f₂ (m.labels.map (fun kv => kv.1))

/-- `fields()` as used by `Insert`, where the error aborts. -/
def Measurement.fields (m : Measurement) :
    Except JdbErr (List (Str × measurementFieldType)) :=
  match m.fieldsRaw with
  | (_, some e) => .error e
  | (f, none) => .ok f

/-- Typing facts every Go `Measurement` satisfies: strings are byte
strings and map keys are unique. -/
def Measurement.WF (m : Measurement) : Prop :=
  StrWF m.name ∧
  (∀ kv ∈ m.dimensions, StrWF kv.1) ∧
  (∀ kv ∈ m.labels, StrWF kv.1 ∧ StrWF kv.2) ∧
  (∀ kv ∈ m.indices, StrWF kv.1 ∧ StrWF kv.2) ∧
  (akeys m.dimensions).Nodup ∧ (akeys m.labels).Nodup ∧ (akeys m.indices).Nodup

instance (m : Measurement) : Decidable m.WF := by unfold Measurement.WF; infer_instance

/-! ### Options and the range selector (`options.go`) -/

/-- Query options. Zero values mean "unset": `goZeroTime` for the two
times, `0` for the duration, `false` for the flag. -/
structure Options where
  from_ : Int := goZeroTime
  to_ : Int := goZeroTime
  since : Int := 0
  deduplicate : Bool := false
deriving DecidableEq, Repr

/-- `Options.mRange()`: resolve the options to a concrete window, reading
the clock when a bound is unset. -/
def Options.mRange (o : Options) (now : Int) : Int × Int :=
  if 0 < o.since then
    if o.to_ = goZeroTime then (now - o.since, now)
    else (o.to_ - o.since, o.to_)
  else
    (o.from_, if o.to_ = goZeroTime then now else o.to_)

/-- `Options.validMeasurements()`: reject a sorted shard outright when its
first element is after the window or its last element before it; otherwise
keep exactly the in-window elements, in order. -/
def Options.validMeasurements (o : Options) (now : Int) (shard : List Measurement) :
    List Measurement :=
  match shard with
  | [] => []
  | m₀ :: rest =>
    let ft := o.mRange now
    if ft.2 < m₀.when ∨ (rest.getLastD m₀).when < ft.1 then []
    else (m₀ :: rest).filter (fun m => decide (ft.1 ≤ m.when) && decide (m.when ≤ ft.2))

/-! ### Log-line serialization (`json.Encoder` + base64, §flush / §New)

`flush` writes each record as base64(JSON(record)) on its own line and
boot decodes each line back. `encoding/json` is Go library code external
to this repository; it is modelled as an injective structured byte
encoding of the record with an exact decoder, which is the property the
engine relies on. The base64 layer is the real one from above.

The model's encoder is total, while `json.Encoder.Encode` can fail —
`time.Time` marshaling rejects years outside [0, 9999].  Every instant
representable as int64 Unix nanoseconds has a year in [1678, 2262], so
on timestamps in the int64 range (a hypothesis wherever a round-trip
theorem below relies on the codec) the real error path is unreachable
and the total injective codec is a faithful abstraction. -/

def encInt (x : Int) : List Nat :=
  (if x < 0 then [1] else [0]) ++ putUvarint x.natAbs

def encStr (s : Str) : List Nat := putUvarint s.length ++ s

def encStrPair (p : Str × Str) : List Nat := encStr p.1 ++ encStr p.2

def encIntPair (p : Str × Int) : List Nat := encStr p.1 ++ encInt p.2

def encListBy {α : Type} (f : α → List Nat) (l : List α) : List Nat :=
  putUvarint l.length ++ (l.map f).flatten

/-- The modelled JSON encoding of one measurement. -/
def jsonEnc (m : Measurement) : List Nat :=
  encInt m.when ++ encStr m.name ++ encListBy encIntPair m.dimensions ++
    encListBy encStrPair m.labels ++ encListBy encStrPair m.indices

def decInt : List Nat → Option (Int × List Nat)
  | [] => none
  | s :: rest =>
    match decUvarint rest with
    | none => none
    | some (n, r) =>
      if s = 1 then some (-(n : Int), r)
      else if s = 0 then some ((n : Int), r) else none

def decStr (l : List Nat) : Option (Str × List Nat) :=
  match decUvarint l with
  | none => none
  | some (n, r) => if n ≤ r.length then some (r.take n, r.drop n) else none

def decStrPair (l : List Nat) : Option ((Str × Str) × List Nat) := do
  let (a, r₁) ← decStr l
  let (b, r₂) ← decStr r₁
  some ((a, b), r₂)

def decIntPair (l : List Nat) : Option ((Str × Int) × List Nat) := do
  let (a, r₁) ← decStr l
  let (b, r₂) ← decInt r₁
  some ((a, b), r₂)

def decListN {α : Type} (f : List Nat → Option (α × List Nat)) :
    Nat → List Nat → Option (List α × List Nat)
  | 0, l => some ([], l)
  | n + 1, l => do
    let (a, r₁) ← f l
    let (as, r₂) ← decListN f n r₁
    some (a :: as, r₂)

def decListBy {α : Type} (f : List Nat → Option (α × List Nat))
    (l : List Nat) : Option (List α × List Nat) := do
  let (n, r) ← decUvarint l
  decListN f n r

def decMeasurement (l : List Nat) : Option (Measurement × List Nat) := do
  let (w, r₁) ← decInt l
  let (nm, r₂) ← decStr r₁
  let (dims, r₃) ← decListBy decIntPair r₂
  let (labs, r₄) ← decListBy decStrPair r₃
  let (inds, r₅) ← decListBy decStrPair r₄
  some ({ when := w, name := nm, dimensions := dims, labels := labs, indices := inds }, r₅)

/-- One log line: base64 of the structured record. -/
def encodeLine (m : Measurement) : Str := base64Encode (jsonEnc m)

/-- Decoding one log line, as boot does: base64, then the structured
decode, requiring the whole line to be consumed. -/
def decodeLine (line : Str) : Option Measurement :=
  match base64Decode line with
  | none => none
  | some bs =>
    match decMeasurement bs with
    | some (m, []) => some m
    | _ => none

theorem decInt_encInt (x : Int) (t : List Nat) : decInt (encInt x ++ t) = some (x, t) := by
  unfold encInt decInt
  by_cases h : x < 0
  · simp only [if_pos h, List.cons_append, List.nil_append, decUvarint_putUvarint]
    have hx : -(x.natAbs : Int) = x := by omega
    simp [hx, abs_of_neg h]
  · simp only [if_neg h, List.cons_append, List.nil_append, decUvarint_putUvarint]
    have hx : ((x.natAbs : Int)) = x := by omega
    simp [hx]

theorem decStr_encStr (s : Str) (t : List Nat) : decStr (encStr s ++ t) = some (s, t) := by
  unfold encStr decStr
  rw [List.append_assoc, decUvarint_putUvarint]
  simp only [List.length_append, Nat.le_add_right, if_pos]
  rw [List.take_left, List.drop_left]

theorem decStrPair_encStrPair (p : Str × Str) (t : List Nat) :
    decStrPair (encStrPair p ++ t) = some (p, t) := by
  unfold encStrPair decStrPair
  rw [List.append_assoc, decStr_encStr]
  simp only [Option.bind_eq_bind, Option.some_bind, decStr_encStr]

theorem decIntPair_encIntPair (p : Str × Int) (t : List Nat) :
    decIntPair (encIntPair p ++ t) = some (p, t) := by
  unfold encIntPair decIntPair
  rw [List.append_assoc, decStr_encStr]
  simp only [Option.bind_eq_bind, Option.some_bind, decInt_encInt]

theorem decListN_map {α : Type} (f : α → List Nat)
    (g : List Nat → Option (α × List Nat))
    (hfg : ∀ a t, g (f a ++ t) = some (a, t))
    (l : List α) (t : List Nat) :
    decListN g l.length ((l.map f).flatten ++ t) = some (l, t) := by
  induction l with
  | nil => simp [decListN]
  | cons a rest ih =>
    simp only [List.map_cons, List.flatten_cons, List.length_cons, decListN,
      List.append_assoc, Option.bind_eq_bind]
    rw [hfg a ((rest.map f).flatten ++ t)]
    simp only [Option.some_bind, ih]

theorem decListBy_encListBy {α : Type} (f : α → List Nat)
    (g : List Nat → Option (α × List Nat))
    (hfg : ∀ a t, g (f a ++ t) = some (a, t))
    (l : List α) (t : List Nat) :
    decListBy g (encListBy f l ++ t) = some (l, t) := by
  unfold encListBy decListBy
  rw [List.append_assoc, decUvarint_putUvarint]
  simp only [Option.bind_eq_bind, Option.some_bind]
  exact decListN_map f g hfg l t

theorem decMeasurement_jsonEnc (m : Measurement) (t : List Nat) :
    decMeasurement (jsonEnc m ++ t) = some (m, t) := by
  unfold jsonEnc decMeasurement
  simp only [List.append_assoc]
  rw [decInt_encInt]
  simp only [Option.bind_eq_bind, Option.some_bind]
  rw [decStr_encStr]
  simp only [Option.some_bind]
  rw [decListBy_encListBy encIntPair decIntPair decIntPair_encIntPair]
  simp only [Option.some_bind]
  rw [decListBy_encListBy encStrPair decStrPair decStrPair_encStrPair]
  simp only [Option.some_bind]
  rw [decListBy_encListBy encStrPair decStrPair decStrPair_encStrPair]
  simp only [Option.some_bind]

theorem jsonEnc_bytes (m : Measurement) (hm : m.WF) : ∀ b ∈ jsonEnc m, b < 256 := by
  obtain ⟨hname, hdims, hlabs, hinds, _, _, _⟩ := hm
  intro b hb
  have hsign : ∀ x : Int, ∀ c ∈ encInt x, c < 256 := by
    intro x c hc
    unfold encInt at hc
    rcases List.mem_append.mp hc with h | h
    · by_cases hx : x < 0 <;> simp [hx] at h <;> omega
    · exact putUvarint_lt_256 _ c h
  have hstr : ∀ s : Str, StrWF s → ∀ c ∈ encStr s, c < 256 := by
    intro s hs c hc
    unfold encStr at hc
    rcases List.mem_append.mp hc with h | h
    · exact putUvarint_lt_256 _ c h
    · exact hs c h
  have hlist : ∀ {α : Type} (f : α → List Nat) (l : List α),
      (∀ a ∈ l, ∀ c ∈ f a, c < 256) → ∀ c ∈ encListBy f l, c < 256 := by
    intro α f l hl c hc
    unfold encListBy at hc
    rcases List.mem_append.mp hc with h | h
    · exact putUvarint_lt_256 _ c h
    · obtain ⟨piece, hpm, hcp⟩ := List.mem_flatten.mp h
      obtain ⟨a, ham, hfa⟩ := List.mem_map.mp hpm
      exact hl a ham c (hfa ▸ hcp)
  unfold jsonEnc at hb
  rcases List.mem_append.mp hb with hb | hb₅
  rotate_left
  · refine hlist encStrPair m.indices ?_ b hb₅
    intro a ham c hc
    rcases List.mem_append.mp hc with h | h
    · exact hstr a.1 (hinds a ham).1 c h
    · exact hstr a.2 (hinds a ham).2 c h
  rcases List.mem_append.mp hb with hb | hb₄
  rotate_left
  · refine hlist encStrPair m.labels ?_ b hb₄
    intro a ham c hc
    rcases List.mem_append.mp hc with h | h
    · exact hstr a.1 (hlabs a ham).1 c h
    · exact hstr a.2 (hlabs a ham).2 c h
  rcases List.mem_append.mp hb with hb | hb₃
  rotate_left
  · refine hlist encIntPair m.dimensions ?_ b hb₃
    intro a ham c hc
    rcases List.mem_append.mp hc with h | h
    · exact hstr a.1 (hdims a ham) c h
    · exact hsign a.2 c h
  rcases List.mem_append.mp hb with hb | hb₂
  · exact hsign m.when b hb
  · exact hstr m.name hname b hb₂

/-- A flushed line decodes back to the very record that was flushed. -/
theorem decodeLine_encodeLine (m : Measurement) (hm : m.WF) :
    decodeLine (encodeLine m) = some m := by
  unfold decodeLine encodeLine
  rw [base64Decode_base64Encode (jsonEnc m) (jsonEnc_bytes m hm)]
  have h := decMeasurement_jsonEnc m []
  rw [List.append_nil] at h
  simp only [h]

/-! ### The storage engine (`database.go`) -/

/-- `maps.Copy(dst, src)`: every key of `src` is written into `dst`. -/
def mapsCopy {α β : Type} [DecidableEq α] (dst src : List (α × β)) : List (α × β) :=
  src.foldl (fun acc kv => aupd kv.1 (fun _ => kv.2) acc) dst

def FlushMaxSize : Nat := 1000

def FlushMaxDuration : Int := nsPerHour

instance decEqBuckets : DecidableEq (List (Int × List Measurement)) := inferInstance

instance decEqIdx3 : DecidableEq (List (Str × List (Int × List Measurement))) :=
  inferInstance

instance decEqIdx2 :
    DecidableEq (List (Str × List (Str × List (Int × List Measurement)))) :=
  inferInstance

instance decEqIdx1 :
    DecidableEq (List (Str × List (Str × List (Str × List (Int × List Measurement))))) :=
  inferInstance

/-- The engine state. `file` is the decoded-at-boot, appended-at-flush
content of the append-only log (one encoded line per entry); the other
fields are the Go struct's. -/
structure JDB where
  file : List Str
  saveBuffer : List Measurement
  lastSave : Int
  ids : List (Str × Measurement)
  measurements : List (Str × List (Int × List Measurement))
  indices : List (Str × List (Str × List (Str × List (Int × List Measurement))))
  measurementFields : List (Str × List (Str × measurementFieldType))
deriving DecidableEq, Repr

/-- Shorthand for the shard sort used everywhere: by timestamp. -/
def sortShard : List Measurement → List Measurement :=
  sortBy (fun x : Measurement => x.when)

/-- Go's read-or-create-then-assign idiom on a map whose values are
slices or further maps: `if _, ok := l[k]; !ok { l[k] = zero };
l[k] = g(l[k])`. -/
def aupdD {α β : Type} [DecidableEq α] (k : α) (g : List β → List β)
    (l : List (α × List β)) : List (α × List β) :=
  aupd k (fun o => g (o.getD [])) l

/-- The time-shard update of `addMeasurement`. -/
def addMs (m : Measurement) :
    List (Str × List (Int × List Measurement)) →
    List (Str × List (Int × List Measurement)) :=
  aupdD m.name (aupdD m.dts (fun s => s ++ [m]))

/-- The per-name index-shard update of `addMeasurement`: one append per
index entry of the record. -/
def addIdxInner (m : Measurement)
    (im : List (Str × List (Str × List (Int × List Measurement)))) :
    List (Str × List (Str × List (Int × List Measurement))) :=
  m.indices.foldl
    (fun acc kv => aupdD kv.1 (aupdD kv.2 (aupdD m.dts (fun s => s ++ [m]))) acc) im

/-- The index-shard update of `addMeasurement` (the name level is created
unconditionally, before the loop, exactly as in Go). -/
def addIdx (m : Measurement) :
    List (Str × List (Str × List (Str × List (Int × List Measurement)))) →
    List (Str × List (Str × List (Str × List (Int × List Measurement)))) :=
  aupdD m.name (addIdxInner m)

/-- The time-shard re-sort at the end of `Insert`. -/
def sortMs (m : Measurement) :
    List (Str × List (Int × List Measurement)) →
    List (Str × List (Int × List Measurement)) :=
  aupdD m.name (aupdD m.dts sortShard)

def sortIdxInner (m : Measurement)
    (im : List (Str × List (Str × List (Int × List Measurement)))) :
    List (Str × List (Str × List (Int × List Measurement))) :=
  m.indices.foldl
    (fun acc kv => aupdD kv.1 (aupdD kv.2 (aupdD m.dts sortShard)) acc) im

/-- The index-shard re-sorts at the end of `Insert`. -/
def sortIdx (m : Measurement) :
    List (Str × List (Str × List (Str × List (Int × List Measurement)))) →
    List (Str × List (Str × List (Str × List (Int × List Measurement)))) :=
  aupdD m.name (sortIdxInner m)

/-- `JDB.addMeasurement`: append the record to its time shard, to every
relevant index shard, point the canonical map at it for each of its ids,
and union its fields into the registry. -/
def JDB.addMeasurement (j : JDB) (m : Measurement) (mids : List Str)
    (fields : List (Str × measurementFieldType)) : JDB :=
  { j with measurements := addMs m j.measurements,
           indices := addIdx m j.indices,
           ids := mids.foldl (fun acc i => aupd i (fun _ => m) acc) j.ids,
           measurementFields :=
             aupd m.name (fun o => mapsCopy (o.getD []) fields) j.measurementFields }

/-- The two `slices.SortFunc` calls at the end of `Insert`: re-sort the
time shard and every index shard the record landed in. (They exist after
`addMeasurement`; on a missing key Go would sort a nil slice, a no-op.) -/
def JDB.sortTouched (j : JDB) (m : Measurement) : JDB :=
  { j with measurements := sortMs m j.measurements,
           indices := sortIdx m j.indices }

/-- `JDB.flush`: append every buffered record's encoded line to the log,
clear the buffer, reset the last-flush time. Disk write failures are IO
and outside the model. -/
def JDB.flush (j : JDB) (now : Int) : JDB :=
  { j with file := j.file ++ j.saveBuffer.map encodeLine,
           saveBuffer := [], lastSave := now }

/-- `JDB.Close`: a final flush (the file-handle release is IO). -/
def JDB.Close (j : JDB) (now : Int) : JDB := j.flush now

/-- `JDB.Insert`: validate, reject on any known identity key, classify
fields, add, buffer, re-sort the touched shards, apply the flush policy.
Returns the new state and the error, `none` on success; on an error the
state is returned unchanged, as in Go, where the method returns before
mutating. -/
def JDB.Insert (j : JDB) (m : Measurement) (now : Int) : JDB × Option JdbErr :=
  match m.Validate with
  | .error e => (j, some e)
  | .ok mv =>
    let measurementIDs := mv.ids
    if measurementIDs.any (fun i => (alookup j.ids i).isSome) then
      (j, some .ErrDuplicateMeasurement)
    else
      match mv.fields with
      | .error e => (j, some e)
      | .ok measurementFields =>
        let j₁ := j.addMeasurement mv measurementIDs measurementFields
        let j₂ := { j₁ with saveBuffer := j₁.saveBuffer ++ [mv] }
        let j₃ := j₂.sortTouched mv
        if FlushMaxSize ≤ j₃.saveBuffer.length ∨ j₃.lastSave + FlushMaxDuration < now then
          (j₃.flush now, none)
        else (j₃, none)

/-- Key of the shard-ordering sort in the queries:
`a[0].When.Compare(b[0].When)`. A `headD` stands in for Go's unchecked
`a[0]`; shards are never empty in reachable states (see the invariants). -/
def headWhenD (s : List Measurement) : Int := (s.headD default).when

/-- The bucket-collection loop shared by `QueryAll` and `QueryAllIndex`:
take whole shards when `opts` is nil, else range-filter each shard and
keep the non-empty results. -/
def collectShards (opts : Option Options) (now : Int)
    (buckets : List (Int × List Measurement)) : List (List Measurement) :=
  match opts with
  | none => buckets.map (fun kv => kv.2)
  | some o => (buckets.map (fun kv => o.validMeasurements now kv.2)).filter
      (fun v => !v.isEmpty)

/-- `JDB.QueryAll`: the time-shard map for the name, bucket collection,
sort buckets by first element, flatten. -/
def JDB.QueryAll (j : JDB) (name : Str) (opts : Option Options) (now : Int) :
    Except JdbErr (List Measurement) :=
  match alookup j.measurements name with
  | none => .error .ErrNoSuchMeasurement
  | some measurement =>
    .ok (sortBy headWhenD (collectShards opts now measurement)).flatten

/-- `JDB.QueryAllIndex`: descend indices[name][index][indexValue]; an
unknown index value yields an empty result, not an error. -/
def JDB.QueryAllIndex (j : JDB) (name index indexValue : Str)
    (opts : Option Options) (now : Int) : Except JdbErr (List Measurement) :=
  match alookup j.indices name with
  | none => .error .ErrNoSuchMeasurement
  | some measurement =>
    match alookup measurement index with
    | none => .error .ErrNoSuchIndex
    | some idx =>
      match alookup idx indexValue with
      | none => .ok []
      | some iv =>
        .ok (sortBy headWhenD (collectShards opts now iv)).flatten

/-- `JDB.QueryFields`: the field-registry keys for the name. -/
def JDB.QueryFields (j : JDB) (measurement : Str) : Except JdbErr (List Str) :=
  match alookup j.measurementFields measurement with
  | none => .error .ErrNoSuchMeasurement
  | some fm => .ok (akeys fm)

/-- Decode every log line, oldest first; any bad line fails the boot. -/
def decodeFile : List Str → Option (List Measurement)
  | [] => some []
  | line :: rest =>
    match decodeLine line with
    | none => none
    | some m => (decodeFile rest).map (fun ms => m :: ms)

/-- The bulk re-sort of every shard that `New` performs after replay. -/
def JDB.sortAllShards (j : JDB) : JDB :=
  { j with
    measurements := mapVals (mapVals sortShard) j.measurements,
    indices := mapVals (mapVals (mapVals (mapVals sortShard))) j.indices }

/-- `New`: open (IO, outside the model), replay every line through
`addMeasurement` — trusting the log, with no duplicate check and the
field error discarded (`fields, _ := m.fields()`) — then bulk-sort every
shard once. -/
def New (file : List Str) (now : Int) : Option JDB :=
  match decodeFile file with
  | none => none
  | some ms =>
    let j₀ : JDB := { file := file, saveBuffer := [], lastSave := now,
                      ids := [], measurements := [], indices := [],
                      measurementFields := [] }
    let j₁ := ms.foldl (fun j m => j.addMeasurement m m.ids m.fieldsRaw.1) j₀
    some j₁.sortAllShards

/-! ### Invariants of reachable engine states -/

theorem mem_of_alookup_eq_some {α β : Type} [DecidableEq α] (l : List (α × β))
    (k : α) (v : β) (h : alookup l k = some v) : (k, v) ∈ l := by
  unfold alookup at h
  cases hf : l.find? (fun p => p.1 = k) with
  | none => rw [hf] at h; simp at h
  | some p =>
    rw [hf] at h
    have hp := List.find?_some hf
    have hm := List.mem_of_find?_eq_some hf
    simp at h hp
    rw [← h, ← hp]
    exact hm

theorem alookup_eq_some_of_mem {α β : Type} [DecidableEq α] (l : List (α × β))
    (kv : α × β) (hnd : (akeys l).Nodup) (h : kv ∈ l) : alookup l kv.1 = some kv.2 := by
  induction l with
  | nil => simp at h
  | cons p rest ih =>
    obtain ⟨k₁, v₁⟩ := p
    simp only [akeys, List.map_cons, List.nodup_cons] at hnd
    rcases List.mem_cons.mp h with h | h
    · rw [h]
      simp [alookup_cons]
    · have hne : k₁ ≠ kv.1 := by
        intro he
        apply hnd.1
        rw [he]
        exact List.mem_map_of_mem _ h
      rw [alookup_cons, if_neg hne]
      exact ih hnd.2 h

/-- A good shard for bucket `b`: non-empty, sorted by timestamp, and
holding only records whose hour bucket is `b`. -/
def ShardOK (b : Int) (s : List Measurement) : Prop :=
  s ≠ [] ∧ s.Pairwise (fun a c => a.when ≤ c.when) ∧ ∀ m ∈ s, m.dts = b

/-- A good bucket map: unique bucket keys, every shard good. -/
def TimeShardsOK (ts : List (Int × List Measurement)) : Prop :=
  (akeys ts).Nodup ∧ ∀ b s, alookup ts b = some s → ShardOK b s

/-- The state invariant every reachable store satisfies. -/
def JDB.Inv (j : JDB) : Prop :=
  ((akeys j.measurements).Nodup ∧
    ∀ n ts, alookup j.measurements n = some ts → TimeShardsOK ts) ∧
  ((akeys j.indices).Nodup ∧
    ∀ n im, alookup j.indices n = some im →
      (akeys im).Nodup ∧ ∀ k vm, alookup im k = some vm →
        (akeys vm).Nodup ∧ ∀ v ts, alookup vm v = some ts → TimeShardsOK ts)

/-- The same invariant minus sortedness, holding during boot replay
before the bulk sort. -/
def ShardPre (b : Int) (s : List Measurement) : Prop :=
  s ≠ [] ∧ ∀ m ∈ s, m.dts = b

def TimeShardsPre (ts : List (Int × List Measurement)) : Prop :=
  (akeys ts).Nodup ∧ ∀ b s, alookup ts b = some s → ShardPre b s

def JDB.PreInv (j : JDB) : Prop :=
  ((akeys j.measurements).Nodup ∧
    ∀ n ts, alookup j.measurements n = some ts → TimeShardsPre ts) ∧
  ((akeys j.indices).Nodup ∧
    ∀ n im, alookup j.indices n = some im →
      (akeys im).Nodup ∧ ∀ k vm, alookup im k = some vm →
        (akeys vm).Nodup ∧ ∀ v ts, alookup vm v = some ts → TimeShardsPre ts)

theorem alookup_aupdD_self {α β : Type} [DecidableEq α] (k : α)
    (g : List β → List β) (l : List (α × List β)) :
    alookup (aupdD k g l) k = some (g ((alookup l k).getD [])) := by
  unfold aupdD
  rw [alookup_aupd_self]

theorem alookup_aupdD_other {α β : Type} [DecidableEq α] (k k₂ : α)
    (g : List β → List β) (l : List (α × List β)) (hne : k ≠ k₂) :
    alookup (aupdD k g l) k₂ = alookup l k₂ := by
  unfold aupdD
  exact alookup_aupd_other k k₂ _ l hne

theorem akeys_nodup_aupdD {α β : Type} [DecidableEq α] (k : α)
    (g : List β → List β) (l : List (α × List β)) (h : (akeys l).Nodup) :
    (akeys (aupdD k g l)).Nodup := akeys_nodup_aupd k _ l h

theorem aupd_aupd {α β : Type} [DecidableEq α] (k : α) (f₁ f₂ : Option β → β)
    (l : List (α × β)) :
    aupd k f₂ (aupd k f₁ l) = aupd k (fun o => f₂ (some (f₁ o))) l := by
  induction l with
  | nil => simp [aupd]
  | cons p rest ih =>
    obtain ⟨k₁, v⟩ := p
    by_cases h : k₁ = k
    · simp [aupd, h]
    · simp [aupd, h, ih]

theorem aupdD_aupdD {α β : Type} [DecidableEq α] (k : α) (g₁ g₂ : List β → List β)
    (l : List (α × List β)) :
    aupdD k g₂ (aupdD k g₁ l) = aupdD k (fun s => g₂ (g₁ s)) l := by
  unfold aupdD
  rw [aupd_aupd]
  rfl

/-- The shape of both per-name index-shard loops: lookup after folding
one `aupdD` per index pair, for pairs with unique keys. -/
theorem foldPairs_alookup {β : Type} (h : Str → List β → List β)
    (pairs : List (Str × Str)) (hnd : (akeys pairs).Nodup)
    (im : List (Str × List β)) (k : Str) :
    alookup (pairs.foldl (fun acc kv => aupdD kv.1 (h kv.2) acc) im) k =
      match alookup pairs k with
      | some v₀ => some (h v₀ ((alookup im k).getD []))
      | none => alookup im k := by
  induction pairs generalizing im with
  | nil => simp [alookup_nil]
  | cons p rest ih =>
    obtain ⟨k₀, v₀⟩ := p
    simp only [akeys, List.map_cons, List.nodup_cons] at hnd
    simp only [List.foldl_cons]
    rw [ih hnd.2]
    by_cases hk : k₀ = k
    · subst hk
      have hr : alookup rest k₀ = none := by
        apply alookup_eq_none_of_not_mem
        exact hnd.1
      rw [hr, alookup_cons, if_pos rfl, alookup_aupdD_self]
    · rw [alookup_cons, if_neg hk, alookup_aupdD_other k₀ k _ _ hk]

theorem akeys_nodup_foldPairs {β : Type} (h : Str → List β → List β)
    (pairs : List (Str × Str)) (im : List (Str × List β))
    (hnd : (akeys im).Nodup) :
    (akeys (pairs.foldl (fun acc kv => aupdD kv.1 (h kv.2) acc) im)).Nodup := by
  induction pairs generalizing im with
  | nil => exact hnd
  | cons p rest ih =>
    simp only [List.foldl_cons]
    exact ih _ (akeys_nodup_aupdD p.1 _ im hnd)

/-- The hour bucket is a monotone function of the timestamp. -/
theorem dts_mono {m₁ m₂ : Measurement} (h : m₁.when ≤ m₂.when) : m₁.dts ≤ m₂.dts := by
  unfold Measurement.dts
  rw [Int.fdiv_eq_ediv _ (by unfold nsPerHour; omega),
    Int.fdiv_eq_ediv _ (by unfold nsPerHour; omega)]
  unfold nsPerHour
  omega

theorem when_lt_of_dts_lt {m₁ m₂ : Measurement} (h : m₁.dts < m₂.dts) :
    m₁.when < m₂.when := by
  by_contra hc
  push_neg at hc
  exact absurd (dts_mono hc) (by omega)

theorem sortShard_perm (l : List Measurement) : (sortShard l).Perm l :=
  sortBy_perm _ l

theorem sortShard_pairwise (l : List Measurement) :
    (sortShard l).Pairwise (fun a c => a.when ≤ c.when) := sortBy_pairwise _ l

theorem sortShard_eq_of_pairwise (l : List Measurement)
    (h : l.Pairwise (fun a c => a.when ≤ c.when)) : sortShard l = l :=
  sortBy_eq_of_pairwise _ l h

/-- The range selector only ever removes elements, in place. -/
theorem validMeasurements_sublist (o : Options) (now : Int) (shard : List Measurement) :
    (o.validMeasurements now shard).Sublist shard := by
  unfold Options.validMeasurements
  match shard with
  | [] => simp
  | m₀ :: rest =>
    by_cases hrej :
        (o.mRange now).2 < m₀.when ∨ ((rest.getLastD m₀).when < (o.mRange now).1)
    · simp only [hrej, if_pos]
      exact List.nil_sublist _
    · simp only [hrej, if_neg, not_false_iff]
      exact List.filter_sublist _

theorem shardPre_append (b : Int) (m : Measurement) (s : List Measurement)
    (hb : m.dts = b) (hs : s = [] ∨ ShardPre b s) : ShardPre b (s ++ [m]) := by
  constructor
  · simp
  · intro x hx
    rcases List.mem_append.mp hx with hx | hx
    · rcases hs with hs | hs
      · simp [hs] at hx
      · exact hs.2 x hx
    · simp only [List.mem_singleton] at hx
      rw [hx, hb]

theorem timeShardsPre_append (m : Measurement) (ts : List (Int × List Measurement))
    (h : TimeShardsPre ts) :
    TimeShardsPre (aupdD m.dts (fun s => s ++ [m]) ts) := by
  refine ⟨akeys_nodup_aupdD _ _ _ h.1, ?_⟩
  intro b s hbs
  by_cases hb : m.dts = b
  · subst hb
    rw [alookup_aupdD_self] at hbs
    cases hbs
    apply shardPre_append _ _ _ rfl
    cases hl : alookup ts m.dts with
    | none => simp [hl]
    | some s₀ => right; simpa [hl] using h.2 m.dts s₀ hl
  · rw [alookup_aupdD_other _ _ _ _ hb] at hbs
    exact h.2 b s hbs

theorem timeShardsPre_empty : TimeShardsPre [] := by
  refine ⟨List.nodup_nil, ?_⟩
  intro b s h
  rw [alookup_nil] at h
  cases h

/-- Value-map level of the index structure, replay (pre-sort) flavour. -/
def ValMapPre (vm : List (Str × List (Int × List Measurement))) : Prop :=
  (akeys vm).Nodup ∧ ∀ v ts, alookup vm v = some ts → TimeShardsPre ts

/-- Per-name index map, replay (pre-sort) flavour. -/
def IdxMapPre (im : List (Str × List (Str × List (Int × List Measurement)))) : Prop :=
  (akeys im).Nodup ∧ ∀ k vm, alookup im k = some vm → ValMapPre vm

theorem valMapPre_empty : ValMapPre [] := by
  refine ⟨List.nodup_nil, ?_⟩
  intro v ts h
  rw [alookup_nil] at h
  cases h

theorem idxMapPre_empty : IdxMapPre [] := by
  refine ⟨List.nodup_nil, ?_⟩
  intro k vm h
  rw [alookup_nil] at h
  cases h

theorem valMapPre_append (m : Measurement) (v : Str)
    (vm : List (Str × List (Int × List Measurement))) (h : ValMapPre vm) :
    ValMapPre (aupdD v (aupdD m.dts (fun s => s ++ [m])) vm) := by
  refine ⟨akeys_nodup_aupdD _ _ _ h.1, ?_⟩
  intro v₂ ts hv
  by_cases hvv : v = v₂
  · subst hvv
    rw [alookup_aupdD_self] at hv
    cases hv
    apply timeShardsPre_append
    cases hl : alookup vm v with
    | none => simp [hl, timeShardsPre_empty]
    | some ts₀ => simpa [hl] using h.2 v ts₀ hl
  · rw [alookup_aupdD_other _ _ _ _ hvv] at hv
    exact h.2 v₂ ts hv

theorem idxMapPre_addIdxInner (m : Measurement)
    (im : List (Str × List (Str × List (Int × List Measurement))))
    (h : IdxMapPre im) : IdxMapPre (addIdxInner m im) := by
  unfold addIdxInner
  induction m.indices generalizing im with
  | nil => exact h
  | cons kv rest ih =>
    simp only [List.foldl_cons]
    apply ih
    refine ⟨akeys_nodup_aupdD _ _ _ h.1, ?_⟩
    intro k vm hk
    by_cases hkk : kv.1 = k
    · subst hkk
      rw [alookup_aupdD_self] at hk
      cases hk
      apply valMapPre_append
      cases hl : alookup im kv.1 with
      | none => simp [hl, valMapPre_empty]
      | some vm₀ => simpa [hl] using h.2 kv.1 vm₀ hl
    · rw [alookup_aupdD_other _ _ _ _ hkk] at hk
      exact h.2 k vm hk

theorem preInv_addMeasurement (j : JDB) (m : Measurement) (mids : List Str)
    (fields : List (Str × measurementFieldType)) (h : j.PreInv) :
    (j.addMeasurement m mids fields).PreInv := by
  obtain ⟨⟨hmnd, hmall⟩, ⟨hind, hiall⟩⟩ := h
  constructor
  · constructor
    · exact akeys_nodup_aupdD _ _ _ hmnd
    · intro n ts hn
      by_cases hnn : m.name = n
      · subst hnn
        rw [show (j.addMeasurement m mids fields).measurements = addMs m j.measurements
            from rfl] at hn
        unfold addMs at hn
        rw [alookup_aupdD_self] at hn
        cases hn
        apply timeShardsPre_append
        cases hl : alookup j.measurements m.name with
        | none => simp [hl, timeShardsPre_empty]
        | some ts₀ => simpa [hl] using hmall m.name ts₀ hl
      · rw [show (j.addMeasurement m mids fields).measurements = addMs m j.measurements
            from rfl, addMs, alookup_aupdD_other _ _ _ _ hnn] at hn
        exact hmall n ts hn
  · constructor
    · exact akeys_nodup_aupdD _ _ _ hind
    · intro n im hn
      rw [show (j.addMeasurement m mids fields).indices = addIdx m j.indices
          from rfl] at hn
      unfold addIdx at hn
      by_cases hnn : m.name = n
      · subst hnn
        rw [alookup_aupdD_self] at hn
        cases hn
        have him : IdxMapPre ((alookup j.indices m.name).getD []) := by
          cases hl : alookup j.indices m.name with
          | none => simp [hl, idxMapPre_empty]
          | some im₀ =>
            have := hiall m.name im₀ hl
            simpa [hl] using this
        exact idxMapPre_addIdxInner m _ him
      · rw [alookup_aupdD_other _ _ _ _ hnn] at hn
        exact hiall n im hn

theorem shardOK_sort_of_pre (b : Int) (s : List Measurement) (h : ShardPre b s) :
    ShardOK b (sortShard s) := by
  refine ⟨?_, sortShard_pairwise s, ?_⟩
  · intro he
    have hp := sortShard_perm s
    rw [he] at hp
    exact h.1 hp.symm.eq_nil
  · intro m hm
    exact h.2 m ((sortShard_perm s).mem_iff.mp hm)

theorem timeShardsOK_sortAll (ts : List (Int × List Measurement))
    (h : TimeShardsPre ts) : TimeShardsOK (mapVals sortShard ts) := by
  refine ⟨by rw [akeys_mapVals]; exact h.1, ?_⟩
  intro b s hbs
  rw [alookup_mapVals] at hbs
  cases hl : alookup ts b with
  | none => rw [hl] at hbs; cases hbs
  | some s₀ =>
    rw [hl] at hbs
    simp only [Option.map_some'] at hbs
    cases hbs
    exact shardOK_sort_of_pre b s₀ (h.2 b s₀ hl)

/-- Value-map and per-name index map, sorted flavour. -/
def ValMapOK (vm : List (Str × List (Int × List Measurement))) : Prop :=
  (akeys vm).Nodup ∧ ∀ v ts, alookup vm v = some ts → TimeShardsOK ts

def IdxMapOK (im : List (Str × List (Str × List (Int × List Measurement)))) : Prop :=
  (akeys im).Nodup ∧ ∀ k vm, alookup im k = some vm → ValMapOK vm

theorem valMapOK_sortAll (vm : List (Str × List (Int × List Measurement)))
    (h : ValMapPre vm) : ValMapOK (mapVals (mapVals sortShard) vm) := by
  refine ⟨by rw [akeys_mapVals]; exact h.1, ?_⟩
  intro v ts hv
  rw [alookup_mapVals] at hv
  cases hl : alookup vm v with
  | none => rw [hl] at hv; cases hv
  | some ts₀ =>
    rw [hl] at hv
    simp only [Option.map_some'] at hv
    cases hv
    exact timeShardsOK_sortAll ts₀ (h.2 v ts₀ hl)

theorem idxMapOK_sortAll (im : List (Str × List (Str × List (Int × List Measurement))))
    (h : IdxMapPre im) : IdxMapOK (mapVals (mapVals (mapVals sortShard)) im) := by
  refine ⟨by rw [akeys_mapVals]; exact h.1, ?_⟩
  intro k vm hk
  rw [alookup_mapVals] at hk
  cases hl : alookup im k with
  | none => rw [hl] at hk; cases hk
  | some vm₀ =>
    rw [hl] at hk
    simp only [Option.map_some'] at hk
    cases hk
    exact valMapOK_sortAll vm₀ (h.2 k vm₀ hl)

theorem inv_sortAllShards (j : JDB) (h : j.PreInv) : j.sortAllShards.Inv := by
  obtain ⟨⟨hmnd, hmall⟩, ⟨hind, hiall⟩⟩ := h
  constructor
  · constructor
    · rw [show j.sortAllShards.measurements = mapVals (mapVals sortShard) j.measurements
          from rfl, akeys_mapVals]
      exact hmnd
    · intro n ts hn
      rw [show j.sortAllShards.measurements = mapVals (mapVals sortShard) j.measurements
          from rfl, alookup_mapVals] at hn
      cases hl : alookup j.measurements n with
      | none => rw [hl] at hn; cases hn
      | some ts₀ =>
        rw [hl] at hn
        simp only [Option.map_some'] at hn
        cases hn
        exact timeShardsOK_sortAll ts₀ (hmall n ts₀ hl)
  · constructor
    · rw [show j.sortAllShards.indices =
          mapVals (mapVals (mapVals (mapVals sortShard))) j.indices from rfl, akeys_mapVals]
      exact hind
    · intro n im hn
      rw [show j.sortAllShards.indices =
          mapVals (mapVals (mapVals (mapVals sortShard))) j.indices from rfl,
        alookup_mapVals] at hn
      cases hl : alookup j.indices n with
      | none => rw [hl] at hn; cases hn
      | some im₀ =>
        rw [hl] at hn
        simp only [Option.map_some'] at hn
        cases hn
        exact idxMapOK_sortAll im₀ (hiall n im₀ hl)

theorem preInv_empty :
    JDB.PreInv
      { file := [], saveBuffer := [], lastSave := 0, ids := [],
        measurements := [], indices := [], measurementFields := [] } := by
  constructor
  · exact ⟨List.nodup_nil, fun n ts h => by rw [alookup_nil] at h; cases h⟩
  · exact ⟨List.nodup_nil, fun n im h => by rw [alookup_nil] at h; cases h⟩

theorem preInv_replay (ms : List Measurement) (j : JDB) (h : j.PreInv) :
    (ms.foldl (fun j m => j.addMeasurement m m.ids m.fieldsRaw.1) j).PreInv := by
  induction ms generalizing j with
  | nil => exact h
  | cons m rest ih =>
    simp only [List.foldl_cons]
    exact ih _ (preInv_addMeasurement j m _ _ h)

/-- Every freshly opened store satisfies the invariant. -/
theorem new_inv (file : List Str) (now : Int) (j : JDB) (h : New file now = some j) :
    j.Inv := by
  unfold New at h
  cases hd : decodeFile file with
  | none => rw [hd] at h; cases h
  | some ms =>
    rw [hd] at h
    simp only [Option.some.injEq] at h
    rw [← h]
    apply inv_sortAllShards
    have h₀ : JDB.PreInv
        { file := file, saveBuffer := [], lastSave := now, ids := [],
          measurements := [], indices := [], measurementFields := [] } := by
      constructor
      · exact ⟨List.nodup_nil, fun n ts hh => by rw [alookup_nil] at hh; cases hh⟩
      · exact ⟨List.nodup_nil, fun n im hh => by rw [alookup_nil] at hh; cases hh⟩
    exact preInv_replay ms _ h₀

theorem shardOK_sortAppend (b : Int) (m : Measurement) (s : List Measurement)
    (hb : m.dts = b) (hs : s = [] ∨ ∀ x ∈ s, x.dts = b) :
    ShardOK b (sortShard (s ++ [m])) := by
  apply shardOK_sort_of_pre
  constructor
  · simp
  · intro x hx
    rcases List.mem_append.mp hx with hx | hx
    · rcases hs with hs | hs
      · simp [hs] at hx
      · exact hs x hx
    · simp only [List.mem_singleton] at hx
      rw [hx, hb]

theorem timeShardsOK_addSort (m : Measurement) (ts : List (Int × List Measurement))
    (h : TimeShardsOK ts) :
    TimeShardsOK (aupdD m.dts (fun s => sortShard (s ++ [m])) ts) := by
  refine ⟨akeys_nodup_aupdD _ _ _ h.1, ?_⟩
  intro b s hbs
  by_cases hb : m.dts = b
  · subst hb
    rw [alookup_aupdD_self] at hbs
    cases hbs
    apply shardOK_sortAppend _ _ _ rfl
    cases hl : alookup ts m.dts with
    | none => simp [hl]
    | some s₀ =>
      right
      intro x hx
      simpa [hl] using (h.2 m.dts s₀ hl).2.2 x (by simpa [hl] using hx)
  · rw [alookup_aupdD_other _ _ _ _ hb] at hbs
    exact h.2 b s hbs

theorem timeShardsOK_empty : TimeShardsOK [] := by
  refine ⟨List.nodup_nil, ?_⟩
  intro b s h
  rw [alookup_nil] at h
  cases h

theorem valMapOK_empty : ValMapOK [] := by
  refine ⟨List.nodup_nil, ?_⟩
  intro v ts h
  rw [alookup_nil] at h
  cases h

theorem valMapOK_addSort (m : Measurement) (v : Str)
    (vm : List (Str × List (Int × List Measurement))) (h : ValMapOK vm) :
    ValMapOK (aupdD v (aupdD m.dts (fun s => sortShard (s ++ [m]))) vm) := by
  refine ⟨akeys_nodup_aupdD _ _ _ h.1, ?_⟩
  intro v₂ ts hv
  by_cases hvv : v = v₂
  · subst hvv
    rw [alookup_aupdD_self] at hv
    cases hv
    apply timeShardsOK_addSort
    cases hl : alookup vm v with
    | none => simp [hl, timeShardsOK_empty]
    | some ts₀ => simpa [hl] using h.2 v ts₀ hl
  · rw [alookup_aupdD_other _ _ _ _ hvv] at hv
    exact h.2 v₂ ts hv

theorem idxMapOK_addSortFold (m : Measurement)
    (hnd : (akeys m.indices).Nodup)
    (im : List (Str × List (Str × List (Int × List Measurement))))
    (h : IdxMapOK im) : IdxMapOK (sortIdxInner m (addIdxInner m im)) := by
  unfold sortIdxInner addIdxInner
  refine ⟨?_, ?_⟩
  · exact akeys_nodup_foldPairs (fun v => aupdD v (aupdD m.dts sortShard)) m.indices _
      (akeys_nodup_foldPairs (fun v => aupdD v (aupdD m.dts (fun s => s ++ [m])))
        m.indices im h.1)
  · intro k vm hk
    rw [foldPairs_alookup (fun v => aupdD v (aupdD m.dts sortShard)) m.indices hnd _ k,
      foldPairs_alookup (fun v => aupdD v (aupdD m.dts (fun s => s ++ [m])))
        m.indices hnd im k] at hk
    cases hp : alookup m.indices k with
    | none =>
      rw [hp] at hk
      exact h.2 k vm hk
    | some v₀ =>
      rw [hp] at hk
      simp only [Option.getD_some, Option.some.injEq] at hk
      rw [aupdD_aupdD] at hk
      have hfun : (fun ts => aupdD m.dts sortShard
          (aupdD m.dts (fun s => s ++ [m]) ts)) =
          fun ts => aupdD m.dts (fun s => sortShard (s ++ [m])) ts := by
        funext ts
        rw [aupdD_aupdD]
      rw [hfun] at hk
      rw [← hk]
      apply valMapOK_addSort
      cases hl : alookup im k with
      | none => simp [hl, valMapOK_empty]
      | some vm₀ => simpa [hl] using h.2 k vm₀ hl

/-- `Validate` preserves the typing facts. -/
theorem validate_WF (m mv : Measurement) (hm : m.WF) (h : m.Validate = .ok mv) :
    mv.WF := by
  obtain ⟨hname, hdims, hlabs, hinds, hd, hl, hi⟩ := hm
  unfold Measurement.Validate at h
  by_cases h₁ : m.name.length = 0
  · rw [if_pos h₁] at h; cases h
  · rw [if_neg h₁] at h
    by_cases h₂ : m.dimensions.length = 0
    · rw [if_pos h₂] at h; cases h
    · rw [if_neg h₂] at h
      by_cases h₃ : m.indices.length = 0
      · rw [if_pos h₃] at h
        simp only [Except.ok.injEq] at h
        rw [← h]
        refine ⟨hname, hdims, hlabs, ?_, hd, hl, ?_⟩
        · intro kv hkv
          simp only [List.mem_singleton] at hkv
          rw [hkv]
          refine ⟨?_, hname⟩
          show StrWF DefaultIndexName
          decide
        · simp [akeys]
      · rw [if_neg h₃] at h
        simp only [Except.ok.injEq] at h
        rw [← h]
        exact ⟨hname, hdims, hlabs, hinds, hd, hl, hi⟩

/-- The fused effect of `addMeasurement` then the shard re-sort on the
time-shard map. -/
theorem timeShards_sortAdd (m : Measurement)
    (X : List (Str × List (Int × List Measurement)))
    (hnd : (akeys X).Nodup)
    (hall : ∀ n ts, alookup X n = some ts → TimeShardsOK ts) :
    (akeys (sortMs m (addMs m X))).Nodup ∧
      ∀ n ts, alookup (sortMs m (addMs m X)) n = some ts → TimeShardsOK ts := by
  unfold sortMs addMs
  rw [aupdD_aupdD]
  have hfun : (fun im => aupdD m.dts sortShard (aupdD m.dts (fun s => s ++ [m]) im)) =
      fun im => aupdD m.dts (fun s => sortShard (s ++ [m])) im := by
    funext im
    rw [aupdD_aupdD]
  rw [hfun]
  refine ⟨akeys_nodup_aupdD _ _ _ hnd, ?_⟩
  intro n ts hn
  by_cases hnn : m.name = n
  · subst hnn
    rw [alookup_aupdD_self] at hn
    cases hn
    apply timeShardsOK_addSort
    cases hl : alookup X m.name with
    | none => simp [hl, timeShardsOK_empty]
    | some ts₀ => simpa [hl] using hall m.name ts₀ hl
  · rw [alookup_aupdD_other _ _ _ _ hnn] at hn
    exact hall n ts hn

/-- Same at the index-shard map. -/
theorem idxShards_sortAdd (m : Measurement) (hi : (akeys m.indices).Nodup)
    (X : List (Str × List (Str × List (Str × List (Int × List Measurement)))))
    (hnd : (akeys X).Nodup)
    (hall : ∀ n im, alookup X n = some im → IdxMapOK im) :
    (akeys (sortIdx m (addIdx m X))).Nodup ∧
      ∀ n im, alookup (sortIdx m (addIdx m X)) n = some im → IdxMapOK im := by
  unfold sortIdx addIdx
  rw [aupdD_aupdD]
  refine ⟨akeys_nodup_aupdD _ _ _ hnd, ?_⟩
  intro n im hn
  by_cases hnn : m.name = n
  · subst hnn
    rw [alookup_aupdD_self] at hn
    cases hn
    apply idxMapOK_addSortFold m hi
    cases hl : alookup X m.name with
    | none =>
      simp only [hl, Option.getD_none]
      exact ⟨List.nodup_nil, fun k vm hh => by rw [alookup_nil] at hh; cases hh⟩
    | some im₀ => simpa [hl] using hall m.name im₀ hl
  · rw [alookup_aupdD_other _ _ _ _ hnn] at hn
    exact hall n im hn

/-- `Insert` preserves the invariant (failures return the state
unchanged; flushing does not touch the shard maps). -/
theorem insert_inv (j : JDB) (m : Measurement) (now : Int) (hm : m.WF)
    (h : j.Inv) : ((j.Insert m now).1).Inv := by
  unfold JDB.Insert
  cases hv : m.Validate with
  | error e => exact h
  | ok mv =>
    have hmv : mv.WF := validate_WF m mv hm hv
    by_cases hdup : mv.ids.any (fun i => (alookup j.ids i).isSome)
    · simp only [hdup, if_pos]
      exact h
    · simp only [Bool.not_eq_true] at hdup
      simp only [hdup]
      cases hf : mv.fields with
      | error e => exact h
      | ok flds =>
        obtain ⟨⟨hmnd, hmall⟩, ⟨hind, hiall⟩⟩ := h
        have hms := timeShards_sortAdd mv j.measurements hmnd hmall
        have hidx := idxShards_sortAdd mv hmv.2.2.2.2.2.2 j.indices hind hiall
        by_cases hfl : FlushMaxSize ≤
            (({ j.addMeasurement mv mv.ids flds with
                saveBuffer := (j.addMeasurement mv mv.ids flds).saveBuffer ++ [mv]
              } : JDB).sortTouched mv).saveBuffer.length ∨
            (({ j.addMeasurement mv mv.ids flds with
                saveBuffer := (j.addMeasurement mv mv.ids flds).saveBuffer ++ [mv]
              } : JDB).sortTouched mv).lastSave + FlushMaxDuration < now
        · simp only [hfl, if_pos]
          exact ⟨hms, hidx⟩
        · simp only [hfl, if_neg, not_false_iff]
          exact ⟨hms, hidx⟩

/-- The states a store can be in: freshly opened from any valid log, or
one (successful or failed) `Insert` later. `Upsert` is not part of the
code snapshot; inserted values satisfy the typing facts every Go value
does. -/
inductive Reachable : JDB → Prop
  | boot (file : List Str) (now : Int) (j : JDB) :
      New file now = some j → Reachable j
  | insert (j : JDB) (m : Measurement) (now : Int) :
      m.WF → Reachable j → Reachable ((j.Insert m now).1)

theorem reachable_inv (j : JDB) (h : Reachable j) : j.Inv := by
  induction h with
  | boot file now j hnew => exact new_inv file now j hnew
  | insert j m now hm hr ih => exact insert_inv j m now hm ih

/-! ### Range-selector and query-ordering lemmas -/

theorem pairwise_head_le (m₀ : Measurement) (rest : List Measurement)
    (h : (m₀ :: rest).Pairwise (fun a c => a.when ≤ c.when)) :
    ∀ x ∈ m₀ :: rest, m₀.when ≤ x.when := by
  intro x hx
  rcases List.mem_cons.mp hx with hx | hx
  · rw [hx]
  · exact (List.pairwise_cons.mp h).1 x hx

theorem pairwise_le_last (m₀ : Measurement) (rest : List Measurement)
    (h : (m₀ :: rest).Pairwise (fun a c => a.when ≤ c.when)) :
    ∀ x ∈ m₀ :: rest, x.when ≤ (rest.getLastD m₀).when := by
  induction rest generalizing m₀ with
  | nil =>
    intro x hx
    simp only [List.mem_singleton] at hx
    simp [hx, List.getLastD]
  | cons m₁ rest₂ ih =>
    intro x hx
    have hp := List.pairwise_cons.mp h
    have htail := ih m₁ hp.2
    rcases List.mem_cons.mp hx with hx | hx
    · rw [hx]
      calc m₀.when ≤ m₁.when := hp.1 m₁ (List.mem_cons_self _ _)
        _ ≤ (rest₂.getLastD m₁).when := htail m₁ (List.mem_cons_self _ _)
        _ = ((m₁ :: rest₂).getLastD m₀).when := by rw [List.getLastD_cons]
    · calc x.when ≤ (rest₂.getLastD m₁).when := htail x hx
        _ = ((m₁ :: rest₂).getLastD m₀).when := by rw [List.getLastD_cons]

/-- On a sorted shard, the range selector — fast shard rejection included —
returns exactly the in-window elements, in order. -/
theorem validMeasurements_filter_of_sorted (o : Options) (now : Int)
    (shard : List Measurement)
    (hs : shard.Pairwise (fun a c => a.when ≤ c.when)) :
    o.validMeasurements now shard =
      shard.filter (fun m =>
        decide ((o.mRange now).1 ≤ m.when) && decide (m.when ≤ (o.mRange now).2)) := by
  unfold Options.validMeasurements
  match shard with
  | [] => simp
  | m₀ :: rest =>
    by_cases hrej :
        (o.mRange now).2 < m₀.when ∨ ((rest.getLastD m₀).when < (o.mRange now).1)
    · simp only [hrej, if_pos]
      symm
      rw [List.filter_eq_nil_iff]
      intro a ha
      rcases hrej with hrej | hrej
      · have := pairwise_head_le m₀ rest hs a ha
        simp only [Bool.and_eq_true, decide_eq_true_eq]
        omega
      · have := pairwise_le_last m₀ rest hs a ha
        simp only [Bool.and_eq_true, decide_eq_true_eq]
        omega
    · simp only [hrej, if_neg, not_false_iff]

/-- Sortedness of a flattened, bucket-sorted query result. The shards
handed to the final sort are pairwise from distinct hour buckets, each
internally sorted and bucket-coherent. -/
theorem flatten_sorted (L : List (List Measurement))
    (hne : ∀ s ∈ L, s ≠ [])
    (hsrt : ∀ s ∈ L, s.Pairwise (fun a c => a.when ≤ c.when))
    (hcoh : ∀ s ∈ L, ∀ x ∈ s, x.dts = (s.headD default).dts)
    (hsep : L.Pairwise (fun s₁ s₂ =>
      (s₁.headD default).dts ≠ (s₂.headD default).dts)) :
    (sortBy headWhenD L).flatten.Pairwise (fun a c => a.when ≤ c.when) := by
  have hperm := sortBy_perm headWhenD L
  rw [List.pairwise_flatten]
  refine ⟨fun s hsm => hsrt s (hperm.mem_iff.mp hsm), ?_⟩
  have hhead := sortBy_pairwise headWhenD L
  have hsep₂ : (sortBy headWhenD L).Pairwise (fun s₁ s₂ =>
      (s₁.headD default).dts ≠ (s₂.headD default).dts) := by
    refine (hperm.pairwise_iff ?_).mpr hsep
    intro a b hab h
    exact hab h.symm
  have hcomb := hhead.and hsep₂
  refine hcomb.imp_of_mem ?_
  intro s₁ s₂ hm₁ hm₂ hp x hx y hy
  obtain ⟨hle, hned⟩ := hp
  have hm₁L : s₁ ∈ L := hperm.mem_iff.mp hm₁
  have hm₂L : s₂ ∈ L := hperm.mem_iff.mp hm₂
  have hb₁ : x.dts = (s₁.headD default).dts := hcoh s₁ hm₁L x hx
  have hb₂ : y.dts = (s₂.headD default).dts := hcoh s₂ hm₂L y hy
  have hmono : (s₁.headD default).dts ≤ (s₂.headD default).dts := by
    exact dts_mono hle
  have hlt : (s₁.headD default).dts < (s₂.headD default).dts :=
    lt_of_le_of_ne hmono hned
  have : x.when < y.when := by
    apply when_lt_of_dts_lt
    omega
  omega

theorem headD_mem (s : List Measurement) (h : s ≠ []) : s.headD default ∈ s := by
  cases s with
  | nil => exact absurd rfl h
  | cons a t => simp

theorem collectShards_mem (opts : Option Options) (now : Int)
    (buckets : List (Int × List Measurement)) (h : TimeShardsOK buckets)
    (s : List Measurement) (hs : s ∈ collectShards opts now buckets) :
    s ≠ [] ∧ s.Pairwise (fun a c => a.when ≤ c.when) ∧
      ∃ kv ∈ buckets, ∀ x ∈ s, x.dts = kv.1 := by
  unfold collectShards at hs
  cases opts with
  | none =>
    obtain ⟨kv, hkv, hesq⟩ := List.mem_map.mp hs
    have hok := h.2 kv.1 kv.2 (alookup_eq_some_of_mem buckets kv h.1 hkv)
    rw [← hesq]
    exact ⟨hok.1, hok.2.1, ⟨kv, hkv, hok.2.2⟩⟩
  | some o =>
    have hf := List.mem_filter.mp hs
    obtain ⟨kv, hkv, hesq⟩ := List.mem_map.mp hf.1
    have hok := h.2 kv.1 kv.2 (alookup_eq_some_of_mem buckets kv h.1 hkv)
    have hsub : s.Sublist kv.2 := by
      rw [← hesq]
      exact validMeasurements_sublist o now kv.2
    refine ⟨by simpa using hf.2, hok.2.1.sublist hsub, ⟨kv, hkv, ?_⟩⟩
    intro x hx
    exact hok.2.2 x (hsub.mem hx)

theorem collectShards_coh (opts : Option Options) (now : Int)
    (buckets : List (Int × List Measurement)) (h : TimeShardsOK buckets)
    (s : List Measurement) (hs : s ∈ collectShards opts now buckets) :
    ∀ x ∈ s, x.dts = (s.headD default).dts := by
  obtain ⟨hne, _, kv, _, hcoh⟩ := collectShards_mem opts now buckets h s hs
  intro x hx
  rw [hcoh x hx, hcoh _ (headD_mem s hne)]

theorem collectShards_sep (opts : Option Options) (now : Int)
    (buckets : List (Int × List Measurement)) (h : TimeShardsOK buckets) :
    (collectShards opts now buckets).Pairwise (fun s₁ s₂ =>
      (s₁.headD default).dts ≠ (s₂.headD default).dts) := by
  have hknd : buckets.Pairwise (fun p q => p.1 ≠ q.1) := List.pairwise_map.mp h.1
  have hbucket : ∀ kv ∈ buckets, ShardOK kv.1 kv.2 := by
    intro kv hkv
    exact h.2 kv.1 kv.2 (alookup_eq_some_of_mem buckets kv h.1 hkv)
  unfold collectShards
  cases opts with
  | none =>
    rw [List.pairwise_map]
    refine hknd.imp_of_mem ?_
    intro kv₁ kv₂ h₁ h₂ hne
    have hok₁ := hbucket kv₁ h₁
    have hok₂ := hbucket kv₂ h₂
    rw [hok₁.2.2 _ (headD_mem _ hok₁.1), hok₂.2.2 _ (headD_mem _ hok₂.1)]
    exact hne
  | some o =>
    have hmap : (buckets.map (fun kv => o.validMeasurements now kv.2)).Pairwise
        (fun s₁ s₂ => s₁ ≠ [] → s₂ ≠ [] →
          (s₁.headD default).dts ≠ (s₂.headD default).dts) := by
      rw [List.pairwise_map]
      refine hknd.imp_of_mem ?_
      intro kv₁ kv₂ h₁ h₂ hne hne₁ hne₂
      have hok₁ := hbucket kv₁ h₁
      have hok₂ := hbucket kv₂ h₂
      have hsub₁ := validMeasurements_sublist o now kv₁.2
      have hsub₂ := validMeasurements_sublist o now kv₂.2
      rw [hok₁.2.2 _ (hsub₁.mem (headD_mem _ hne₁)),
        hok₂.2.2 _ (hsub₂.mem (headD_mem _ hne₂))]
      exact hne
    have hfil : (List.filter (fun v => !v.isEmpty)
        (buckets.map (fun kv => o.validMeasurements now kv.2))).Pairwise
        (fun s₁ s₂ => s₁ ≠ [] → s₂ ≠ [] →
          (s₁.headD default).dts ≠ (s₂.headD default).dts) :=
      hmap.sublist (List.filter_sublist _)
    refine hfil.imp_of_mem ?_
    intro s₁ s₂ h₁ h₂ hp
    have hne₁ : s₁ ≠ [] := by simpa using (List.mem_filter.mp h₁).2
    have hne₂ : s₂ ≠ [] := by simpa using (List.mem_filter.mp h₂).2
    exact hp hne₁ hne₂

/-- Any successful `QueryAll` on an invariant-satisfying store is sorted. -/
theorem queryAll_sorted_of (buckets : List (Int × List Measurement))
    (h : TimeShardsOK buckets) (opts : Option Options) (now : Int) :
    (sortBy headWhenD (collectShards opts now buckets)).flatten.Pairwise
      (fun a c => a.when ≤ c.when) := by
  apply flatten_sorted
  · intro s hs
    exact (collectShards_mem opts now buckets h s hs).1
  · intro s hs
    exact (collectShards_mem opts now buckets h s hs).2.1
  · intro s hs
    exact collectShards_coh opts now buckets h s hs
  · exact collectShards_sep opts now buckets h

/-! ### Nil options versus all-zero options -/

theorem mRange_zero (now : Int) :
    (({} : Options).mRange now) = (goZeroTime, now) := by
  simp [Options.mRange]

/-- When every stored timestamp lies in `[goZeroTime, now]`, the all-zero
options keep every shard whole, like nil options. -/
theorem collectShards_zero_eq (now : Int) (buckets : List (Int × List Measurement))
    (h : TimeShardsOK buckets)
    (hw : ∀ kv ∈ buckets, ∀ x ∈ kv.2, goZeroTime ≤ x.when ∧ x.when ≤ now) :
    collectShards (some {}) now buckets = collectShards none now buckets := by
  have hval : ∀ kv ∈ buckets, ({} : Options).validMeasurements now kv.2 = kv.2 := by
    intro kv hkv
    have hok := h.2 kv.1 kv.2 (alookup_eq_some_of_mem buckets kv h.1 hkv)
    have hw₀ := hw kv hkv
    cases hsh : kv.2 with
    | nil => exact absurd hsh hok.1
    | cons m₀ rest =>
      rw [hsh] at hw₀
      have hm₀ := hw₀ m₀ (List.mem_cons_self _ _)
      have hlast := hw₀ (rest.getLastD m₀) (by
        cases rest with
        | nil => simp [List.getLastD]
        | cons a t =>
          rw [List.getLastD_cons]
          exact List.mem_cons_of_mem _ (List.getLastD_mem_cons t a))
      show (match (m₀ :: rest : List Measurement) with
        | [] => []
        | m₀ :: rest =>
          let ft := ({} : Options).mRange now
          if ft.2 < m₀.when ∨ (rest.getLastD m₀).when < ft.1 then []
          else (m₀ :: rest).filter
            (fun m => decide (ft.1 ≤ m.when) && decide (m.when ≤ ft.2))) = m₀ :: rest
      simp only [mRange_zero]
      rw [if_neg (by
        rw [not_or]
        constructor <;> [skip; skip] <;> simp only [not_lt] <;> omega)]
      rw [List.filter_eq_self]
      intro a ha
      have := hw₀ a ha
      simp only [Bool.and_eq_true, decide_eq_true_eq]
      omega
  show (buckets.map (fun kv => ({} : Options).validMeasurements now kv.2)).filter
      (fun v => !v.isEmpty) = buckets.map (fun kv => kv.2)
  have hmap : buckets.map (fun kv => ({} : Options).validMeasurements now kv.2) =
      buckets.map (fun kv => kv.2) := List.map_congr_left hval
  rw [hmap]
  apply List.filter_eq_self.mpr
  intro s hs
  obtain ⟨kv, hkv, hesq⟩ := List.mem_map.mp hs
  have hok := h.2 kv.1 kv.2 (alookup_eq_some_of_mem buckets kv h.1 hkv)
  rw [← hesq]
  simpa using hok.1

/-! ### Incremental sorting equals bulk sorting (round-trip support)

The boot path appends everything and sorts once; the insert path sorts the
touched shard after every append. The lemmas here show the two produce
identical shard maps. -/

theorem mem_akeys_aupd {α β : Type} [DecidableEq α] (k k₂ : α) (f : Option β → β)
    (l : List (α × β)) (h : k ∈ akeys l) : k ∈ akeys (aupd k₂ f l) := by
  rw [akeys_aupd]
  by_cases hm : k₂ ∈ akeys l
  · simpa [hm]
  · simp [hm, h]

/-- Updates of an existing key commute with updates of any other key. -/
theorem aupd_comm_of_mem {α β : Type} [DecidableEq α] (k₁ k₂ : α)
    (f₁ f₂ : Option β → β) (l : List (α × β)) (hne : k₁ ≠ k₂)
    (hmem : k₁ ∈ akeys l) :
    aupd k₁ f₁ (aupd k₂ f₂ l) = aupd k₂ f₂ (aupd k₁ f₁ l) := by
  induction l with
  | nil => simp [akeys] at hmem
  | cons p rest ih =>
    obtain ⟨k₀, v⟩ := p
    have hne₂ : k₂ ≠ k₁ := fun h => hne h.symm
    by_cases h₁ : k₀ = k₁
    · subst h₁
      simp [aupd, hne, hne₂]
    · by_cases h₂ : k₀ = k₂
      · subst h₂
        simp [aupd, hne, hne₂, h₁]
      · have hmem₂ : k₁ ∈ akeys rest := by
          simp only [akeys, List.map_cons, List.mem_cons] at hmem
          rcases hmem with hmem | hmem
          · exact absurd hmem.symm h₁
          · exact hmem
        simp [aupd, h₁, h₂, ih hmem₂]

/-- A value-wise map commutes with a single keyed update when the two
per-value operations commute. -/
theorem mapVals_aupdD_comm {α β : Type} [DecidableEq α]
    (F : List β → List β) (hF : F [] = [])
    (k : α) (g gF : List β → List β)
    (hcomm : ∀ x, gF (F x) = F (g x)) (l : List (α × List β)) :
    mapVals F (aupdD k g l) = aupdD k gF (mapVals F l) := by
  have h0 : gF [] = F (g []) := by
    calc gF [] = gF (F []) := by rw [hF]
      _ = F (g []) := hcomm []
  induction l with
  | nil => simp [aupdD, aupd, mapVals, h0]
  | cons p rest ih =>
    obtain ⟨k₁, v⟩ := p
    by_cases h : k₁ = k
    · subst h
      simp [aupdD, aupd, mapVals, hcomm v]
    · simp only [aupdD, aupd, if_neg h, mapVals, List.map_cons]
      simp only [aupdD, mapVals] at ih
      rw [ih]

/-- Level-1 (shard) identity: re-sorting after appending to an already
sorted shard is the bulk sort of the raw append. -/
theorem level1_comm (m : Measurement) (s : List Measurement) :
    sortShard (sortShard s ++ [m]) = sortShard (s ++ [m]) :=
  sortBy_sorted_append_singleton _ m s

/-- Level-2 (bucket map) identity. -/
theorem level2_comm (m : Measurement) (x : List (Int × List Measurement)) :
    aupdD m.dts (fun s => sortShard (s ++ [m])) (mapVals sortShard x) =
      mapVals sortShard (aupdD m.dts (fun s => s ++ [m]) x) := by
  rw [mapVals_aupdD_comm sortShard rfl m.dts (fun s => s ++ [m])
    (fun s => sortShard (s ++ [m])) (fun x => level1_comm m x) x]

/-- Level-3 (index-value map) identity. -/
theorem level3_comm (m : Measurement) (v : Str)
    (x : List (Str × List (Int × List Measurement))) :
    aupdD v (aupdD m.dts sortShard)
        (aupdD v (aupdD m.dts (fun s => s ++ [m])) (mapVals (mapVals sortShard) x)) =
      mapVals (mapVals sortShard) (aupdD v (aupdD m.dts (fun s => s ++ [m])) x) := by
  rw [aupdD_aupdD]
  have hfun : (fun ts => aupdD m.dts sortShard (aupdD m.dts (fun s => s ++ [m]) ts)) =
      fun ts => aupdD m.dts (fun s => sortShard (s ++ [m])) ts := by
    funext ts
    rw [aupdD_aupdD]
  rw [hfun]
  rw [mapVals_aupdD_comm (mapVals sortShard) rfl v
    (aupdD m.dts (fun s => s ++ [m])) (aupdD m.dts (fun s => sortShard (s ++ [m])))
    (fun x₂ => level2_comm m x₂) x]

/-- The key of the fold both index loops use: the touched key is present
afterwards. -/
theorem mem_akeys_foldPairs {β : Type} (h : Str → List β → List β)
    (pairs : List (Str × Str)) (im : List (Str × List β)) (k : Str)
    (hk : k ∈ akeys im) :
    k ∈ akeys (pairs.foldl (fun acc kv => aupdD kv.1 (h kv.2) acc) im) := by
  induction pairs generalizing im with
  | nil => exact hk
  | cons p rest ih =>
    simp only [List.foldl_cons]
    exact ih _ (mem_akeys_aupd _ _ _ _ hk)

/-- A single keyed update at a key absent from the pairs commutes past
the whole fold, provided the key is already present. -/
theorem aupdD_foldPairs_comm {β : Type} (h₁ : List β → List β)
    (h : Str → List β → List β) (pairs : List (Str × Str))
    (k : Str) (hk : ∀ kv ∈ pairs, kv.1 ≠ k) (im : List (Str × List β))
    (hmem : k ∈ akeys im) :
    aupdD k h₁ (pairs.foldl (fun acc kv => aupdD kv.1 (h kv.2) acc) im) =
      pairs.foldl (fun acc kv => aupdD kv.1 (h kv.2) acc) (aupdD k h₁ im) := by
  induction pairs generalizing im with
  | nil => rfl
  | cons p rest ih =>
    simp only [List.foldl_cons]
    have hm2 : k ∈ akeys (aupdD p.1 (h p.2) im) := mem_akeys_aupd k p.1 _ im hmem
    rw [ih (fun kv hkv => hk kv (List.mem_cons_of_mem _ hkv)) (aupdD p.1 (h p.2) im) hm2]
    congr 1
    unfold aupdD
    exact aupd_comm_of_mem k p.1 _ _ im (fun he => hk p (List.mem_cons_self _ _) he.symm)
      hmem

theorem self_mem_akeys_aupd {α β : Type} [DecidableEq α] (k : α) (f : Option β → β)
    (l : List (α × β)) : k ∈ akeys (aupd k f l) := by
  rw [akeys_aupd]
  by_cases hm : k ∈ akeys l <;> simp [hm]

/-- One pair-step of the two index loops, fused at the name-inner level. -/
theorem level4_step (m : Measurement) (k v : Str)
    (x : List (Str × List (Str × List (Int × List Measurement)))) :
    aupdD k (aupdD v (aupdD m.dts sortShard))
        (aupdD k (aupdD v (aupdD m.dts (fun s => s ++ [m])))
          (mapVals (mapVals (mapVals sortShard)) x)) =
      mapVals (mapVals (mapVals sortShard))
        (aupdD k (aupdD v (aupdD m.dts (fun s => s ++ [m]))) x) := by
  rw [aupdD_aupdD]
  rw [mapVals_aupdD_comm (mapVals (mapVals sortShard)) rfl k
    (aupdD v (aupdD m.dts (fun s => s ++ [m])))
    (fun y => aupdD v (aupdD m.dts sortShard)
      (aupdD v (aupdD m.dts (fun s => s ++ [m])) y))
    (fun y => level3_comm m v y) x]

/-- The re-sort fold after the append fold, over the same index pairs
(unique keys), is the bulk sort of the raw append fold. -/
theorem pairsFold_comm (m : Measurement) (pairs : List (Str × Str))
    (hnd : (akeys pairs).Nodup)
    (x : List (Str × List (Str × List (Int × List Measurement)))) :
    pairs.foldl (fun acc kv => aupdD kv.1 (aupdD kv.2 (aupdD m.dts sortShard)) acc)
      (pairs.foldl
        (fun acc kv => aupdD kv.1 (aupdD kv.2 (aupdD m.dts (fun s => s ++ [m]))) acc)
        (mapVals (mapVals (mapVals sortShard)) x)) =
      mapVals (mapVals (mapVals sortShard))
        (pairs.foldl
          (fun acc kv => aupdD kv.1 (aupdD kv.2 (aupdD m.dts (fun s => s ++ [m]))) acc)
          x) := by
  induction pairs generalizing x with
  | nil => rfl
  | cons kv rest ih =>
    simp only [akeys, List.map_cons, List.nodup_cons] at hnd
    simp only [List.foldl_cons]
    have hne : ∀ kv₂ ∈ rest, kv₂.1 ≠ kv.1 := by
      intro kv₂ hkv₂ he
      exact hnd.1 (he ▸ List.mem_map_of_mem _ hkv₂)
    have hmem : kv.1 ∈ akeys (aupdD kv.1 (aupdD kv.2 (aupdD m.dts (fun s => s ++ [m])))
        (mapVals (mapVals (mapVals sortShard)) x)) := self_mem_akeys_aupd _ _ _
    rw [aupdD_foldPairs_comm (aupdD kv.2 (aupdD m.dts sortShard))
      (fun v₂ => aupdD v₂ (aupdD m.dts (fun s => s ++ [m]))) rest kv.1 hne _ hmem]
    rw [level4_step m kv.1 kv.2 x]
    exact ih hnd.2 _

/-- The whole index-map level: sort-after-add equals bulk-sort-after-add. -/
theorem idxInner_comm (m : Measurement) (hnd : (akeys m.indices).Nodup)
    (x : List (Str × List (Str × List (Int × List Measurement)))) :
    sortIdxInner m (addIdxInner m (mapVals (mapVals (mapVals sortShard)) x)) =
      mapVals (mapVals (mapVals sortShard)) (addIdxInner m x) := by
  unfold sortIdxInner addIdxInner
  exact pairsFold_comm m m.indices hnd x

/-- `sortMs ∘ addMs` on a bulk-sorted map is the bulk sort of the raw
`addMs`. -/
theorem key_measurements (m : Measurement)
    (X : List (Str × List (Int × List Measurement))) :
    sortMs m (addMs m (mapVals (mapVals sortShard) X)) =
      mapVals (mapVals sortShard) (addMs m X) := by
  unfold sortMs addMs
  rw [aupdD_aupdD]
  have hc : ∀ im, (fun im₂ => aupdD m.dts sortShard
      (aupdD m.dts (fun s => s ++ [m]) im₂)) (mapVals sortShard im) =
      mapVals sortShard (aupdD m.dts (fun s => s ++ [m]) im) := by
    intro im
    show aupdD m.dts sortShard (aupdD m.dts (fun s => s ++ [m]) (mapVals sortShard im)) =
      mapVals sortShard (aupdD m.dts (fun s => s ++ [m]) im)
    rw [aupdD_aupdD, level2_comm]
  rw [mapVals_aupdD_comm (mapVals sortShard) rfl m.name
    (aupdD m.dts (fun s => s ++ [m]))
    (fun im => aupdD m.dts sortShard (aupdD m.dts (fun s => s ++ [m]) im)) hc X]

/-- `sortIdx ∘ addIdx` on a bulk-sorted index map is the bulk sort of the
raw `addIdx`. -/
theorem key_indices (m : Measurement) (hnd : (akeys m.indices).Nodup)
    (X : List (Str × List (Str × List (Str × List (Int × List Measurement))))) :
    sortIdx m (addIdx m (mapVals (mapVals (mapVals (mapVals sortShard))) X)) =
      mapVals (mapVals (mapVals (mapVals sortShard))) (addIdx m X) := by
  unfold sortIdx addIdx
  rw [aupdD_aupdD]
  rw [mapVals_aupdD_comm (mapVals (mapVals (mapVals sortShard))) rfl m.name
    (addIdxInner m)
    (fun im => sortIdxInner m (addIdxInner m im))
    (fun im => idxInner_comm m hnd im) X]

/-! ### Round-trip: boot state and insert history -/

/-- The raw (unsorted) time-shard map of a replayed measurement list. -/
def rawMs (l : List Measurement) : List (Str × List (Int × List Measurement)) :=
  l.foldl (fun X m => addMs m X) []

/-- The raw (unsorted) index-shard map of a replayed measurement list. -/
def rawIdx (l : List Measurement) :
    List (Str × List (Str × List (Str × List (Int × List Measurement)))) :=
  l.foldl (fun X m => addIdx m X) []

theorem rawMs_append (a : List Measurement) (m : Measurement) :
    rawMs (a ++ [m]) = addMs m (rawMs a) := by
  unfold rawMs
  rw [List.foldl_append]
  rfl

theorem rawIdx_append (a : List Measurement) (m : Measurement) :
    rawIdx (a ++ [m]) = addIdx m (rawIdx a) := by
  unfold rawIdx
  rw [List.foldl_append]
  rfl

theorem foldl_addMeasurement_measurements (ms : List Measurement) (j : JDB) :
    (ms.foldl (fun j m => j.addMeasurement m m.ids m.fieldsRaw.1) j).measurements =
      ms.foldl (fun X m => addMs m X) j.measurements := by
  induction ms generalizing j with
  | nil => rfl
  | cons m rest ih => simp only [List.foldl_cons, ih]; rfl

theorem foldl_addMeasurement_indices (ms : List Measurement) (j : JDB) :
    (ms.foldl (fun j m => j.addMeasurement m m.ids m.fieldsRaw.1) j).indices =
      ms.foldl (fun X m => addIdx m X) j.indices := by
  induction ms generalizing j with
  | nil => rfl
  | cons m rest ih => simp only [List.foldl_cons, ih]; rfl

/-- What `New` yields on a decodable file, component-wise. -/
theorem new_of_decode (file : List Str) (now : Int) (ms : List Measurement)
    (hd : decodeFile file = some ms) :
    ∃ j, New file now = some j ∧
      j.measurements = mapVals (mapVals sortShard) (rawMs ms) ∧
      j.indices = mapVals (mapVals (mapVals (mapVals sortShard))) (rawIdx ms) := by
  have hnew : New file now = some
      ((ms.foldl (fun (j : JDB) (m : Measurement) => j.addMeasurement m m.ids m.fieldsRaw.1)
        { file := file, saveBuffer := [], lastSave := now, ids := [],
          measurements := [], indices := [], measurementFields := [] }).sortAllShards) := by
    unfold New
    rw [hd]
  refine ⟨_, hnew, ?_, ?_⟩
  · show (JDB.sortAllShards _).measurements = _
    rw [show ∀ x : JDB, x.sortAllShards.measurements =
        mapVals (mapVals sortShard) x.measurements from fun x => rfl]
    rw [foldl_addMeasurement_measurements]
    rfl
  · show (JDB.sortAllShards _).indices = _
    rw [show ∀ x : JDB, x.sortAllShards.indices =
        mapVals (mapVals (mapVals (mapVals sortShard))) x.indices from fun x => rfl]
    rw [foldl_addMeasurement_indices]
    rfl

theorem decodeFile_append_encoded (file : List Str) (ms : List Measurement)
    (hd : decodeFile file = some ms) (ws : List Measurement)
    (hwf : ∀ m ∈ ws, m.WF) :
    decodeFile (file ++ ws.map encodeLine) = some (ms ++ ws) := by
  induction file generalizing ms with
  | nil =>
    simp only [decodeFile] at hd
    cases hd
    simp only [List.nil_append]
    induction ws with
    | nil => rfl
    | cons w rest ih =>
      simp only [List.map_cons, decodeFile,
        decodeLine_encodeLine w (hwf w (List.mem_cons_self _ _))]
      rw [ih (fun m hm => hwf m (List.mem_cons_of_mem _ hm))]
      rfl
  | cons line rest ih =>
    simp only [decodeFile] at hd
    cases hline : decodeLine line with
    | none => rw [hline] at hd; cases hd
    | some m =>
      rw [hline] at hd
      cases hrest : decodeFile rest with
      | none => rw [hrest] at hd; simp at hd
      | some ms₂ =>
        rw [hrest] at hd
        simp only [Option.map_some'] at hd
        cases hd
        simp only [List.cons_append, decodeFile, hline, List.append_eq]
        rw [ih ms₂ hrest]
        rfl

/-- The shape of one `Insert` call: either it fails and leaves the state
untouched, or it succeeds and its effect on shard maps and durable data
is the validated record's. -/
theorem insert_shape (j : JDB) (m : Measurement) (now : Int) :
    (j.Insert m now).1 = j ∨
    ∃ mv, m.Validate = .ok mv ∧
      ((j.Insert m now).1).measurements = sortMs mv (addMs mv j.measurements) ∧
      ((j.Insert m now).1).indices = sortIdx mv (addIdx mv j.indices) ∧
      ((j.Insert m now).1).file ++ ((j.Insert m now).1).saveBuffer.map encodeLine =
        j.file ++ j.saveBuffer.map encodeLine ++ [encodeLine mv] := by
  unfold JDB.Insert
  cases hv : m.Validate with
  | error e => exact Or.inl rfl
  | ok mv =>
    by_cases hdup : mv.ids.any (fun i => (alookup j.ids i).isSome)
    · simp only [hdup, if_pos]
      left
      first
      | rfl
      | trivial
    · simp only [Bool.not_eq_true] at hdup
      simp only [hdup]
      cases hf : mv.fields with
      | error e =>
        left
        first
        | rfl
        | trivial
      | ok flds =>
        right
        refine ⟨mv, rfl, ?_⟩
        have hbuf : (j.addMeasurement mv mv.ids flds).saveBuffer = j.saveBuffer := rfl
        by_cases hfl : FlushMaxSize ≤
            (({ j.addMeasurement mv mv.ids flds with
                saveBuffer := (j.addMeasurement mv mv.ids flds).saveBuffer ++ [mv]
              } : JDB).sortTouched mv).saveBuffer.length ∨
            (({ j.addMeasurement mv mv.ids flds with
                saveBuffer := (j.addMeasurement mv mv.ids flds).saveBuffer ++ [mv]
              } : JDB).sortTouched mv).lastSave + FlushMaxDuration < now
        · simp only [hfl, if_pos]
          refine ⟨rfl, rfl, ?_⟩
          show (j.file ++ ((j.addMeasurement mv mv.ids flds).saveBuffer ++ [mv]).map
              encodeLine) ++ ([] : List Measurement).map encodeLine = _
          rw [hbuf]
          simp only [List.map_append, List.map_cons, List.map_nil, List.append_nil,
            List.append_assoc]
        · simp only [hfl, if_neg, not_false_iff]
          refine ⟨rfl, rfl, ?_⟩
          show j.file ++ ((j.addMeasurement mv mv.ids flds).saveBuffer ++ [mv]).map
              encodeLine = _
          rw [hbuf]
          simp only [List.map_append, List.map_cons, List.map_nil, List.append_assoc]

theorem foldl_addMeasurement_file (ms : List Measurement) (j : JDB) :
    (ms.foldl (fun j m => j.addMeasurement m m.ids m.fieldsRaw.1) j).file = j.file := by
  induction ms generalizing j with
  | nil => rfl
  | cons m rest ih => simp only [List.foldl_cons, ih]; rfl

theorem foldl_addMeasurement_saveBuffer (ms : List Measurement) (j : JDB) :
    (ms.foldl (fun j m => j.addMeasurement m m.ids m.fieldsRaw.1) j).saveBuffer =
      j.saveBuffer := by
  induction ms generalizing j with
  | nil => rfl
  | cons m rest ih => simp only [List.foldl_cons, ih]; rfl

/-- The whole insert history, against the raw replay normal form. -/
theorem history_fold (ins : List (Measurement × Int)) (hwf : ∀ p ∈ ins, p.1.WF)
    (j : JDB) (acc : List Measurement)
    (hms : j.measurements = mapVals (mapVals sortShard) (rawMs acc))
    (hidx : j.indices = mapVals (mapVals (mapVals (mapVals sortShard))) (rawIdx acc)) :
    ∃ ws : List Measurement, (∀ m ∈ ws, m.WF) ∧
      (ins.foldl (fun j p => (j.Insert p.1 p.2).1) j).measurements =
        mapVals (mapVals sortShard) (rawMs (acc ++ ws)) ∧
      (ins.foldl (fun j p => (j.Insert p.1 p.2).1) j).indices =
        mapVals (mapVals (mapVals (mapVals sortShard))) (rawIdx (acc ++ ws)) ∧
      (ins.foldl (fun j p => (j.Insert p.1 p.2).1) j).file ++
          ((ins.foldl (fun j p => (j.Insert p.1 p.2).1) j).saveBuffer.map encodeLine) =
        j.file ++ j.saveBuffer.map encodeLine ++ ws.map encodeLine := by
  induction ins generalizing j acc with
  | nil =>
    exact ⟨[], by simp, by simpa using hms, by simpa using hidx, by simp⟩
  | cons p rest ih =>
    obtain ⟨m, now⟩ := p
    simp only [List.foldl_cons]
    rcases insert_shape j m now with heq | ⟨mv, hv, hm2, hi2, hf2⟩
    · rw [heq]
      exact ih (fun q hq => hwf q (List.mem_cons_of_mem _ hq)) j acc hms hidx
    · have hmWF : m.WF := (hwf (m, now) (List.mem_cons_self _ _))
      have hmvWF : mv.WF := validate_WF m mv hmWF hv
      have hm3 : ((j.Insert m now).1).measurements =
          mapVals (mapVals sortShard) (rawMs (acc ++ [mv])) := by
        rw [hm2, hms, key_measurements, rawMs_append]
      have hi3 : ((j.Insert m now).1).indices =
          mapVals (mapVals (mapVals (mapVals sortShard))) (rawIdx (acc ++ [mv])) := by
        rw [hi2, hidx, key_indices mv hmvWF.2.2.2.2.2.2, rawIdx_append]
      obtain ⟨ws, hwsWF, hws1, hws2, hws3⟩ :=
        ih (fun q hq => hwf q (List.mem_cons_of_mem _ hq)) ((j.Insert m now).1)
          (acc ++ [mv]) hm3 hi3
      refine ⟨mv :: ws, ?_, ?_, ?_, ?_⟩
      · intro x hx
        rcases List.mem_cons.mp hx with hx | hx
        · rw [hx]; exact hmvWF
        · exact hwsWF x hx
      · rw [hws1, List.append_assoc]
        rfl
      · rw [hws2, List.append_assoc]
        rfl
      · rw [hws3, hf2]
        simp [List.append_assoc]

/-- Closing any booted-then-inserted store and reopening the log file
reproduces exactly the same time-shard and index-shard maps. -/
theorem roundtrip_components (file₀ : List Str) (now₀ : Int) (j₀ : JDB)
    (hboot : New file₀ now₀ = some j₀)
    (ins : List (Measurement × Int)) (hwf : ∀ p ∈ ins, p.1.WF)
    (nowC nowR : Int) :
    ∃ jRe, New (((ins.foldl (fun j p => (j.Insert p.1 p.2).1) j₀).Close nowC).file) nowR
        = some jRe ∧
      jRe.measurements = (ins.foldl (fun j p => (j.Insert p.1 p.2).1) j₀).measurements ∧
      jRe.indices = (ins.foldl (fun j p => (j.Insert p.1 p.2).1) j₀).indices := by
  unfold New at hboot
  cases hd : decodeFile file₀ with
  | none => rw [hd] at hboot; cases hboot
  | some ms₀ =>
    rw [hd] at hboot
    simp only [Option.some.injEq] at hboot
    have hj₀m : j₀.measurements = mapVals (mapVals sortShard) (rawMs ms₀) := by
      rw [← hboot]
      show mapVals (mapVals sortShard) _ = _
      rw [foldl_addMeasurement_measurements]
      rfl
    have hj₀i : j₀.indices =
        mapVals (mapVals (mapVals (mapVals sortShard))) (rawIdx ms₀) := by
      rw [← hboot]
      show mapVals (mapVals (mapVals (mapVals sortShard))) _ = _
      rw [foldl_addMeasurement_indices]
      rfl
    have hj₀f : j₀.file = file₀ := by
      rw [← hboot]
      rw [show ∀ x : JDB, x.sortAllShards.file = x.file from fun x => rfl]
      rw [foldl_addMeasurement_file]
    have hj₀b : j₀.saveBuffer = [] := by
      rw [← hboot]
      rw [show ∀ x : JDB, x.sortAllShards.saveBuffer = x.saveBuffer from fun x => rfl]
      rw [foldl_addMeasurement_saveBuffer]
    obtain ⟨ws, hwsWF, hws1, hws2, hws3⟩ := history_fold ins hwf j₀ ms₀ hj₀m hj₀i
    have hfileF : (((ins.foldl (fun j p => (j.Insert p.1 p.2).1) j₀).Close nowC).file) =
        file₀ ++ ws.map encodeLine := by
      show ((ins.foldl (fun j p => (j.Insert p.1 p.2).1) j₀).flush nowC).file = _
      show (ins.foldl (fun j p => (j.Insert p.1 p.2).1) j₀).file ++
        ((ins.foldl (fun j p => (j.Insert p.1 p.2).1) j₀).saveBuffer.map encodeLine) = _
      rw [hws3, hj₀f, hj₀b]
      simp
    have hdec : decodeFile (file₀ ++ ws.map encodeLine) = some (ms₀ ++ ws) :=
      decodeFile_append_encoded file₀ ms₀ hd ws hwsWF
    obtain ⟨jRe, hnew, hm, hi⟩ :=
      new_of_decode (file₀ ++ ws.map encodeLine) nowR (ms₀ ++ ws) hdec
    refine ⟨jRe, ?_, ?_, ?_⟩
    · rw [hfileF]
      exact hnew
    · rw [hm, hws1]
    · rw [hi, hws2]

/-- Queries read only the two shard maps. -/
theorem queryAll_congr (j₁ j₂ : JDB) (h : j₁.measurements = j₂.measurements)
    (name : Str) (opts : Option Options) (now : Int) :
    j₁.QueryAll name opts now = j₂.QueryAll name opts now := by
  unfold JDB.QueryAll
  rw [h]

theorem queryAllIndex_congr (j₁ j₂ : JDB) (h : j₁.indices = j₂.indices)
    (name index indexValue : Str) (opts : Option Options) (now : Int) :
    j₁.QueryAllIndex name index indexValue opts now =
      j₂.QueryAllIndex name index indexValue opts now := by
  unfold JDB.QueryAllIndex
  rw [h]

/-! ### Identity-key decomposition -/

/-- Splitting at the first sentinel byte is unambiguous when the prefix
cannot contain the sentinel. -/
theorem nulfree_split (a b r₁ r₂ : List Nat) (ha : ∀ x ∈ a, x ≠ 0)
    (hb : ∀ x ∈ b, x ≠ 0) (h : a ++ 0 :: r₁ = b ++ 0 :: r₂) :
    a = b ∧ r₁ = r₂ := by
  induction a generalizing b with
  | nil =>
    cases b with
    | nil => simpa using h
    | cons y b₂ =>
      simp only [List.nil_append, List.cons_append, List.cons.injEq] at h
      exact absurd h.1.symm (hb y (List.mem_cons_self _ _))
  | cons x a₂ ih =>
    cases b with
    | nil =>
      simp only [List.nil_append, List.cons_append, List.cons.injEq] at h
      exact absurd h.1 (ha x (List.mem_cons_self _ _))
    | cons y b₂ =>
      simp only [List.cons_append, List.cons.injEq] at h
      have := ih b₂ (fun z hz => ha z (List.mem_cons_of_mem _ hz))
        (fun z hz => hb z (List.mem_cons_of_mem _ hz)) h.2
      exact ⟨by rw [h.1, this.1], this.2⟩

theorem putVarint10_lt_256 (x : Int) : ∀ b ∈ putVarint10 x, b < 256 := by
  intro b hb
  unfold putVarint10 at hb
  rcases List.mem_append.mp hb with h | h
  · exact putUvarint_lt_256 _ b h
  · have := List.eq_of_mem_replicate h
    omega

/-- Full decomposition of an identity-key collision, for NUL-free byte
strings and int64-range timestamps. -/
theorem idOf_inj (m₁ m₂ : Measurement) (k₁ v₁ k₂ v₂ : Str)
    (hb : StrWF m₁.name ∧ StrWF m₂.name ∧ StrWF k₁ ∧ StrWF k₂ ∧ StrWF v₁ ∧ StrWF v₂)
    (hz : (∀ x ∈ m₁.name, x ≠ 0) ∧ (∀ x ∈ m₂.name, x ≠ 0) ∧ (∀ x ∈ k₁, x ≠ 0) ∧
      (∀ x ∈ k₂, x ≠ 0) ∧ (∀ x ∈ v₁, x ≠ 0) ∧ (∀ x ∈ v₂, x ≠ 0))
    (hr₁ : -(2 ^ 63) ≤ m₁.when ∧ m₁.when < 2 ^ 63)
    (hr₂ : -(2 ^ 63) ≤ m₂.when ∧ m₂.when < 2 ^ 63)
    (h : m₁.idOf k₁ v₁ = m₂.idOf k₂ v₂) :
    m₁.name = m₂.name ∧ k₁ = k₂ ∧ v₁ = v₂ ∧ m₁.when = m₂.when := by
  unfold Measurement.idOf at h
  have hbytes : ∀ (m : Measurement) (k v : Str), StrWF m.name → StrWF k → StrWF v →
      ∀ b ∈ m.name ++ [0] ++ k ++ [0] ++ v ++ [0] ++ putVarint10 m.when ++ [0],
        b < 256 := by
    intro m k v h₁ h₂ h₃ b hbm
    rcases List.mem_append.mp hbm with hh | h8
    · rcases List.mem_append.mp hh with hh | h7
      · rcases List.mem_append.mp hh with hh | h6
        · rcases List.mem_append.mp hh with hh | h5
          · rcases List.mem_append.mp hh with hh | h4
            · rcases List.mem_append.mp hh with hh | h3
              · rcases List.mem_append.mp hh with h1 | h2
                · exact h₁ b h1
                · simp only [List.mem_singleton] at h2; omega
              · exact h₂ b h3
            · simp only [List.mem_singleton] at h4; omega
          · exact h₃ b h5
        · simp only [List.mem_singleton] at h6; omega
      · exact putVarint10_lt_256 _ b h7
    · simp only [List.mem_singleton] at h8; omega
  have hpre := base64Encode_inj _ _
    (hbytes m₁ k₁ v₁ hb.1 hb.2.2.1 hb.2.2.2.2.1)
    (hbytes m₂ k₂ v₂ hb.2.1 hb.2.2.2.1 hb.2.2.2.2.2) h
  simp only [List.append_assoc, List.singleton_append] at hpre
  obtain ⟨hname, hrest⟩ := nulfree_split _ _ _ _ hz.1 hz.2.1 hpre
  obtain ⟨hk, hrest₂⟩ := nulfree_split _ _ _ _ hz.2.2.1 hz.2.2.2.1 hrest
  obtain ⟨hv, hrest₃⟩ := nulfree_split _ _ _ _ hz.2.2.2.2.1 hz.2.2.2.2.2 hrest₂
  have hvar : putVarint10 m₁.when = putVarint10 m₂.when :=
    (List.append_left_inj [0]).mp hrest₃
  exact ⟨hname, hk, hv, putVarint10_inj _ _ hr₁ hr₂ hvar⟩

instance exceptDecEq {e a : Type} [DecidableEq e] [DecidableEq a] :
    DecidableEq (Except e a) := fun x y =>
  match x, y with
  | .error e₁, .error e₂ =>
    if h : e₁ = e₂ then isTrue (by rw [h])
    else isFalse (by intro hh; cases hh; exact h rfl)
  | .error _, .ok _ => isFalse (by intro hh; cases hh)
  | .ok _, .error _ => isFalse (by intro hh; cases hh)
  | .ok v₁, .ok v₂ =>
    if h : v₁ = v₂ then isTrue (by rw [h])
    else isFalse (by intro hh; cases hh; exact h rfl)

/-! ### The permissive (upsert) path and the deduplication filter

Modelled from the spec: `Upsert` and the query-time deduplication filter
are referenced by `Options.Deduplicate` and exercised by the repository's
tests, but their implementation file is not part of the `src/` snapshot.
Per §4.2, permissive ingestion is strict ingestion with the duplicate
check skipped and the canonical pointer overwritten, and the filter keeps
a record iff, for at least one of its identity keys, the canonical map
points at that same *physical* record. Physical identity is modelled by
tagging each ingested copy with a sequence number; the canonical map
stores the tag of the most recent holder of each key. The model carries
the time-shard map (the structure `queryAll` reads); the index shards,
field registry, and flush buffer of §4.2 are updated identically to the
strict path and are orthogonal to the claims settled here. -/
structure PJDB where
  seq : Nat
  ids : List (Str × Nat)
  measurements : List (Str × List (Int × List (Nat × Measurement)))
deriving DecidableEq, Repr

/-- Modelled from the spec: the fresh, empty permissive store. -/
def PJDB.empty : PJDB := { seq := 0, ids := [], measurements := [] }

/-- The range selector on tagged records (timestamp of the payload). -/
def Options.validTagged (o : Options) (now : Int) (shard : List (Nat × Measurement)) :
    List (Nat × Measurement) :=
  match shard with
  | [] => []
  | m₀ :: rest =>
    let ft := o.mRange now
    if ft.2 < m₀.2.when ∨ (rest.getLastD m₀).2.when < ft.1 then []
    else (m₀ :: rest).filter
      (fun m => decide (ft.1 ≤ m.2.when) && decide (m.2.when ≤ ft.2))

/-- Modelled from the spec: permissive ingestion (§4.2). Validation and
field classification run as in the strict path; the duplicate check is
skipped; the record is appended to its shard, the shard re-sorted, and
the canonical map overwritten to point at this newest copy for each of
its identity keys. -/
def PJDB.Upsert (p : PJDB) (m : Measurement) : PJDB × Option JdbErr :=
  match m.Validate with
  | .error e => (p, some e)
  | .ok mv =>
    match mv.fields with
    | .error e => (p, some e)
    | .ok _ =>
      let t := p.seq
      let ms := aupdD mv.name
        (aupdD mv.dts (fun s => sortBy (fun tm => tm.2.when) (s ++ [(t, mv)])))
        p.measurements
      let ids₂ := mv.ids.foldl (fun acc i => aupd i (fun _ => t) acc) p.ids
      ({ seq := t + 1, ids := ids₂, measurements := ms }, none)

/-- Modelled from the spec: the deduplication filter (§4.2) — a record
survives iff one of its identity keys canonically points at its own tag. -/
def PJDB.dedupFilter (p : PJDB) (res : List (Nat × Measurement)) :
    List (Nat × Measurement) :=
  res.filter (fun tm => tm.2.ids.any (fun i => alookup p.ids i = some tm.1))

/-- Modelled from the spec: query-by-name over the permissive store,
with the same bucket collection and ordering as the strict engine, and
the opt-in deduplication filter applied last. -/
def PJDB.queryAll (p : PJDB) (name : Str) (opts : Option Options) (now : Int) :
    Except JdbErr (List (Nat × Measurement)) :=
  match alookup p.measurements name with
  | none => .error .ErrNoSuchMeasurement
  | some buckets =>
    let tmp := match opts with
      | none => buckets.map (fun kv => kv.2)
      | some o => (buckets.map (fun kv => o.validTagged now kv.2)).filter
          (fun v => !v.isEmpty)
    let flat := (sortBy (fun s => (s.headD (0, default)).2.when) tmp).flatten
    match opts with
    | some o => if o.deduplicate then .ok (p.dedupFilter flat) else .ok flat
    | none => .ok flat

/-! ### The C1 scenario: N permissive ingestions sharing one identity key -/

/-- Run a sequence of permissive ingestions, keeping the final store. -/
def upsertAll (p : PJDB) (ms : List Measurement) : PJDB :=
  ms.foldl (fun q m => (q.Upsert m).1) p

/-- The per-call error results of a sequence of permissive ingestions. -/
def upsertTrace (p : PJDB) : List Measurement → List (Option JdbErr)
  | [] => []
  | m :: ms => (p.Upsert m).2 :: upsertTrace (p.Upsert m).1 ms

/-- The scenario record: fixed name, one dimension key, one index pair and
one timestamp, varying dimension value. -/
def scenM (n d ik iv : Str) (t x : Int) : Measurement :=
  { when := t, name := n, dimensions := [(d, x)], labels := [],
    indices := [(ik, iv)] }

/-- The one identity key every scenario record derives. -/
def scenKey (n ik iv : Str) (t : Int) : Str :=
  base64Encode (n ++ [0] ++ ik ++ [0] ++ iv ++ [0] ++ putVarint10 t ++ [0])

/-- The tagged physical copies the scenario accumulates, oldest first,
tags counting up from `s`. -/
def scenShard (n d ik iv : Str) (t : Int) : Nat → List Int → List (Nat × Measurement)
  | _, [] => []
  | s, x :: xs => (s, scenM n d ik iv t x) :: scenShard n d ik iv t (s + 1) xs

theorem upsertAll_cons (p : PJDB) (m : Measurement) (ms : List Measurement) :
    upsertAll p (m :: ms) = upsertAll (p.Upsert m).1 ms := rfl

theorem scen_validate (n d ik iv : Str) (t x : Int) (hn : n ≠ []) :
    (scenM n d ik iv t x).Validate = .ok (scenM n d ik iv t x) := by
  unfold Measurement.Validate scenM
  simp [List.length_eq_zero, hn]

theorem scen_ids (n d ik iv : Str) (t x : Int) :
    (scenM n d ik iv t x).ids = [scenKey n ik iv t] := by
  simp [Measurement.ids, Measurement.idOf, scenM, scenKey]

theorem scen_fields (n d ik iv : Str) (t x : Int) (hkd : ik ≠ d) :
    (scenM n d ik iv t x).fields =
      .ok [(d, measurementFieldType.dimension), (ik, measurementFieldType.index)] := by
  have hd : ¬(d = ik) := fun h => hkd h.symm
  simp [Measurement.fields, Measurement.fieldsRaw, scenM, addFieldKeys,
    alookup_cons, alookup_nil, hd]

theorem scen_upsert_err (n d ik iv : Str) (t x : Int) (hn : n ≠ []) (hkd : ik ≠ d)
    (p : PJDB) : (p.Upsert (scenM n d ik iv t x)).2 = none := by
  unfold PJDB.Upsert
  simp only [scen_validate n d ik iv t x hn, scen_fields n d ik iv t x hkd]

theorem scen_trace (n d ik iv : Str) (t : Int) (hn : n ≠ []) (hkd : ik ≠ d)
    (vs : List Int) : ∀ p : PJDB,
    upsertTrace p (vs.map (scenM n d ik iv t)) = List.replicate vs.length none := by
  induction vs with
  | nil => intro p; rfl
  | cons x xs ih =>
    intro p
    rw [List.map_cons]
    show (p.Upsert _).2 :: upsertTrace (p.Upsert _).1 _ = _
    rw [scen_upsert_err n d ik iv t x hn hkd p, ih]
    rfl

theorem scen_upsert_step (n d ik iv : Str) (t x : Int) (hn : n ≠ []) (hkd : ik ≠ d)
    (s tl : Nat) (shard : List (Nat × Measurement))
    (hsh : ∀ tm ∈ shard, tm.2.when = t) :
    PJDB.Upsert
      { seq := s, ids := [(scenKey n ik iv t, tl)],
        measurements := [(n, [(Int.fdiv t nsPerHour, shard)])] }
      (scenM n d ik iv t x) =
    ({ seq := s + 1, ids := [(scenKey n ik iv t, s)],
       measurements := [(n, [(Int.fdiv t nsPerHour,
         shard ++ [(s, scenM n d ik iv t x)])])] }, none) := by
  have hsort : sortBy (fun tm => tm.2.when) (shard ++ [(s, scenM n d ik iv t x)]) =
      shard ++ [(s, scenM n d ik iv t x)] := by
    apply sortBy_eq_of_pairwise
    apply List.pairwise_of_forall_mem_list
    intro a ha b hb
    have hwa : a.2.when = t := by
      rcases List.mem_append.mp ha with h | h
      · exact hsh a h
      · simp only [List.mem_singleton] at h
        subst h; rfl
    have hwb : b.2.when = t := by
      rcases List.mem_append.mp hb with h | h
      · exact hsh b h
      · simp only [List.mem_singleton] at h
        subst h; rfl
    rw [hwa, hwb]
  unfold PJDB.Upsert
  simp only [scen_validate n d ik iv t x hn, scen_fields n d ik iv t x hkd,
    scen_ids]
  simp only [List.foldl_cons, List.foldl_nil]
  have hdts : (scenM n d ik iv t x).dts = Int.fdiv t nsPerHour := rfl
  simp only [hdts, aupdD, aupd, if_pos, Option.getD_some, hsort]
  simp [show (scenM n d ik iv t x).name = n from rfl]

theorem scen_upsert_fold (n d ik iv : Str) (t : Int) (hn : n ≠ []) (hkd : ik ≠ d) :
    ∀ (vs : List Int) (s tl : Nat) (shard : List (Nat × Measurement)),
    (∀ tm ∈ shard, tm.2.when = t) →
    upsertAll
      { seq := s, ids := [(scenKey n ik iv t, tl)],
        measurements := [(n, [(Int.fdiv t nsPerHour, shard)])] }
      (vs.map (scenM n d ik iv t)) =
    { seq := s + vs.length,
      ids := [(scenKey n ik iv t, if vs = [] then tl else s + vs.length - 1)],
      measurements := [(n, [(Int.fdiv t nsPerHour,
        shard ++ scenShard n d ik iv t s vs)])] } := by
  intro vs
  induction vs with
  | nil =>
    intro s tl shard hsh
    simp [upsertAll, scenShard]
  | cons x xs ih =>
    intro s tl shard hsh
    rw [List.map_cons, upsertAll_cons,
      scen_upsert_step n d ik iv t x hn hkd s tl shard hsh]
    show upsertAll _ _ = _
    rw [ih (s + 1) s (shard ++ [(s, scenM n d ik iv t x)]) (by
      intro tm htm
      rcases List.mem_append.mp htm with h | h
      · exact hsh tm h
      · simp only [List.mem_singleton] at h
        subst h; rfl)]
    have hB : (if xs = [] then s else s + 1 + xs.length - 1) =
        (if x :: xs = [] then tl else s + (x :: xs).length - 1) := by
      rw [if_neg (List.cons_ne_nil x xs)]
      simp only [List.length_cons]
      by_cases hxs : xs = []
      · subst hxs
        simp
      · rw [if_neg hxs]
        omega
    have hC : shard ++ [(s, scenM n d ik iv t x)] ++ scenShard n d ik iv t (s + 1) xs =
        shard ++ scenShard n d ik iv t s (x :: xs) := by
      rw [List.append_assoc]
      rfl
    have hA : s + 1 + xs.length = s + (x :: xs).length := by
      simp only [List.length_cons]
      omega
    rw [hB, hC, hA]

theorem scen_upsert_empty (n d ik iv : Str) (t x : Int) (hn : n ≠ []) (hkd : ik ≠ d) :
    PJDB.empty.Upsert (scenM n d ik iv t x) =
      ({ seq := 1, ids := [(scenKey n ik iv t, 0)],
         measurements := [(n, [(Int.fdiv t nsPerHour,
           [(0, scenM n d ik iv t x)])])] }, none) := by
  unfold PJDB.Upsert PJDB.empty
  simp only [scen_validate n d ik iv t x hn, scen_fields n d ik iv t x hkd, scen_ids]
  simp only [List.foldl_cons, List.foldl_nil]
  have hdts : (scenM n d ik iv t x).dts = Int.fdiv t nsPerHour := rfl
  simp [hdts, aupdD, aupd, sortBy, insertBy,
    show (scenM n d ik iv t x).name = n from rfl]

theorem scen_state (n d ik iv : Str) (t : Int) (hn : n ≠ []) (hkd : ik ≠ d)
    (vs : List Int) (hvs : vs ≠ []) :
    upsertAll PJDB.empty (vs.map (scenM n d ik iv t)) =
      { seq := vs.length,
        ids := [(scenKey n ik iv t, vs.length - 1)],
        measurements := [(n, [(Int.fdiv t nsPerHour,
          scenShard n d ik iv t 0 vs)])] } := by
  cases vs with
  | nil => exact absurd rfl hvs
  | cons x xs =>
    rw [List.map_cons, upsertAll_cons, scen_upsert_empty n d ik iv t x hn hkd]
    show upsertAll _ _ = _
    rw [scen_upsert_fold n d ik iv t hn hkd xs 1 0 [(0, scenM n d ik iv t x)] (by
      intro tm htm
      simp only [List.mem_singleton] at htm
      subst htm; rfl)]
    have hB : (if xs = [] then 0 else 1 + xs.length - 1) = (x :: xs).length - 1 := by
      simp only [List.length_cons]
      by_cases hxs : xs = []
      · subst hxs
        simp
      · rw [if_neg hxs]
        omega
    have hC : ([(0, scenM n d ik iv t x)] : List (Nat × Measurement)) ++
        scenShard n d ik iv t 1 xs = scenShard n d ik iv t 0 (x :: xs) := rfl
    have hA : 1 + xs.length = (x :: xs).length := by
      simp only [List.length_cons]
      omega
    rw [hB, hC, hA]

theorem scenShard_when (n d ik iv : Str) (t : Int) (vs : List Int) :
    ∀ s : Nat, ∀ tm ∈ scenShard n d ik iv t s vs, tm.2.when = t := by
  induction vs with
  | nil =>
    intro s tm htm
    simp [scenShard] at htm
  | cons x xs ih =>
    intro s tm htm
    rw [scenShard] at htm
    rcases List.mem_cons.mp htm with h | h
    · subst h; rfl
    · exact ih (s + 1) tm h

theorem scenShard_map (n d ik iv : Str) (t : Int) (vs : List Int) :
    ∀ s : Nat, (scenShard n d ik iv t s vs).map (fun tm => tm.2) =
      vs.map (scenM n d ik iv t) := by
  induction vs with
  | nil => intro s; rfl
  | cons x xs ih =>
    intro s
    rw [scenShard, List.map_cons, List.map_cons, ih (s + 1)]

theorem scenShard_length (n d ik iv : Str) (t : Int) (vs : List Int) :
    ∀ s : Nat, (scenShard n d ik iv t s vs).length = vs.length := by
  induction vs with
  | nil => intro s; rfl
  | cons x xs ih =>
    intro s
    rw [scenShard, List.length_cons, List.length_cons, ih (s + 1)]

theorem scenShard_ne (n d ik iv : Str) (t : Int) (vs : List Int) (hvs : vs ≠ [])
    (s : Nat) : scenShard n d ik iv t s vs ≠ [] := by
  cases vs with
  | nil => exact absurd rfl hvs
  | cons x xs => simp [scenShard]

/-- The scenario options keep every element of a shard that lives in
the past of the (explicit) clock. -/
theorem validTagged_all (b : Bool) (now t : Int) (shard : List (Nat × Measurement))
    (hsh : ∀ tm ∈ shard, tm.2.when = t) (ht : goZeroTime ≤ t) (htn : t ≤ now) :
    Options.validTagged { deduplicate := b } now shard = shard := by
  have hr : ({ deduplicate := b } : Options).mRange now = (goZeroTime, now) := by
    simp [Options.mRange]
  unfold Options.validTagged
  cases shard with
  | nil => rfl
  | cons m₀ rest =>
    have hm₀ : m₀.2.when = t := hsh m₀ (List.mem_cons_self _ _)
    have hlast : (rest.getLastD m₀).2.when = t := hsh _ (by
      cases rest with
      | nil => simp [List.getLastD]
      | cons a t₂ =>
        rw [List.getLastD_cons]
        exact List.mem_cons_of_mem _ (List.getLastD_mem_cons t₂ a))
    simp only [hr]
    rw [if_neg (by
      rw [not_or]
      constructor <;> simp only [not_lt] <;> omega)]
    rw [List.filter_eq_self]
    intro a ha
    have := hsh a ha
    simp only [Bool.and_eq_true, decide_eq_true_eq]
    omega

/-- The deduplication filter keeps exactly the copy holding the canonical
tag, which in the scenario is the newest one. -/
theorem scenShard_dedup (n d ik iv : Str) (t : Int) (idl : List (Str × Nat))
    (L : Nat) (hL : alookup idl (scenKey n ik iv t) = some L) (vs : List Int) :
    ∀ s : Nat, vs ≠ [] → L = s + vs.length - 1 →
    (scenShard n d ik iv t s vs).filter
        (fun tm => tm.2.ids.any (fun i => alookup idl i = some tm.1)) =
      [(L, scenM n d ik iv t (vs.getLastD 0))] := by
  induction vs with
  | nil =>
    intro s hvs _
    exact absurd rfl hvs
  | cons x xs ih =>
    intro s _ hLe
    rw [scenShard, List.filter_cons]
    cases xs with
    | nil =>
      have hLs : L = s := by
        simp only [List.length_cons, List.length_nil] at hLe
        omega
      subst hLs
      simp [scenShard, scen_ids, hL, List.getLastD]
    | cons y ys =>
      have hpred : ((s, scenM n d ik iv t x).2.ids.any
          (fun i => alookup idl i = some (s, scenM n d ik iv t x).1)) = false := by
        simp only [scen_ids, List.any_cons, List.any_nil, Bool.or_false, hL]
        apply decide_eq_false
        simp only [List.length_cons] at hLe
        simp only [Option.some.injEq]
        omega
      rw [hpred]
      simp only [Bool.false_eq_true, if_neg, ite_false]
      rw [ih (s + 1) (List.cons_ne_nil y ys) (by
        simp only [List.length_cons] at hLe ⊢
        omega)]
      simp only [List.getLastD_cons]

/-- The scenario query, resolved for either deduplicate setting. -/
theorem scen_query (n d ik iv : Str) (t now : Int) (b : Bool) (vs : List Int)
    (hn : n ≠ []) (hkd : ik ≠ d) (hvs : vs ≠ [])
    (ht : goZeroTime ≤ t) (htn : t ≤ now) :
    (upsertAll PJDB.empty (vs.map (scenM n d ik iv t))).queryAll n
        (some { deduplicate := b }) now =
      .ok (if b
        then [(vs.length - 1, scenM n d ik iv t (vs.getLastD 0))]
        else scenShard n d ik iv t 0 vs) := by
  rw [scen_state n d ik iv t hn hkd vs hvs]
  unfold PJDB.queryAll
  have hlook : alookup [(n, [(Int.fdiv t nsPerHour, scenShard n d ik iv t 0 vs)])] n
      = some [(Int.fdiv t nsPerHour, scenShard n d ik iv t 0 vs)] := by
    simp [alookup_cons]
  simp only [hlook]
  have hvalid : Options.validTagged { deduplicate := b } now
      (scenShard n d ik iv t 0 vs) = scenShard n d ik iv t 0 vs :=
    validTagged_all b now t _ (scenShard_when n d ik iv t vs 0) ht htn
  simp only [List.map_cons, List.map_nil, hvalid]
  have hne : (scenShard n d ik iv t 0 vs).isEmpty = false := by
    cases hsh : scenShard n d ik iv t 0 vs with
    | nil => exact absurd hsh (scenShard_ne n d ik iv t vs hvs 0)
    | cons a l => rfl
  simp only [List.filter_cons, List.filter_nil, hne, Bool.not_false, if_pos]
  have hsort : sortBy (fun s => (s.headD (0, default)).2.when)
      [scenShard n d ik iv t 0 vs] = [scenShard n d ik iv t 0 vs] := rfl
  simp only [hsort, List.flatten_cons, List.flatten_nil, List.append_nil]
  cases b with
  | false => rfl
  | true =>
    simp only [if_pos]
    show Except.ok (PJDB.dedupFilter _ _) = _
    unfold PJDB.dedupFilter
    rw [scenShard_dedup n d ik iv t [(scenKey n ik iv t, vs.length - 1)]
      (vs.length - 1) (by simp [alookup_cons]) vs 0 hvs (by omega)]

/-! ## The claims -/

/-- C1: permissive (upsert) ingestion of N valid measurements that all
share one identity key (same name, index pair and timestamp), each
carrying a distinct dimension value, succeeds at every call; a query-all
on the series name with `Deduplicate = true` returns exactly one record,
whose dimension value is the one supplied by the last upsert, while the
same query with `Deduplicate = false` returns all N physical copies in
ingestion order. -/
theorem C1_upsert_dedup_last (n d ik iv : Str) (vs : List Int) (t now : Int)
    (hn : n ≠ []) (hkd : ik ≠ d) (hvs : vs ≠ []) (hnd : vs.Nodup)
    (ht : goZeroTime ≤ t) (htn : t ≤ now) :
    upsertTrace PJDB.empty (vs.map (scenM n d ik iv t)) =
      List.replicate vs.length none ∧
    (upsertAll PJDB.empty (vs.map (scenM n d ik iv t))).queryAll n
        (some { deduplicate := true }) now =
      .ok [(vs.length - 1, scenM n d ik iv t (vs.getLastD 0))] ∧
    (scenM n d ik iv t (vs.getLastD 0)).dimensions = [(d, vs.getLastD 0)] ∧
    (upsertAll PJDB.empty (vs.map (scenM n d ik iv t))).queryAll n
        (some { deduplicate := false }) now =
      .ok (scenShard n d ik iv t 0 vs) ∧
    (scenShard n d ik iv t 0 vs).map (fun tm => tm.2) =
      vs.map (scenM n d ik iv t) ∧
    (scenShard n d ik iv t 0 vs).length = vs.length := by
  refine ⟨scen_trace n d ik iv t hn hkd vs PJDB.empty, ?_, rfl, ?_,
    scenShard_map n d ik iv t vs 0, scenShard_length n d ik iv t vs 0⟩
  · have h := scen_query n d ik iv t now true vs hn hkd hvs ht htn
    simpa using h
  · have h := scen_query n d ik iv t now false vs hn hkd hvs ht htn
    simpa using h

theorem C1_upsert_dedup_last_witness :
    upsertTrace PJDB.empty (([1, 2, 3] : List Int).map (scenM [97] [100] [107] [118] 0)) =
      List.replicate 3 none ∧
    (upsertAll PJDB.empty
        (([1, 2, 3] : List Int).map (scenM [97] [100] [107] [118] 0))).queryAll [97]
        (some { deduplicate := true }) 0 =
      .ok [(2, scenM [97] [100] [107] [118] 0 3)] ∧
    (upsertAll PJDB.empty
        (([1, 2, 3] : List Int).map (scenM [97] [100] [107] [118] 0))).queryAll [97]
        (some { deduplicate := false }) 0 =
      .ok (scenShard [97] [100] [107] [118] 0 0 [1, 2, 3]) := by
  have h := C1_upsert_dedup_last [97] [100] [107] [118] [1, 2, 3] 0 0
    (by decide) (by decide) (by decide) (by decide) (by decide) (by decide)
  exact ⟨h.1, h.2.1, h.2.2.2.1⟩

/-- Every record stored in the time-shard map or the index-shard map
carries a timestamp between the Go zero time and `now` — the situation
the spec's "omitting options is only a shortcut" sentence presumes. -/
def JDB.AllWithin (j : JDB) (now : Int) : Prop :=
  (∀ e ∈ j.measurements, ∀ kv ∈ e.2, ∀ x ∈ kv.2,
    goZeroTime ≤ x.when ∧ x.when ≤ now) ∧
  (∀ e ∈ j.indices, ∀ f ∈ e.2, ∀ g ∈ f.2, ∀ kv ∈ g.2, ∀ x ∈ kv.2,
    goZeroTime ≤ x.when ∧ x.when ≤ now)

instance (j : JDB) (now : Int) : Decidable (j.AllWithin now) := by
  unfold JDB.AllWithin
  infer_instance

/-- C2 (corrected): on a reachable store, a nil options argument and an
all-zero options value agree for `QueryAll` and `QueryAllIndex` whenever
every stored timestamp lies between the Go zero time and the current
clock; the all-zero value prunes to the window `[goZeroTime, now]`, so
records timestamped after `now` (or before the zero time) are dropped by
the all-zero options but kept by nil options — see the counterexample. -/
theorem C2_nil_vs_zero_options (j : JDB) (hj : Reachable j) (now : Int)
    (hw : j.AllWithin now) (name index indexValue : Str) :
    j.QueryAll name none now = j.QueryAll name (some {}) now ∧
    j.QueryAllIndex name index indexValue none now =
      j.QueryAllIndex name index indexValue (some {}) now := by
  have hinv := reachable_inv j hj
  constructor
  · unfold JDB.QueryAll
    split
    · rfl
    · rename_i buckets hb
      have hok : TimeShardsOK buckets := hinv.1.2 name buckets hb
      have hmem := mem_of_alookup_eq_some j.measurements name buckets hb
      rw [collectShards_zero_eq now buckets hok
        (fun kv hkv x hx => hw.1 (name, buckets) hmem kv hkv x hx)]
  · unfold JDB.QueryAllIndex
    split
    · rfl
    · rename_i im hb
      split
      · rfl
      · rename_i vm hk
        split
        · rfl
        · rename_i buckets hv
          have hok : TimeShardsOK buckets :=
            (((hinv.2.2 name im hb).2 index vm hk).2 indexValue buckets hv)
          have hm₁ := mem_of_alookup_eq_some j.indices name im hb
          have hm₂ := mem_of_alookup_eq_some im index vm hk
          have hm₃ := mem_of_alookup_eq_some vm indexValue buckets hv
          rw [collectShards_zero_eq now buckets hok
            (fun kv hkv x hx =>
              hw.2 (name, im) hm₁ (index, vm) hm₂ (indexValue, buckets) hm₃ kv hkv x hx)]

/-- A fresh store over an empty log at clock 0. -/
def jdb0 : JDB :=
  { file := [], saveBuffer := [], lastSave := 0, ids := [], measurements := [],
    indices := [], measurementFields := [] }

/-- A valid record timestamped in the future of the clock used below. -/
def mFuture : Measurement :=
  { when := 1, name := [97], dimensions := [([100], 5)], labels := [],
    indices := [([107], [118])] }

theorem C2_nil_vs_zero_options_counterexample :
    New [] 0 = some jdb0 ∧ mFuture.WF ∧ (jdb0.Insert mFuture 0).2 = none ∧
    (jdb0.Insert mFuture 0).1.QueryAll [97] none 0 ≠
      (jdb0.Insert mFuture 0).1.QueryAll [97] (some {}) 0 := by
  exact ⟨rfl, by decide, by decide, by decide⟩

theorem C2_nil_vs_zero_options_witness :
    Reachable (jdb0.Insert mFuture 1).1 ∧
    ((jdb0.Insert mFuture 1).1.AllWithin 1) ∧
    ((jdb0.Insert mFuture 1).1.QueryAll [97] none 1 =
        (jdb0.Insert mFuture 1).1.QueryAll [97] (some {}) 1 ∧
      (jdb0.Insert mFuture 1).1.QueryAllIndex [97] [107] [118] none 1 =
        (jdb0.Insert mFuture 1).1.QueryAllIndex [97] [107] [118] (some {}) 1) :=
  ⟨Reachable.insert jdb0 mFuture 1 (by decide) (Reachable.boot [] 0 jdb0 rfl),
    by decide,
    C2_nil_vs_zero_options (jdb0.Insert mFuture 1).1
      (Reachable.insert jdb0 mFuture 1 (by decide) (Reachable.boot [] 0 jdb0 rfl))
      1 (by decide) [97] [107] [118]⟩

theorem addFieldKeys_err (t : measurementFieldType) :
    ∀ (ks : List Str) (f : List (Str × measurementFieldType)),
    (addFieldKeys t f ks).2 = none ∨
      (addFieldKeys t f ks).2 = some .ErrFieldInUse := by
  intro ks
  induction ks with
  | nil => intro f; left; rfl
  | cons k rest ih =>
    intro f
    rw [addFieldKeys]
    by_cases h : (alookup f k).isSome
    · rw [if_pos h]
      right
      rfl
    · rw [if_neg h]
      exact ih (f ++ [(k, t)])

theorem fieldsRaw_err (m : Measurement) :
    m.fieldsRaw.2 = none ∨ m.fieldsRaw.2 = some .ErrFieldInUse := by
  unfold Measurement.fieldsRaw
  rcases h₁ : addFieldKeys .index
      (m.dimensions.map (fun kv => (kv.1, measurementFieldType.dimension)))
      (m.indices.map (fun kv => kv.1)) with ⟨f₂, e₂⟩
  cases e₂ with
  | some e₃ =>
    rcases addFieldKeys_err .index (m.indices.map (fun kv => kv.1))
        (m.dimensions.map (fun kv => (kv.1, measurementFieldType.dimension))) with
      h | h <;> rw [h₁] at h
    · simp at h
    · simp only at h
      right
      simp [h₁, h]
  | none =>
    simp only [h₁]
    exact addFieldKeys_err .label (m.labels.map (fun kv => kv.1)) f₂

theorem fields_error_inUse (m : Measurement) (e : JdbErr)
    (h : m.fields = .error e) : e = .ErrFieldInUse := by
  unfold Measurement.fields at h
  rcases hr : m.fieldsRaw with ⟨f, err⟩
  rw [hr] at h
  cases err with
  | none => simp at h
  | some e₂ =>
    simp only [Except.error.injEq] at h
    subst h
    rcases fieldsRaw_err m with h | h <;> rw [hr] at h <;> simp only at h
    · simp at h
    · exact (Option.some.injEq _ _).mp h

/-- C3: strict insertion of a measurement that validates to `mv` fails
with `ErrDuplicateMeasurement` exactly when one of `mv`'s identity keys
is already present in the canonical identity map, and on that failure the
store is returned unchanged (so every query's result is unchanged). -/
theorem C3_duplicate_iff (j : JDB) (m mv : Measurement) (now : Int)
    (hv : m.Validate = .ok mv) :
    ((j.Insert m now).2 = some .ErrDuplicateMeasurement ↔
      ∃ i ∈ mv.ids, (alookup j.ids i).isSome) ∧
    ((j.Insert m now).2 = some .ErrDuplicateMeasurement → (j.Insert m now).1 = j) := by
  have hany : (mv.ids.any (fun i => (alookup j.ids i).isSome) = true) ↔
      ∃ i ∈ mv.ids, (alookup j.ids i).isSome := by
    simp [List.any_eq_true]
  unfold JDB.Insert
  simp only [hv]
  by_cases hdup : mv.ids.any (fun i => (alookup j.ids i).isSome)
  · simp only [hdup, if_pos]
    exact ⟨⟨fun _ => hany.mp hdup, fun _ => trivial⟩, fun _ => trivial⟩
  · simp only [Bool.not_eq_true] at hdup
    simp only [hdup]
    have hno : ¬ ∃ i ∈ mv.ids, (alookup j.ids i).isSome := by
      rw [← hany, hdup]
      simp
    cases hf : mv.fields with
    | error e =>
      have he : e = .ErrFieldInUse := fields_error_inUse mv e hf
      subst he
      refine ⟨⟨fun hcontra => ?_, fun hex => absurd hex hno⟩, fun hcontra => ?_⟩
      · simp at hcontra
      · simp at hcontra
    | ok flds =>
      by_cases hfl : FlushMaxSize ≤
          (({ j.addMeasurement mv mv.ids flds with
              saveBuffer := (j.addMeasurement mv mv.ids flds).saveBuffer ++ [mv]
            } : JDB).sortTouched mv).saveBuffer.length ∨
          (({ j.addMeasurement mv mv.ids flds with
              saveBuffer := (j.addMeasurement mv mv.ids flds).saveBuffer ++ [mv]
            } : JDB).sortTouched mv).lastSave + FlushMaxDuration < now
      · simp only [hfl, if_pos]
        refine ⟨⟨fun hcontra => ?_, fun hex => absurd hex hno⟩, fun hcontra => ?_⟩
        · simp at hcontra
        · simp at hcontra
      · simp only [hfl, if_neg, not_false_iff]
        refine ⟨⟨fun hcontra => ?_, fun hex => absurd hex hno⟩, fun hcontra => ?_⟩
        · simp at hcontra
        · simp at hcontra

/-- A first, clean record making the store of the duplicate scenarios. -/
def mDup : Measurement :=
  { when := 5, name := [97], dimensions := [([121], 1)], labels := [],
    indices := [([120], [118])] }

/-- The store after strict-inserting `mDup` into a fresh store. -/
def jDup : JDB := (jdb0.Insert mDup 0).1

theorem C3_duplicate_iff_witness :
    mDup.Validate = .ok mDup ∧
    (((jDup.Insert mDup 0).2 = some .ErrDuplicateMeasurement ↔
        ∃ i ∈ mDup.ids, (alookup jDup.ids i).isSome) ∧
      ((jDup.Insert mDup 0).2 = some .ErrDuplicateMeasurement →
        (jDup.Insert mDup 0).1 = jDup)) :=
  ⟨by decide, C3_duplicate_iff jDup mDup mDup 0 (by decide)⟩

/-- C4 (corrected): strict insertion checks for duplicate identity keys
BEFORE classifying fields, not after as the spec's step order says.  For
a measurement that validates but reuses a field name, `Insert` returns
`ErrFieldInUse` only when none of its identity keys is known; when one
is, it returns `ErrDuplicateMeasurement` instead.  Either way the store
is unchanged. -/
theorem C4_dup_checked_before_fields (j : JDB) (m mv : Measurement) (now : Int)
    (e : JdbErr) (hv : m.Validate = .ok mv) (hcol : mv.fields = .error e) :
    ((mv.ids.any (fun i => (alookup j.ids i).isSome) = true →
        (j.Insert m now).2 = some .ErrDuplicateMeasurement) ∧
      (mv.ids.any (fun i => (alookup j.ids i).isSome) = false →
        (j.Insert m now).2 = some .ErrFieldInUse)) ∧
    (j.Insert m now).1 = j := by
  have he : e = .ErrFieldInUse := fields_error_inUse mv e hcol
  subst he
  unfold JDB.Insert
  simp only [hv]
  by_cases hdup : mv.ids.any (fun i => (alookup j.ids i).isSome)
  · simp only [hdup, if_pos]
    refine ⟨⟨fun _ => ?_, fun hcontra => ?_⟩, ?_⟩
    · first
      | trivial
      | rfl
    · exact absurd hcontra (by simp)
    · first
      | trivial
      | rfl
  · simp only [Bool.not_eq_true] at hdup
    simp only [hdup, hcol]
    refine ⟨⟨fun hcontra => ?_, fun _ => ?_⟩, ?_⟩
    · exact absurd hcontra (by simp)
    · first
      | trivial
      | rfl
    · first
      | trivial
      | rfl

/-- A record colliding with `mDup` on its identity key while also reusing
the field name `"x"` for both a dimension and an index. -/
def mColl : Measurement :=
  { when := 5, name := [97], dimensions := [([120], 1)], labels := [],
    indices := [([120], [118])] }

theorem C4_dup_checked_before_fields_counterexample :
    mColl.Validate = .ok mColl ∧
    mColl.fields = .error JdbErr.ErrFieldInUse ∧
    (∃ i ∈ mColl.ids, (alookup jDup.ids i).isSome) ∧
    (jDup.Insert mColl 0).2 = some JdbErr.ErrDuplicateMeasurement ∧
    some JdbErr.ErrDuplicateMeasurement ≠ some JdbErr.ErrFieldInUse :=
  ⟨by decide, by decide, by decide, by decide, by decide⟩

theorem C4_dup_checked_before_fields_witness :
    mColl.Validate = .ok mColl ∧ mColl.fields = .error JdbErr.ErrFieldInUse ∧
    (((mColl.ids.any (fun i => (alookup jDup.ids i).isSome) = true →
          (jDup.Insert mColl 0).2 = some .ErrDuplicateMeasurement) ∧
        (mColl.ids.any (fun i => (alookup jDup.ids i).isSome) = false →
          (jDup.Insert mColl 0).2 = some .ErrFieldInUse)) ∧
      (jDup.Insert mColl 0).1 = jDup) :=
  ⟨by decide, by decide,
    C4_dup_checked_before_fields jDup mColl mColl 0 JdbErr.ErrFieldInUse
      (by decide) (by decide)⟩

/-- C5: on a shard sorted non-decreasingly by timestamp, the range
selector returns exactly the elements whose timestamp lies in the
effective inclusive window — `[to_or_now - since, to_or_now]` when
`Since` is set, `[From, to_or_now]` otherwise — in their original order;
in particular the fast first/last rejection never drops an in-window
element. -/
theorem C5_range_selector_exact (o : Options) (now : Int)
    (shard : List Measurement)
    (hs : shard.Pairwise (fun a c => a.when ≤ c.when)) :
    o.mRange now = (if 0 < o.since
        then (if o.to_ = goZeroTime then now else o.to_) - o.since
        else o.from_,
      if o.to_ = goZeroTime then now else o.to_) ∧
    o.validMeasurements now shard = shard.filter (fun m =>
      decide ((o.mRange now).1 ≤ m.when) && decide (m.when ≤ (o.mRange now).2)) := by
  refine ⟨?_, validMeasurements_filter_of_sorted o now shard hs⟩
  unfold Options.mRange
  by_cases h₁ : 0 < o.since <;> by_cases h₂ : o.to_ = goZeroTime <;> simp [h₁, h₂]

/-- A sorted two-element shard exercising the `Since` window. -/
def shardC5 : List Measurement :=
  [{ when := 3, name := [97], dimensions := [([100], 1)], labels := [],
     indices := [([107], [118])] },
   { when := 9, name := [97], dimensions := [([100], 2)], labels := [],
     indices := [([107], [118])] }]

theorem C5_range_selector_exact_witness :
    shardC5.Pairwise (fun a c => a.when ≤ c.when) ∧
    (({ since := 5, to_ := 10 } : Options)).mRange 0 = (5, 10) ∧
    ({ since := 5, to_ := 10 } : Options).validMeasurements 0 shardC5 =
      shardC5.filter (fun m =>
        decide (((({ since := 5, to_ := 10 } : Options)).mRange 0).1 ≤ m.when) &&
        decide (m.when ≤ ((({ since := 5, to_ := 10 } : Options)).mRange 0).2)) := by
  have h := C5_range_selector_exact { since := 5, to_ := 10 } 0 shardC5 (by decide)
  exact ⟨by decide, by simpa using h.1, h.2⟩

/-- The byte-level side conditions under which the identity-key
derivation separates its fields: genuine bytes and, crucially, no NUL
byte in the name or in any index key or value (the code never escapes
the `"\x00"` separator). -/
def IdStringsOK (m : Measurement) : Prop :=
  StrWF m.name ∧ (∀ x ∈ m.name, x ≠ 0) ∧
  ∀ kv ∈ m.indices, StrWF kv.1 ∧ StrWF kv.2 ∧
    (∀ x ∈ kv.1, x ≠ 0) ∧ (∀ x ∈ kv.2, x ≠ 0)

instance (m : Measurement) : Decidable (IdStringsOK m) := by
  unfold IdStringsOK
  infer_instance

/-- C6 (corrected): for NUL-free byte strings and int64-range
timestamps, two measurements' identity-key sets intersect exactly when
they share name, at least one index key/value pair, and the nanosecond
timestamp.  Without the NUL-free proviso the claim fails: the sentinel
byte is not escaped, so distinct (name, key, value, time) quadruples can
collide — see the counterexample. -/
theorem C6_identity_collision_iff (m₁ m₂ : Measurement)
    (h₁ : IdStringsOK m₁) (h₂ : IdStringsOK m₂)
    (hr₁ : -(2 ^ 63) ≤ m₁.when ∧ m₁.when < 2 ^ 63)
    (hr₂ : -(2 ^ 63) ≤ m₂.when ∧ m₂.when < 2 ^ 63) :
    (∃ i ∈ m₁.ids, i ∈ m₂.ids) ↔
      (m₁.name = m₂.name ∧ m₁.when = m₂.when ∧
        ∃ kv ∈ m₁.indices, kv ∈ m₂.indices) := by
  constructor
  · rintro ⟨i, hi₁, hi₂⟩
    simp only [Measurement.ids] at hi₁ hi₂
    obtain ⟨kv₁, hkv₁, hid₁⟩ := List.mem_map.mp hi₁
    obtain ⟨kv₂, hkv₂, hid₂⟩ := List.mem_map.mp hi₂
    have heq : m₁.idOf kv₁.1 kv₁.2 = m₂.idOf kv₂.1 kv₂.2 := by
      rw [hid₁, hid₂]
    obtain ⟨hb₁, hbz₁, hall₁⟩ := h₁
    obtain ⟨hb₂, hbz₂, hall₂⟩ := h₂
    obtain ⟨hk1a, hk1b, hk1c, hk1d⟩ := hall₁ kv₁ hkv₁
    obtain ⟨hk2a, hk2b, hk2c, hk2d⟩ := hall₂ kv₂ hkv₂
    obtain ⟨hn, hk, hv, hw⟩ := idOf_inj m₁ m₂ kv₁.1 kv₁.2 kv₂.1 kv₂.2
      ⟨hb₁, hb₂, hk1a, hk2a, hk1b, hk2b⟩ ⟨hbz₁, hbz₂, hk1c, hk2c, hk1d, hk2d⟩
      hr₁ hr₂ heq
    refine ⟨hn, hw, kv₁, hkv₁, ?_⟩
    rw [Prod.ext hk hv]
    exact hkv₂
  · rintro ⟨hn, hw, kv, hkv₁, hkv₂⟩
    refine ⟨m₁.idOf kv.1 kv.2, ?_, ?_⟩
    · simp only [Measurement.ids]
      exact List.mem_map_of_mem _ hkv₁
    · simp only [Measurement.ids]
      have hsame : m₁.idOf kv.1 kv.2 = m₂.idOf kv.1 kv.2 := by
        unfold Measurement.idOf
        rw [hn, hw]
      rw [hsame]
      exact List.mem_map_of_mem _ hkv₂

/-- A NUL byte inside a name. -/
def mNulA : Measurement :=
  { when := 0, name := [97, 0, 98], dimensions := [([100], 1)], labels := [],
    indices := [([99], [118])] }

/-- The same identity bytes arranged as a NUL byte inside an index key. -/
def mNulB : Measurement :=
  { when := 0, name := [97], dimensions := [([100], 1)], labels := [],
    indices := [([98, 0, 99], [118])] }

theorem C6_identity_collision_iff_counterexample :
    (∃ i ∈ mNulA.ids, i ∈ mNulB.ids) ∧ mNulA.name ≠ mNulB.name ∧
    mNulA.when = mNulB.when ∧ ¬(∃ kv ∈ mNulA.indices, kv ∈ mNulB.indices) :=
  ⟨by decide, by decide, by decide, by decide⟩

theorem C6_identity_collision_iff_witness :
    IdStringsOK mDup ∧ IdStringsOK mColl ∧
    (-(2 ^ 63) ≤ mDup.when ∧ mDup.when < 2 ^ 63) ∧
    (-(2 ^ 63) ≤ mColl.when ∧ mColl.when < 2 ^ 63) ∧
    ((∃ i ∈ mDup.ids, i ∈ mColl.ids) ↔
      (mDup.name = mColl.name ∧ mDup.when = mColl.when ∧
        ∃ kv ∈ mDup.indices, kv ∈ mColl.indices)) :=
  ⟨by decide, by decide, by decide, by decide,
    C6_identity_collision_iff mDup mColl (by decide) (by decide)
      (by decide) (by decide)⟩

/-- C7: in every reachable store state, every successful `QueryAll` or
`QueryAllIndex` result — with or without options — is non-decreasing by
timestamp: buckets are internally sorted, cover disjoint hours, and are
ordered by their first element before flattening. -/
theorem C7_query_sorted (j : JDB) (hj : Reachable j)
    (name index indexValue : Str) (opts : Option Options) (now : Int) :
    (∀ res, j.QueryAll name opts now = .ok res →
      res.Pairwise (fun a c => a.when ≤ c.when)) ∧
    (∀ res, j.QueryAllIndex name index indexValue opts now = .ok res →
      res.Pairwise (fun a c => a.when ≤ c.when)) := by
  have hinv := reachable_inv j hj
  constructor
  · intro res hres
    unfold JDB.QueryAll at hres
    split at hres
    · cases hres
    · rename_i buckets hb
      simp only [Except.ok.injEq] at hres
      subst hres
      exact queryAll_sorted_of buckets (hinv.1.2 name buckets hb) opts now
  · intro res hres
    unfold JDB.QueryAllIndex at hres
    split at hres
    · cases hres
    · rename_i im hb
      split at hres
      · cases hres
      · rename_i vm hk
        split at hres
        · simp only [Except.ok.injEq] at hres
          subst hres
          simp
        · rename_i buckets hv
          simp only [Except.ok.injEq] at hres
          subst hres
          exact queryAll_sorted_of buckets
            (((hinv.2.2 name im hb).2 index vm hk).2 indexValue buckets hv) opts now

theorem C7_query_sorted_witness :
    Reachable jDup ∧
    ((∀ res, jDup.QueryAll [97] none 0 = .ok res →
        res.Pairwise (fun a c => a.when ≤ c.when)) ∧
      (∀ res, jDup.QueryAllIndex [97] [120] [118] none 0 = .ok res →
        res.Pairwise (fun a c => a.when ≤ c.when))) :=
  ⟨Reachable.insert jdb0 mDup 0 (by decide) (Reachable.boot [] 0 jdb0 rfl),
    C7_query_sorted jDup
      (Reachable.insert jdb0 mDup 0 (by decide) (Reachable.boot [] 0 jdb0 rfl))
      [97] [120] [118] none 0⟩

/-- Round trip in the deterministic stable-sort model: closing a store
that was booted from a log and then populated through `Insert`, and
reopening the written file, reproduces the shard maps exactly, hence
every query result.  (This statement is about the model's canonical
`sortShard`; claim C8 below quantifies over every implementation of the
`slices.SortFunc` contract instead.) -/
theorem roundtrip_queries_deterministic (file₀ : List Str) (now₀ : Int) (j₀ : JDB)
    (hboot : New file₀ now₀ = some j₀)
    (ins : List (Measurement × Int)) (hwf : ∀ p ∈ ins, p.1.WF)
    (nowC nowR : Int) :
    ∃ jRe, New (((ins.foldl (fun j p => (j.Insert p.1 p.2).1) j₀).Close nowC).file)
        nowR = some jRe ∧
      (∀ name opts now, jRe.QueryAll name opts now =
        (ins.foldl (fun j p => (j.Insert p.1 p.2).1) j₀).QueryAll name opts now) ∧
      (∀ name index indexValue opts now,
        jRe.QueryAllIndex name index indexValue opts now =
          (ins.foldl (fun j p => (j.Insert p.1 p.2).1) j₀).QueryAllIndex
            name index indexValue opts now) := by
  obtain ⟨jRe, hnew, hm, hi⟩ :=
    roundtrip_components file₀ now₀ j₀ hboot ins hwf nowC nowR
  refine ⟨jRe, hnew, ?_, ?_⟩
  · intro name opts now
    exact queryAll_congr jRe _ hm name opts now
  · intro name index indexValue opts now
    exact queryAllIndex_congr jRe _ hi name index indexValue opts now

/-- C9: validation fails with `ErrEmptyName` exactly on an empty name,
with `ErrNoDimensions` exactly on a non-empty name with no dimensions,
and otherwise succeeds, injecting the synthetic default index (the
reserved name mapped to the measurement's own name) exactly when the
indices map is empty; a measurement with no dimensions is never admitted
by strict insertion nor by the (spec-modelled) permissive path, which
both leave the store unchanged and return an error. -/
theorem C9_validation (m : Measurement) (j : JDB) (p : PJDB) (now : Int) :
    (m.Validate = .error .ErrEmptyName ↔ m.name = []) ∧
    (m.Validate = .error .ErrNoDimensions ↔ (m.name ≠ [] ∧ m.dimensions = [])) ∧
    (m.name ≠ [] → m.dimensions ≠ [] → m.Validate = .ok
      (if m.indices = [] then { m with indices := [(DefaultIndexName, m.name)] }
       else m)) ∧
    (m.dimensions = [] →
      (j.Insert m now).1 = j ∧ (j.Insert m now).2 ≠ none ∧
      (p.Upsert m).1 = p ∧ (p.Upsert m).2 ≠ none) := by
  refine ⟨?_, ?_, ?_, ?_⟩
  · by_cases hn : m.name = [] <;> by_cases hd : m.dimensions = [] <;>
      by_cases hi : m.indices = [] <;>
      simp [Measurement.Validate, List.length_eq_zero, hn, hd, hi]
  · by_cases hn : m.name = [] <;> by_cases hd : m.dimensions = [] <;>
      by_cases hi : m.indices = [] <;>
      simp [Measurement.Validate, List.length_eq_zero, hn, hd, hi]
  · intro hn hd
    by_cases hi : m.indices = [] <;>
      simp [Measurement.Validate, List.length_eq_zero, hn, hd, hi]
  · intro hd
    by_cases hn : m.name = [] <;>
      simp [JDB.Insert, PJDB.Upsert, Measurement.Validate, List.length_eq_zero,
        hn, hd]

/-- C10: in every reachable store state, every measurement slice held in
the time-shard map or in the index-shard map is non-empty, and every
shard handed to the queries' bucket ordering has a genuine first
element, so the unguarded `a[0]` accesses (and the range selector's
first/last reads) are in bounds. -/
theorem C10_shards_nonempty (j : JDB) (hj : Reachable j) :
    (∀ name buckets, alookup j.measurements name = some buckets →
      ∀ b s, alookup buckets b = some s → s ≠ []) ∧
    (∀ name im, alookup j.indices name = some im →
      ∀ k vm, alookup im k = some vm →
      ∀ v buckets, alookup vm v = some buckets →
      ∀ b s, alookup buckets b = some s → s ≠ []) ∧
    (∀ name buckets, alookup j.measurements name = some buckets →
      ∀ opts now, ∀ s ∈ collectShards opts now buckets, s.headD default ∈ s) := by
  have hinv := reachable_inv j hj
  refine ⟨?_, ?_, ?_⟩
  · intro name buckets hb b s hs
    exact ((hinv.1.2 name buckets hb).2 b s hs).1
  · intro name im hb k vm hk v buckets hv b s hs
    exact (((((hinv.2.2 name im hb).2 k vm hk).2) v buckets hv).2 b s hs).1
  · intro name buckets hb opts now s hs
    exact headD_mem s (collectShards_mem opts now buckets
      (hinv.1.2 name buckets hb) s hs).1

theorem C10_shards_nonempty_witness :
    Reachable jDup ∧
    ((∀ name buckets, alookup jDup.measurements name = some buckets →
        ∀ b s, alookup buckets b = some s → s ≠ []) ∧
      (∀ name im, alookup jDup.indices name = some im →
        ∀ k vm, alookup im k = some vm →
        ∀ v buckets, alookup vm v = some buckets →
        ∀ b s, alookup buckets b = some s → s ≠ []) ∧
      (∀ name buckets, alookup jDup.measurements name = some buckets →
        ∀ opts now, ∀ s ∈ collectShards opts now buckets, s.headD default ∈ s)) :=
  ⟨Reachable.insert jdb0 mDup 0 (by decide) (Reachable.boot [] 0 jdb0 rfl),
    C10_shards_nonempty jDup
      (Reachable.insert jdb0 mDup 0 (by decide) (Reachable.boot [] 0 jdb0 rfl))⟩

/-! ### The `slices.SortFunc` contract, made explicit

`slices.SortFunc` is documented as an unstable sort: on records comparing
equal (here: equal `When`) it guarantees a sorted permutation and nothing
about the tie order.  The deterministic `sortShard` above is one valid
implementation; to settle what the program itself guarantees, the engine
is re-stated below with the sort as a parameter ranging over every
function satisfying that contract. -/

/-- What Go guarantees of `slices.SortFunc` with the comparator
`a.When.Compare(b.When)`: the output is a permutation of the input,
non-decreasing by timestamp.  Tie order is unspecified. -/
def IsSortImpl (f : List Measurement → List Measurement) : Prop :=
  ∀ l : List Measurement,
    (f l).Perm l ∧ (f l).Pairwise (fun a c => a.when ≤ c.when)

theorem sortShard_isSortImpl : IsSortImpl sortShard :=
  fun l => ⟨sortShard_perm l, sortShard_pairwise l⟩

/-- The time-shard re-sort with an arbitrary sort implementation. -/
def sortMsF (f : List Measurement → List Measurement) (m : Measurement) :
    List (Str × List (Int × List Measurement)) →
    List (Str × List (Int × List Measurement)) :=
  aupdD m.name (aupdD m.dts f)

def sortIdxInnerF (f : List Measurement → List Measurement) (m : Measurement)
    (im : List (Str × List (Str × List (Int × List Measurement)))) :
    List (Str × List (Str × List (Int × List Measurement))) :=
  m.indices.foldl
    (fun acc kv => aupdD kv.1 (aupdD kv.2 (aupdD m.dts f)) acc) im

/-- The index-shard re-sorts with an arbitrary sort implementation. -/
def sortIdxF (f : List Measurement → List Measurement) (m : Measurement) :
    List (Str × List (Str × List (Str × List (Int × List Measurement)))) →
    List (Str × List (Str × List (Str × List (Int × List Measurement)))) :=
  aupdD m.name (sortIdxInnerF f m)

/-- `Insert`'s trailing re-sorts, parameterized by the sort. -/
def JDB.sortTouchedF (f : List Measurement → List Measurement) (j : JDB)
    (m : Measurement) : JDB :=
  { j with measurements := sortMsF f m j.measurements,
           indices := sortIdxF f m j.indices }

/-- `JDB.Insert` with the sort as an explicit parameter; `InsertF
sortShard` is definitionally `Insert`. -/
def JDB.InsertF (f : List Measurement → List Measurement) (j : JDB)
    (m : Measurement) (now : Int) : JDB × Option JdbErr :=
  match m.Validate with
  | .error e => (j, some e)
  | .ok mv =>
    let measurementIDs := mv.ids
    if measurementIDs.any (fun i => (alookup j.ids i).isSome) then
      (j, some .ErrDuplicateMeasurement)
    else
      match mv.fields with
      | .error e => (j, some e)
      | .ok measurementFields =>
        let j₁ := j.addMeasurement mv measurementIDs measurementFields
        let j₂ := { j₁ with saveBuffer := j₁.saveBuffer ++ [mv] }
        let j₃ := j₂.sortTouchedF f mv
        if FlushMaxSize ≤ j₃.saveBuffer.length ∨ j₃.lastSave + FlushMaxDuration < now then
          (j₃.flush now, none)
        else (j₃, none)

/-- The bulk post-replay sort of `New`, parameterized by the sort. -/
def JDB.sortAllShardsF (f : List Measurement → List Measurement) (j : JDB) : JDB :=
  { j with
    measurements := mapVals (mapVals f) j.measurements,
    indices := mapVals (mapVals (mapVals (mapVals f))) j.indices }

/-- `New` with the sort as an explicit parameter; `NewF sortShard` is
definitionally `New`. -/
def NewF (f : List Measurement → List Measurement) (file : List Str)
    (now : Int) : Option JDB :=
  match decodeFile file with
  | none => none
  | some ms =>
    let j₀ : JDB := { file := file, saveBuffer := [], lastSave := now,
                      ids := [], measurements := [], indices := [],
                      measurementFields := [] }
    let j₁ := ms.foldl (fun j m => j.addMeasurement m m.ids m.fieldsRaw.1) j₀
    some (j₁.sortAllShardsF f)

theorem insertF_sortShard (j : JDB) (m : Measurement) (now : Int) :
    j.InsertF sortShard m now = j.Insert m now := rfl

theorem newF_sortShard (file : List Str) (now : Int) :
    NewF sortShard file now = New file now := rfl

/-! ### Distinct timestamps force the sort's output -/

/-- Two sorted permutations of each other are equal once the timestamps
are pairwise distinct: sortedness is then strict. -/
theorem sorted_perm_eq (l₁ l₂ : List Measurement) (hp : l₁.Perm l₂)
    (h₁ : l₁.Pairwise (fun a c => a.when ≤ c.when))
    (h₂ : l₂.Pairwise (fun a c => a.when ≤ c.when))
    (hnd : (l₂.map (fun m => m.when)).Nodup) :
    l₁ = l₂ := by
  induction l₂ generalizing l₁ with
  | nil => exact hp.eq_nil
  | cons b t ih =>
    cases l₁ with
    | nil => cases hp.symm.eq_nil
    | cons a s =>
      have hab : a = b := by
        have hmem_a : a ∈ b :: t := hp.mem_iff.mp (List.mem_cons_self a s)
        have hmem_b : b ∈ a :: s := hp.symm.mem_iff.mp (List.mem_cons_self b t)
        have hle₁ := pairwise_head_le a s h₁ b hmem_b
        have hle₂ := pairwise_head_le b t h₂ a hmem_a
        rcases List.mem_cons.mp hmem_a with h | h
        · exact h
        · exfalso
          have hw : a.when = b.when := le_antisymm hle₁ hle₂
          simp only [List.map_cons, List.nodup_cons] at hnd
          exact hnd.1 (hw ▸ List.mem_map_of_mem (fun m => m.when) h)
      subst hab
      have hpt : s.Perm t := hp.cons_inv
      simp only [List.map_cons, List.nodup_cons] at hnd
      rw [ih s hpt (List.pairwise_cons.mp h₁).2 (List.pairwise_cons.mp h₂).2 hnd.2]

/-- On a list with pairwise-distinct timestamps, every implementation of
the sort contract produces the same output as the canonical one. -/
theorem sortImpl_forced (f : List Measurement → List Measurement)
    (hf : IsSortImpl f) (l : List Measurement)
    (hnd : (l.map (fun m => m.when)).Nodup) : f l = sortShard l := by
  have hps := sortShard_perm l
  exact sorted_perm_eq (f l) (sortShard l) ((hf l).1.trans hps.symm)
    (hf l).2 (sortShard_pairwise l)
    (((hps.map (fun m => m.when)).nodup_iff).mpr hnd)

theorem aupd_congr {α β : Type} [DecidableEq α] (k : α) (f₁ f₂ : Option β → β)
    (l : List (α × β)) (h : f₁ (alookup l k) = f₂ (alookup l k)) :
    aupd k f₁ l = aupd k f₂ l := by
  induction l with
  | nil =>
    simp only [alookup_nil] at h
    simp [aupd, h]
  | cons p rest ih =>
    obtain ⟨k₁, v⟩ := p
    by_cases hk : k₁ = k
    · subst hk
      simp [alookup_cons] at h
      simp [aupd, h]
    · have hk₂ : alookup ((k₁, v) :: rest) k = alookup rest k := by
        simp [alookup_cons, hk]
      rw [hk₂] at h
      simp [aupd, hk, ih h]

theorem aupdD_congr {α β : Type} [DecidableEq α] (k : α) (g₁ g₂ : List β → List β)
    (l : List (α × List β)) (h : g₁ ((alookup l k).getD []) = g₂ ((alookup l k).getD [])) :
    aupdD k g₁ l = aupdD k g₂ l :=
  aupd_congr k _ _ l (by cases halt : alookup l k <;> simp [halt] at h ⊢ <;> exact h)

theorem mapVals_congr {α β γ : Type} (g₁ g₂ : β → γ) (l : List (α × β))
    (h : ∀ e ∈ l, g₁ e.2 = g₂ e.2) : mapVals g₁ l = mapVals g₂ l := by
  induction l with
  | nil => rfl
  | cons p rest ih =>
    simp only [mapVals, List.map_cons, List.cons.injEq]
    exact ⟨by rw [h p (List.mem_cons_self _ _)],
      ih (fun e he => h e (List.mem_cons_of_mem _ he))⟩

/-- Validation never changes the timestamp. -/
theorem validate_when (m mv : Measurement) (h : m.Validate = .ok mv) :
    mv.when = m.when := by
  unfold Measurement.Validate at h
  by_cases h₁ : m.name.length = 0
  · simp [h₁] at h
  · by_cases h₂ : m.dimensions.length = 0
    · simp [h₁, h₂] at h
    · by_cases h₃ : m.indices.length = 0 <;> simp [h₁, h₂, h₃] at h <;> rw [← h]

/-! ### Shard lookups through the nested maps -/

/-- The time shard stored at `(name, bucket)`, Go's `m[n][b]` with nil
defaults. -/
def msShard (M : List (Str × List (Int × List Measurement))) (n : Str)
    (b : Int) : List Measurement :=
  (alookup ((alookup M n).getD []) b).getD []

/-- The index shard stored at `(key, value, bucket)` of a per-name index
map. -/
def idxShard3 (X : List (Str × List (Str × List (Int × List Measurement))))
    (k v : Str) (b : Int) : List Measurement :=
  (alookup ((alookup ((alookup X k).getD []) v).getD []) b).getD []

/-- The index shard stored at `(name, key, value, bucket)`. -/
def idxShard
    (I : List (Str × List (Str × List (Str × List (Int × List Measurement)))))
    (n k v : Str) (b : Int) : List Measurement :=
  idxShard3 ((alookup I n).getD []) k v b

theorem msShard_upd_self (g : List Measurement → List Measurement) (n : Str)
    (b : Int) (M : List (Str × List (Int × List Measurement))) :
    msShard (aupdD n (aupdD b g) M) n b = g (msShard M n b) := by
  unfold msShard
  rw [alookup_aupdD_self]
  simp only [Option.getD_some]
  rw [alookup_aupdD_self]
  rfl

theorem msShard_upd_other (g : List Measurement → List Measurement) (n₁ : Str)
    (b₁ : Int) (M : List (Str × List (Int × List Measurement))) (n : Str) (b : Int)
    (h : ¬(n = n₁ ∧ b = b₁)) :
    msShard (aupdD n₁ (aupdD b₁ g) M) n b = msShard M n b := by
  unfold msShard
  by_cases hn : n = n₁
  · subst hn
    have hb : b ≠ b₁ := fun hb => h ⟨rfl, hb⟩
    rw [alookup_aupdD_self]
    simp only [Option.getD_some]
    rw [alookup_aupdD_other b₁ b g _ (fun he => hb he.symm)]
  · rw [alookup_aupdD_other n₁ n _ M (fun he => hn he.symm)]

theorem idxShard3_upd_self (g : List Measurement → List Measurement) (k v : Str)
    (b : Int) (X : List (Str × List (Str × List (Int × List Measurement)))) :
    idxShard3 (aupdD k (aupdD v (aupdD b g)) X) k v b = g (idxShard3 X k v b) := by
  unfold idxShard3
  rw [alookup_aupdD_self]
  simp only [Option.getD_some]
  rw [alookup_aupdD_self]
  simp only [Option.getD_some]
  rw [alookup_aupdD_self]
  rfl

theorem idxShard3_upd_other (g : List Measurement → List Measurement)
    (k₁ v₁ : Str) (b₁ : Int)
    (X : List (Str × List (Str × List (Int × List Measurement))))
    (k v : Str) (b : Int) (h : ¬(k = k₁ ∧ v = v₁ ∧ b = b₁)) :
    idxShard3 (aupdD k₁ (aupdD v₁ (aupdD b₁ g)) X) k v b = idxShard3 X k v b := by
  unfold idxShard3
  by_cases hk : k = k₁
  · subst hk
    rw [alookup_aupdD_self]
    simp only [Option.getD_some]
    by_cases hv : v = v₁
    · subst hv
      have hb : b ≠ b₁ := fun hb => h ⟨rfl, rfl, hb⟩
      rw [alookup_aupdD_self]
      simp only [Option.getD_some]
      rw [alookup_aupdD_other b₁ b g _ (fun he => hb he.symm)]
    · rw [alookup_aupdD_other v₁ v _ _ (fun he => hv he.symm)]
  · rw [alookup_aupdD_other k₁ k _ X (fun he => hk he.symm)]

theorem msShard_addMs (m : Measurement)
    (M : List (Str × List (Int × List Measurement))) (n : Str) (b : Int) :
    msShard (addMs m M) n b =
      if m.name = n ∧ m.dts = b then msShard M n b ++ [m] else msShard M n b := by
  unfold addMs
  by_cases hc : m.name = n ∧ m.dts = b
  · obtain ⟨h₁, h₂⟩ := hc
    subst h₁
    subst h₂
    rw [if_pos ⟨rfl, rfl⟩, msShard_upd_self]
  · rw [if_neg hc, msShard_upd_other _ _ _ _ _ _ (fun hc₂ => hc ⟨hc₂.1.symm, hc₂.2.symm⟩)]

theorem msShard_mapVals_sort (M : List (Str × List (Int × List Measurement)))
    (n : Str) (b : Int) :
    msShard (mapVals (mapVals sortShard) M) n b = sortShard (msShard M n b) := by
  unfold msShard
  rw [alookup_mapVals]
  cases h₁ : alookup M n with
  | none => rfl
  | some ts =>
    simp only [Option.map_some', Option.getD_some]
    rw [alookup_mapVals]
    cases h₂ : alookup ts b with
    | none => rfl
    | some s => rfl

theorem idxShard_mapVals_sort
    (I : List (Str × List (Str × List (Str × List (Int × List Measurement)))))
    (n k v : Str) (b : Int) :
    idxShard (mapVals (mapVals (mapVals (mapVals sortShard))) I) n k v b =
      sortShard (idxShard I n k v b) := by
  unfold idxShard idxShard3
  rw [alookup_mapVals]
  cases h₁ : alookup I n with
  | none => rfl
  | some x₁ =>
    simp only [Option.map_some', Option.getD_some]
    rw [alookup_mapVals]
    cases h₂ : alookup x₁ k with
    | none => rfl
    | some x₂ =>
      simp only [Option.map_some', Option.getD_some]
      rw [alookup_mapVals]
      cases h₃ : alookup x₂ v with
      | none => rfl
      | some x₃ =>
        simp only [Option.map_some', Option.getD_some]
        rw [alookup_mapVals]
        cases h₄ : alookup x₃ b with
        | none => rfl
        | some s => rfl

/-- Appending a record along its (distinct-keyed) index pairs touches
exactly the `(k, v, dts)` paths of its own pairs. -/
theorem foldAdd_idxShard3 (m : Measurement) :
    ∀ pairs : List (Str × Str), (pairs.map (fun p => p.1)).Nodup →
    ∀ (X : List (Str × List (Str × List (Int × List Measurement))))
      (k v : Str) (b : Int),
    idxShard3 (pairs.foldl (fun acc kv =>
        aupdD kv.1 (aupdD kv.2 (aupdD m.dts (fun s => s ++ [m]))) acc) X) k v b =
      if (k, v) ∈ pairs ∧ b = m.dts then idxShard3 X k v b ++ [m]
      else idxShard3 X k v b := by
  intro pairs
  induction pairs with
  | nil =>
    intro _ X k v b
    simp
  | cons p rest ih =>
    intro hnd X k v b
    obtain ⟨k₁, v₁⟩ := p
    simp only [List.map_cons, List.nodup_cons] at hnd
    rw [List.foldl_cons, ih hnd.2 _ k v b]
    by_cases hb : b = m.dts
    · subst hb
      by_cases hpair : (k, v) = (k₁, v₁)
      · have hk : k = k₁ := congrArg Prod.fst hpair
        have hv : v = v₁ := congrArg Prod.snd hpair
        subst hk
        subst hv
        have hnotr : (k, v) ∉ rest := fun hmem =>
          hnd.1 (List.mem_map_of_mem (fun p => p.1) hmem)
        rw [if_neg (fun hc => hnotr hc.1), idxShard3_upd_self,
          if_pos ⟨List.mem_cons_self _ _, rfl⟩]
      · have hno : ¬(k = k₁ ∧ v = v₁ ∧ m.dts = m.dts) := by
          rintro ⟨h1, h2, _⟩
          exact hpair (by rw [h1, h2])
        rw [idxShard3_upd_other _ _ _ _ _ _ _ _ hno]
        by_cases hr : (k, v) ∈ rest
        · rw [if_pos ⟨hr, rfl⟩, if_pos ⟨List.mem_cons_of_mem _ hr, rfl⟩]
        · rw [if_neg (fun hc => hr hc.1), if_neg (fun hc => by
            rcases List.mem_cons.mp hc.1 with h | h
            · exact hpair h
            · exact hr h)]
    · have hno : ¬(k = k₁ ∧ v = v₁ ∧ b = m.dts) := fun hc => hb hc.2.2
      rw [idxShard3_upd_other _ _ _ _ _ _ _ _ hno,
        if_neg (fun hc => hb hc.2), if_neg (fun hc => hb hc.2)]

theorem idxShard_addIdx (m : Measurement)
    (hnd : (akeys m.indices).Nodup)
    (I : List (Str × List (Str × List (Str × List (Int × List Measurement)))))
    (n k v : Str) (b : Int) :
    idxShard (addIdx m I) n k v b =
      if m.name = n ∧ (k, v) ∈ m.indices ∧ m.dts = b
      then idxShard I n k v b ++ [m] else idxShard I n k v b := by
  unfold addIdx idxShard
  have hnd₂ : (m.indices.map (fun p => p.1)).Nodup := hnd
  by_cases hn : m.name = n
  · subst hn
    rw [alookup_aupdD_self]
    simp only [Option.getD_some]
    show idxShard3 (addIdxInner m _) k v b = _
    unfold addIdxInner
    rw [foldAdd_idxShard3 m m.indices hnd₂ _ k v b]
    by_cases hc : (k, v) ∈ m.indices ∧ b = m.dts
    · rw [if_pos ⟨hc.1, hc.2⟩, if_pos (by
        refine ⟨?_, hc.1, hc.2.symm⟩
        first
        | rfl
        | trivial)]
    · rw [if_neg hc, if_neg (fun hc₂ => hc ⟨hc₂.2.1, hc₂.2.2.symm⟩)]
  · rw [alookup_aupdD_other m.name n _ I hn,
      if_neg (fun hc => hn hc.1)]

/-- The raw replayed time shard at `(n, b)` is the in-order filter of the
replayed records landing there. -/
theorem rawMs_shard (ms : List Measurement) (n : Str) (b : Int) :
    msShard (rawMs ms) n b =
      ms.filter (fun m => decide (m.name = n) && decide (m.dts = b)) := by
  induction ms using List.reverseRecOn with
  | nil => rfl
  | append_singleton a m ih =>
    rw [rawMs_append, msShard_addMs, List.filter_append, ih]
    by_cases hc : m.name = n ∧ m.dts = b
    · rw [if_pos hc]
      simp [hc.1, hc.2]
    · rw [if_neg hc]
      have : (decide (m.name = n) && decide (m.dts = b)) = false := by
        rcases Decidable.not_and_iff_or_not.mp hc with h | h <;> simp [h]
      simp [this]

/-- The raw replayed index shard at `(n, k, v, b)` is the in-order filter
of the replayed records carrying that index pair and landing there. -/
theorem rawIdx_shard (ms : List Measurement)
    (hwf : ∀ m ∈ ms, (akeys m.indices).Nodup) (n k v : Str) (b : Int) :
    idxShard (rawIdx ms) n k v b =
      ms.filter (fun m => decide (m.name = n) && decide ((k, v) ∈ m.indices) &&
        decide (m.dts = b)) := by
  induction ms using List.reverseRecOn with
  | nil => rfl
  | append_singleton a m ih =>
    have hwa : ∀ x ∈ a, (akeys x.indices).Nodup := fun x hx =>
      hwf x (List.mem_append_left _ hx)
    have hwm : (akeys m.indices).Nodup :=
      hwf m (List.mem_append_right _ (List.mem_singleton_self m))
    rw [rawIdx_append, idxShard_addIdx m hwm, List.filter_append, ih hwa]
    by_cases hc : m.name = n ∧ (k, v) ∈ m.indices ∧ m.dts = b
    · rw [if_pos hc]
      simp [hc.1, hc.2.1, hc.2.2]
    · rw [if_neg hc]
      have : (decide (m.name = n) && decide ((k, v) ∈ m.indices) &&
          decide (m.dts = b)) = false := by
        by_cases h₁ : m.name = n
        · by_cases h₂ : (k, v) ∈ m.indices
          · have h₃ : ¬(m.dts = b) := fun h₃ => hc ⟨h₁, h₂, h₃⟩
            simp [h₃]
          · simp [h₂]
        · simp [h₁]
      simp [this]

theorem nodup_append_singleton {α : Type} (l : List α) (w : α)
    (hnd : l.Nodup) (hw : w ∉ l) : (l ++ [w]).Nodup := by
  rw [List.nodup_append]
  refine ⟨hnd, List.nodup_singleton w, ?_⟩
  intro x hx hx₂
  simp only [List.mem_singleton] at hx₂
  subst hx₂
  exact hw hx

theorem sortMsF_congr (f : List Measurement → List Measurement)
    (hf : IsSortImpl f) (m : Measurement)
    (M : List (Str × List (Int × List Measurement)))
    (hnd : ((msShard M m.name m.dts).map (fun q => q.when)).Nodup) :
    sortMsF f m M = sortMs m M := by
  unfold sortMsF sortMs
  apply aupdD_congr
  apply aupdD_congr
  exact sortImpl_forced f hf _ hnd

theorem foldSort_congr (f : List Measurement → List Measurement)
    (hf : IsSortImpl f) (m : Measurement) :
    ∀ pairs : List (Str × Str), (pairs.map (fun p => p.1)).Nodup →
    ∀ X : List (Str × List (Str × List (Int × List Measurement))),
    (∀ kv ∈ pairs, ((idxShard3 X kv.1 kv.2 m.dts).map (fun q => q.when)).Nodup) →
    pairs.foldl (fun acc kv => aupdD kv.1 (aupdD kv.2 (aupdD m.dts f)) acc) X =
    pairs.foldl (fun acc kv => aupdD kv.1 (aupdD kv.2 (aupdD m.dts sortShard)) acc) X := by
  intro pairs
  induction pairs with
  | nil =>
    intro _ X _
    rfl
  | cons p rest ih =>
    intro hnd X hsh
    obtain ⟨k₁, v₁⟩ := p
    simp only [List.map_cons, List.nodup_cons] at hnd
    rw [List.foldl_cons, List.foldl_cons]
    have hstep : aupdD k₁ (aupdD v₁ (aupdD m.dts f)) X =
        aupdD k₁ (aupdD v₁ (aupdD m.dts sortShard)) X := by
      apply aupdD_congr
      apply aupdD_congr
      apply aupdD_congr
      exact sortImpl_forced f hf _ (hsh (k₁, v₁) (List.mem_cons_self _ _))
    rw [hstep]
    apply ih hnd.2
    intro kv hkv
    have hne : kv.1 ≠ k₁ := fun he =>
      hnd.1 (he ▸ List.mem_map_of_mem (fun p => p.1) hkv)
    rw [idxShard3_upd_other sortShard k₁ v₁ m.dts X kv.1 kv.2 m.dts
      (fun hc => hne hc.1)]
    exact hsh kv (List.mem_cons_of_mem _ hkv)

theorem sortIdxF_congr (f : List Measurement → List Measurement)
    (hf : IsSortImpl f) (m : Measurement) (hnd : (akeys m.indices).Nodup)
    (I : List (Str × List (Str × List (Str × List (Int × List Measurement)))))
    (hsh : ∀ kv ∈ m.indices,
      ((idxShard I m.name kv.1 kv.2 m.dts).map (fun q => q.when)).Nodup) :
    sortIdxF f m I = sortIdx m I := by
  unfold sortIdxF sortIdx
  apply aupdD_congr
  show sortIdxInnerF f m _ = sortIdxInner m _
  unfold sortIdxInnerF sortIdxInner
  exact foldSort_congr f hf m m.indices hnd _ (fun kv hkv => hsh kv hkv)

/-- One `InsertF` step agrees with `Insert` whenever the timestamps in
the touched shards are pairwise distinct and the new record's timestamp
is fresh there. -/
theorem insertF_eq_insert (f : List Measurement → List Measurement)
    (hf : IsSortImpl f) (j : JDB) (m : Measurement) (now : Int)
    (h : ∀ mv, m.Validate = .ok mv →
      ((msShard j.measurements mv.name mv.dts).map (fun q => q.when)).Nodup ∧
      mv.when ∉ (msShard j.measurements mv.name mv.dts).map (fun q => q.when) ∧
      (akeys mv.indices).Nodup ∧
      ∀ kv ∈ mv.indices,
        ((idxShard j.indices mv.name kv.1 kv.2 mv.dts).map (fun q => q.when)).Nodup ∧
        mv.when ∉ (idxShard j.indices mv.name kv.1 kv.2 mv.dts).map (fun q => q.when)) :
    j.InsertF f m now = j.Insert m now := by
  unfold JDB.InsertF JDB.Insert
  cases hv : m.Validate with
  | error e => rfl
  | ok mv =>
    obtain ⟨hmsN, hmsNi, hidxK, hidxSh⟩ := h mv hv
    by_cases hdup : mv.ids.any (fun i => (alookup j.ids i).isSome)
    · simp only [hdup, if_pos]
    · simp only [Bool.not_eq_true] at hdup
      simp only [hdup]
      cases hfl : mv.fields with
      | error e => rfl
      | ok flds =>
        have h₁ : sortMsF f mv (addMs mv j.measurements) =
            sortMs mv (addMs mv j.measurements) := by
          apply sortMsF_congr f hf
          rw [msShard_addMs, if_pos ⟨rfl, rfl⟩, List.map_append]
          exact nodup_append_singleton _ _ hmsN (by simpa using hmsNi)
        have h₂ : sortIdxF f mv (addIdx mv j.indices) =
            sortIdx mv (addIdx mv j.indices) := by
          apply sortIdxF_congr f hf mv hidxK
          intro kv hkv
          rw [idxShard_addIdx mv hidxK, if_pos ⟨rfl, hkv, rfl⟩, List.map_append]
          exact nodup_append_singleton _ _ (hidxSh kv hkv).1
            (by simpa using (hidxSh kv hkv).2)
        simp only [JDB.sortTouchedF, JDB.sortTouched, JDB.addMeasurement, h₁, h₂]

theorem sortShard_map_when_nodup (l : List Measurement)
    (h : (l.map (fun q => q.when)).Nodup) :
    ((sortShard l).map (fun q => q.when)).Nodup :=
  (((sortShard_perm l).map (fun q => q.when)).nodup_iff).mpr h

theorem mem_map_when_of_sortShard (l : List Measurement) (w : Int)
    (h : w ∈ (sortShard l).map (fun q => q.when)) :
    w ∈ l.map (fun q => q.when) :=
  ((sortShard_perm l).map (fun q => q.when)).mem_iff.mp h

/-- The whole insert history: with timestamps pairwise distinct across
the replayed prefix and the inserted records, the parameterized chain
agrees with the deterministic one, and the deterministic normal forms
(as in the stable model) describe the outcome. -/
theorem masterF (f : List Measurement → List Measurement) (hf : IsSortImpl f) :
    ∀ ins : List (Measurement × Int), (∀ p ∈ ins, p.1.WF) →
    ∀ (j : JDB) (acc : List Measurement),
    (∀ q ∈ acc, (akeys q.indices).Nodup) →
    ((acc ++ ins.map (fun p => p.1)).map (fun q => q.when)).Nodup →
    j.measurements = mapVals (mapVals sortShard) (rawMs acc) →
    j.indices = mapVals (mapVals (mapVals (mapVals sortShard))) (rawIdx acc) →
    ins.foldl (fun q p => (q.InsertF f p.1 p.2).1) j =
      ins.foldl (fun q p => (q.Insert p.1 p.2).1) j ∧
    ∃ ws : List Measurement, (∀ q ∈ ws, q.WF) ∧
      ((acc ++ ws).map (fun q => q.when)).Nodup ∧
      (ins.foldl (fun q p => (q.Insert p.1 p.2).1) j).measurements =
        mapVals (mapVals sortShard) (rawMs (acc ++ ws)) ∧
      (ins.foldl (fun q p => (q.Insert p.1 p.2).1) j).indices =
        mapVals (mapVals (mapVals (mapVals sortShard))) (rawIdx (acc ++ ws)) ∧
      (ins.foldl (fun q p => (q.Insert p.1 p.2).1) j).file ++
          ((ins.foldl (fun q p => (q.Insert p.1 p.2).1) j).saveBuffer.map encodeLine) =
        j.file ++ j.saveBuffer.map encodeLine ++ ws.map encodeLine := by
  intro ins
  induction ins with
  | nil =>
    intro _ j acc hacc hnd hms hidx
    refine ⟨rfl, [], by simp, by simpa using hnd, by simpa using hms,
      by simpa using hidx, by simp⟩
  | cons p rest ih =>
    intro hwf j acc hacc hnd hms hidx
    obtain ⟨m, now⟩ := p
    have hndflat : ((acc.map (fun q => q.when)) ++
        (m.when :: (rest.map (fun p => p.1)).map (fun q => q.when))).Nodup := by
      simpa [List.map_append, List.map_cons] using hnd
    have haccN : (acc.map (fun q => q.when)).Nodup :=
      (List.nodup_append.mp hndflat).1
    have hmfresh : m.when ∉ acc.map (fun q => q.when) := by
      intro hmem
      exact (List.nodup_append.mp hndflat).2.2 hmem (List.mem_cons_self _ _)
    have hstep : j.InsertF f m now = j.Insert m now := by
      apply insertF_eq_insert f hf
      intro mv hv
      have hmvWF : mv.WF := validate_WF m mv (hwf (m, now) (List.mem_cons_self _ _)) hv
      have hmw : mv.when = m.when := validate_when m mv hv
      have hshardMs : msShard j.measurements mv.name mv.dts =
          sortShard (acc.filter (fun q => decide (q.name = mv.name) &&
            decide (q.dts = mv.dts))) := by
        rw [hms, msShard_mapVals_sort, rawMs_shard]
      have hfiltMsN : ((acc.filter (fun q => decide (q.name = mv.name) &&
          decide (q.dts = mv.dts))).map (fun q => q.when)).Nodup :=
        haccN.sublist (List.Sublist.map _ (List.filter_sublist acc))
      refine ⟨?_, ?_, hmvWF.2.2.2.2.2.2, ?_⟩
      · rw [hshardMs]
        exact sortShard_map_when_nodup _ hfiltMsN
      · rw [hshardMs, hmw]
        intro hmem
        exact hmfresh (List.Sublist.mem
          (mem_map_when_of_sortShard _ _ hmem)
          (List.Sublist.map _ (List.filter_sublist acc)))
      · intro kv hkv
        have hshardIdx : idxShard j.indices mv.name kv.1 kv.2 mv.dts =
            sortShard (acc.filter (fun q => decide (q.name = mv.name) &&
              decide ((kv.1, kv.2) ∈ q.indices) && decide (q.dts = mv.dts))) := by
          rw [hidx, idxShard_mapVals_sort, rawIdx_shard acc hacc]
        have hfiltN : ((acc.filter (fun q => decide (q.name = mv.name) &&
            decide ((kv.1, kv.2) ∈ q.indices) && decide (q.dts = mv.dts))).map
              (fun q => q.when)).Nodup :=
          haccN.sublist (List.Sublist.map _ (List.filter_sublist acc))
        constructor
        · rw [hshardIdx]
          exact sortShard_map_when_nodup _ hfiltN
        · rw [hshardIdx, hmw]
          intro hmem
          exact hmfresh (List.Sublist.mem
            (mem_map_when_of_sortShard _ _ hmem)
            (List.Sublist.map _ (List.filter_sublist acc)))
    rw [List.foldl_cons, List.foldl_cons, hstep]
    rcases insert_shape j m now with heq | ⟨mv, hv, hm2, hi2, hfile2⟩
    · rw [heq]
      apply ih (fun q hq => hwf q (List.mem_cons_of_mem _ hq)) j acc hacc ?_ hms hidx
      have hsub : (acc ++ rest.map (fun p => p.1)).Sublist
          (acc ++ (m, now).1 :: rest.map (fun p => p.1)) :=
        List.Sublist.append_left (List.sublist_cons_self _ _) acc
      exact hnd.sublist (hsub.map _)
    · have hmvWF : mv.WF := validate_WF m mv (hwf (m, now) (List.mem_cons_self _ _)) hv
      have hmw : mv.when = m.when := validate_when m mv hv
      have hm3 : ((j.Insert m now).1).measurements =
          mapVals (mapVals sortShard) (rawMs (acc ++ [mv])) := by
        rw [hm2, hms, key_measurements, rawMs_append]
      have hi3 : ((j.Insert m now).1).indices =
          mapVals (mapVals (mapVals (mapVals sortShard))) (rawIdx (acc ++ [mv])) := by
        rw [hi2, hidx, key_indices mv hmvWF.2.2.2.2.2.2, rawIdx_append]
      have hacc' : ∀ q ∈ acc ++ [mv], (akeys q.indices).Nodup := by
        intro q hq
        rcases List.mem_append.mp hq with h | h
        · exact hacc q h
        · simp only [List.mem_singleton] at h
          subst h
          exact hmvWF.2.2.2.2.2.2
      have hnd' : (((acc ++ [mv]) ++ rest.map (fun p => p.1)).map
          (fun q => q.when)).Nodup := by
        have he : (((acc ++ [mv]) ++ rest.map (fun p => p.1)).map (fun q => q.when)) =
            ((acc.map (fun q => q.when)) ++
              (m.when :: (rest.map (fun p => p.1)).map (fun q => q.when))) := by
          simp [List.map_append, hmw]
        rw [he]
        exact hndflat
      obtain ⟨hchain, ws, hwsWF, hwsNd, hws1, hws2, hws3⟩ :=
        ih (fun q hq => hwf q (List.mem_cons_of_mem _ hq)) ((j.Insert m now).1)
          (acc ++ [mv]) hacc' hnd' hm3 hi3
      refine ⟨hchain, mv :: ws, ?_, ?_, ?_, ?_, ?_⟩
      · intro q hq
        rcases List.mem_cons.mp hq with h | h
        · subst h
          exact hmvWF
        · exact hwsWF q h
      · have he : ((acc ++ mv :: ws).map (fun q => q.when)) =
            (((acc ++ [mv]) ++ ws).map (fun q => q.when)) := by
          simp [List.append_assoc]
        rw [he]
        exact hwsNd
      · rw [hws1, List.append_assoc]
        rfl
      · rw [hws2, List.append_assoc]
        rfl
      · rw [hws3, hfile2]
        simp [List.append_assoc]

/-- Boot agrees with the deterministic model for every sort
implementation once the replayed timestamps are pairwise distinct. -/
theorem newF_eq_new (f : List Measurement → List Measurement) (hf : IsSortImpl f)
    (file : List Str) (now : Int) (ms : List Measurement)
    (hd : decodeFile file = some ms)
    (hidxnd : ∀ q ∈ ms, (akeys q.indices).Nodup)
    (hnd : (ms.map (fun q => q.when)).Nodup) :
    NewF f file now = New file now := by
  have hpre : (ms.foldl (fun (j : JDB) (m : Measurement) =>
      j.addMeasurement m m.ids m.fieldsRaw.1)
      { file := file, saveBuffer := [], lastSave := now, ids := [],
        measurements := [], indices := [], measurementFields := [] }).PreInv := by
    apply preInv_replay
    constructor
    · exact ⟨List.nodup_nil, fun n ts h => by rw [alookup_nil] at h; cases h⟩
    · exact ⟨List.nodup_nil, fun n im h => by rw [alookup_nil] at h; cases h⟩
  have hrawm : (ms.foldl (fun (j : JDB) (m : Measurement) =>
      j.addMeasurement m m.ids m.fieldsRaw.1)
      { file := file, saveBuffer := [], lastSave := now, ids := [],
        measurements := [], indices := [], measurementFields := [] }).measurements =
      rawMs ms := by
    rw [foldl_addMeasurement_measurements]
    rfl
  have hrawi : (ms.foldl (fun (j : JDB) (m : Measurement) =>
      j.addMeasurement m m.ids m.fieldsRaw.1)
      { file := file, saveBuffer := [], lastSave := now, ids := [],
        measurements := [], indices := [], measurementFields := [] }).indices =
      rawIdx ms := by
    rw [foldl_addMeasurement_indices]
    rfl
  have hA : mapVals (mapVals f) (rawMs ms) =
      mapVals (mapVals sortShard) (rawMs ms) := by
    have hKnd : (akeys (rawMs ms)).Nodup := by
      have := hpre.1.1
      rwa [hrawm] at this
    have hTS : ∀ n ts, alookup (rawMs ms) n = some ts → TimeShardsPre ts := by
      intro n ts hl
      apply hpre.1.2 n ts
      rwa [hrawm]
    apply mapVals_congr
    intro e he
    apply mapVals_congr
    intro kv hkv
    have hts : TimeShardsPre e.2 :=
      hTS e.1 e.2 (alookup_eq_some_of_mem _ e hKnd he)
    have hsh : kv.2 = msShard (rawMs ms) e.1 kv.1 := by
      unfold msShard
      rw [alookup_eq_some_of_mem _ e hKnd he]
      simp only [Option.getD_some]
      rw [alookup_eq_some_of_mem _ kv hts.1 hkv]
      rfl
    rw [hsh, rawMs_shard]
    exact sortImpl_forced f hf _
      (hnd.sublist (List.Sublist.map _ (List.filter_sublist ms)))
  have hB : mapVals (mapVals (mapVals (mapVals f))) (rawIdx ms) =
      mapVals (mapVals (mapVals (mapVals sortShard))) (rawIdx ms) := by
    have hKnd : (akeys (rawIdx ms)).Nodup := by
      have := hpre.2.1
      rwa [hrawi] at this
    have hIM : ∀ n im, alookup (rawIdx ms) n = some im →
        (akeys im).Nodup ∧ ∀ k vm, alookup im k = some vm →
          (akeys vm).Nodup ∧ ∀ v ts, alookup vm v = some ts → TimeShardsPre ts := by
      intro n im hl
      apply hpre.2.2 n im
      rwa [hrawi]
    apply mapVals_congr
    intro e₁ he₁
    have h₁ := hIM e₁.1 e₁.2 (alookup_eq_some_of_mem _ e₁ hKnd he₁)
    apply mapVals_congr
    intro e₂ he₂
    have h₂ := h₁.2 e₂.1 e₂.2 (alookup_eq_some_of_mem _ e₂ h₁.1 he₂)
    apply mapVals_congr
    intro e₃ he₃
    have h₃ := h₂.2 e₃.1 e₃.2 (alookup_eq_some_of_mem _ e₃ h₂.1 he₃)
    apply mapVals_congr
    intro kv hkv
    have hsh : kv.2 = idxShard (rawIdx ms) e₁.1 e₂.1 e₃.1 kv.1 := by
      unfold idxShard idxShard3
      rw [alookup_eq_some_of_mem _ e₁ hKnd he₁]
      simp only [Option.getD_some]
      rw [alookup_eq_some_of_mem _ e₂ h₁.1 he₂]
      simp only [Option.getD_some]
      rw [alookup_eq_some_of_mem _ e₃ h₂.1 he₃]
      simp only [Option.getD_some]
      rw [alookup_eq_some_of_mem _ kv h₃.1 hkv]
      rfl
    rw [hsh, rawIdx_shard ms hidxnd]
    exact sortImpl_forced f hf _
      (hnd.sublist (List.Sublist.map _ (List.filter_sublist ms)))
  unfold NewF New
  rw [hd]
  show some _ = some _
  rw [Option.some.injEq]
  show JDB.sortAllShardsF f _ = JDB.sortAllShards _
  unfold JDB.sortAllShardsF JDB.sortAllShards
  rw [hrawm, hrawi, hA, hB]

/-- C8 (corrected): round-trip persistence, over the actual guarantee of
`slices.SortFunc` (any sorted permutation; tie order unspecified).  For
every sort implementation satisfying that contract, a store booted from
a log of well-formed records and populated through `Insert` round-trips
exactly — identical `QueryAll` and `QueryAllIndex` results after closing
and reopening — provided the records' timestamps are pairwise distinct
(so the sort's output is forced even at reopen) and lie in the int64
range (where `time.Time`'s JSON marshaling, modelled by the injective
line codec, cannot fail).  Without the distinctness proviso the claim
fails: tie order of equal-timestamp records can differ between the
incremental re-sorts and the one bulk sort at reopen — see the
counterexample. -/
theorem C8_roundtrip_queries (f : List Measurement → List Measurement)
    (hf : IsSortImpl f) (file₀ : List Str) (now₀ : Int) (j₀ : JDB)
    (ms₀ : List Measurement) (hdec : decodeFile file₀ = some ms₀)
    (hms₀wf : ∀ q ∈ ms₀, q.WF)
    (hboot : NewF f file₀ now₀ = some j₀)
    (ins : List (Measurement × Int)) (hwf : ∀ p ∈ ins, p.1.WF)
    (hnd : ((ms₀ ++ ins.map (fun p => p.1)).map (fun q => q.when)).Nodup)
    (hr₀ : ∀ q ∈ ms₀, -(2 ^ 63) ≤ q.when ∧ q.when < 2 ^ 63)
    (hr : ∀ p ∈ ins, -(2 ^ 63) ≤ p.1.when ∧ p.1.when < 2 ^ 63)
    (nowC nowR : Int) :
    ∃ jRe, NewF f
        (((ins.foldl (fun q p => (q.InsertF f p.1 p.2).1) j₀).Close nowC).file)
        nowR = some jRe ∧
      (∀ name opts now, jRe.QueryAll name opts now =
        (ins.foldl (fun q p => (q.InsertF f p.1 p.2).1) j₀).QueryAll name opts now) ∧
      (∀ name index indexValue opts now,
        jRe.QueryAllIndex name index indexValue opts now =
          (ins.foldl (fun q p => (q.InsertF f p.1 p.2).1) j₀).QueryAllIndex
            name index indexValue opts now) := by
  have hms₀nd : (ms₀.map (fun q => q.when)).Nodup := by
    have h₂ : ((ms₀.map (fun q => q.when)) ++
        ((ins.map (fun p => p.1)).map (fun q => q.when))).Nodup := by
      simpa [List.map_append] using hnd
    exact h₂.sublist (List.sublist_append_left _ _)
  have hidxnd₀ : ∀ q ∈ ms₀, (akeys q.indices).Nodup := fun q hq =>
    (hms₀wf q hq).2.2.2.2.2.2
  have hbootD : New file₀ now₀ = some j₀ := by
    rw [← newF_eq_new f hf file₀ now₀ ms₀ hdec hidxnd₀ hms₀nd]
    exact hboot
  obtain ⟨jD, hnewD, hmD, hiD⟩ := new_of_decode file₀ now₀ ms₀ hdec
  have hjeq : j₀ = jD := by
    have h₂ := hbootD.symm.trans hnewD
    exact (Option.some.injEq _ _).mp h₂
  have hms : j₀.measurements = mapVals (mapVals sortShard) (rawMs ms₀) := by
    rw [hjeq]
    exact hmD
  have hidx : j₀.indices =
      mapVals (mapVals (mapVals (mapVals sortShard))) (rawIdx ms₀) := by
    rw [hjeq]
    exact hiD
  obtain ⟨hchain, ws, hwsWF, hwsNd, hws1, hws2, hws3⟩ :=
    masterF f hf ins hwf j₀ ms₀ hidxnd₀ hnd hms hidx
  have hbootD2 := hbootD
  unfold New at hbootD2
  rw [hdec] at hbootD2
  simp only [Option.some.injEq] at hbootD2
  have hj₀f : j₀.file = file₀ := by
    rw [← hbootD2]
    rw [show ∀ x : JDB, x.sortAllShards.file = x.file from fun x => rfl]
    rw [foldl_addMeasurement_file]
  have hj₀b : j₀.saveBuffer = [] := by
    rw [← hbootD2]
    rw [show ∀ x : JDB, x.sortAllShards.saveBuffer = x.saveBuffer from fun x => rfl]
    rw [foldl_addMeasurement_saveBuffer]
  have hfileF : ((ins.foldl (fun q p => (q.Insert p.1 p.2).1) j₀).Close nowC).file =
      file₀ ++ ws.map encodeLine := by
    show (ins.foldl (fun q p => (q.Insert p.1 p.2).1) j₀).file ++
      ((ins.foldl (fun q p => (q.Insert p.1 p.2).1) j₀).saveBuffer.map encodeLine) = _
    rw [hws3, hj₀f, hj₀b]
    simp
  have hdecF : decodeFile (file₀ ++ ws.map encodeLine) = some (ms₀ ++ ws) :=
    decodeFile_append_encoded file₀ ms₀ hdec ws hwsWF
  have hidxndF : ∀ q ∈ ms₀ ++ ws, (akeys q.indices).Nodup := by
    intro q hq
    rcases List.mem_append.mp hq with h | h
    · exact hidxnd₀ q h
    · exact (hwsWF q h).2.2.2.2.2.2
  obtain ⟨jRe, hnewRe, hmRe, hiRe⟩ :=
    new_of_decode (file₀ ++ ws.map encodeLine) nowR (ms₀ ++ ws) hdecF
  refine ⟨jRe, ?_, ?_, ?_⟩
  · rw [hchain, hfileF, newF_eq_new f hf _ nowR (ms₀ ++ ws) hdecF hidxndF hwsNd]
    exact hnewRe
  · intro name opts now
    rw [hchain]
    apply queryAll_congr
    rw [hmRe, hws1]
  · intro name index indexValue opts now
    rw [hchain]
    apply queryAllIndex_congr
    rw [hiRe, hws2]

/-- Three valid records sharing one nanosecond timestamp (and series),
with distinct index pairs so strict insertion admits all three into one
time shard. -/
def mE1 : Measurement :=
  { when := 0, name := [97], dimensions := [([100], 1)], labels := [],
    indices := [([107], [49])] }

def mE2 : Measurement :=
  { when := 0, name := [97], dimensions := [([100], 2)], labels := [],
    indices := [([107], [50])] }

def mE3 : Measurement :=
  { when := 0, name := [97], dimensions := [([100], 3)], labels := [],
    indices := [([107], [51])] }

/-- A deterministic sort satisfying the `slices.SortFunc` contract that
resolves the (sorted-either-way) tie of `[mE1, mE2]` the other way. -/
def badSort (l : List Measurement) : List Measurement :=
  if l = [mE1, mE2] then [mE2, mE1] else sortShard l

theorem badSort_isSortImpl : IsSortImpl badSort := by
  intro l
  unfold badSort
  by_cases h : l = [mE1, mE2]
  · subst h
    rw [if_pos rfl]
    exact ⟨by decide, by decide⟩
  · rw [if_neg h]
    exact ⟨sortShard_perm l, sortShard_pairwise l⟩

/-- The store after three successful equal-timestamp insertions under
`badSort`. -/
def jdbC8 : JDB :=
  (((jdb0.InsertF badSort mE1 0).1.InsertF badSort mE2 0).1.InsertF badSort mE3 0).1

/-- The same store closed and reopened under the same sort. -/
def jdbC8re : JDB := (NewF badSort ((jdbC8.Close 0).file) 0).getD jdb0

theorem C8_roundtrip_queries_counterexample :
    IsSortImpl badSort ∧
    mE1.WF ∧ mE2.WF ∧ mE3.WF ∧
    (jdb0.InsertF badSort mE1 0).2 = none ∧
    ((jdb0.InsertF badSort mE1 0).1.InsertF badSort mE2 0).2 = none ∧
    (((jdb0.InsertF badSort mE1 0).1.InsertF badSort mE2 0).1.InsertF
      badSort mE3 0).2 = none ∧
    NewF badSort ((jdbC8.Close 0).file) 0 = some jdbC8re ∧
    jdbC8.QueryAll [97] none 0 ≠ jdbC8re.QueryAll [97] none 0 :=
  ⟨badSort_isSortImpl, by decide, by decide, by decide, by decide, by decide,
    by decide, by decide, by decide⟩

theorem C8_roundtrip_queries_witness :
    IsSortImpl sortShard ∧
    (∃ jRe, NewF sortShard ((([(mDup, (0 : Int))].foldl
          (fun q p => (q.InsertF sortShard p.1 p.2).1) jdb0).Close 0).file) 0 =
        some jRe ∧
      (∀ name opts now, jRe.QueryAll name opts now =
        ([(mDup, (0 : Int))].foldl (fun q p => (q.InsertF sortShard p.1 p.2).1)
          jdb0).QueryAll name opts now) ∧
      (∀ name index indexValue opts now,
        jRe.QueryAllIndex name index indexValue opts now =
          ([(mDup, (0 : Int))].foldl (fun q p => (q.InsertF sortShard p.1 p.2).1)
            jdb0).QueryAllIndex name index indexValue opts now)) :=
  ⟨sortShard_isSortImpl,
    C8_roundtrip_queries sortShard sortShard_isSortImpl [] 0 jdb0 [] rfl (by decide)
      rfl [(mDup, 0)] (by decide) (by decide) (by decide) (by decide) 0 0⟩
